import Mathlib

set_option maxHeartbeats 1000000

/-!
Shallow embedding of the mazo maze generator/solver (src/main.rs and
src/binary_heap.rs) and proofs about it.

Modelling conventions:
* Rust `usize` values are modelled as `Nat`; where the source can wrap
  (the `as usize` cast and `+=` in `Maze::distance`) the embedding takes
  the result modulo `2 ^ 64`, matching release-mode wrapping semantics.
* `Vec<T>` is a `List T`; out-of-bounds reads (`v[i]`, which panic in
  Rust) are modelled with `List.getD`/defaults, and the theorems carry
  well-formedness hypotheses keeping every access in bounds.
* `HashMap<K, usize>` is a function `K → Option Nat`; `HashSet` is a
  `List` used as a set; the `links` map of `solve` is an association
  list so that the reconstruction loop structurally terminates.
* A `panic!` is modelled as an explicit outcome constructor
  (`SolveOutcome.panicNoPath` for the `panic!("No path found")` of
  `Maze::solve`), never as a default value.
* The random source `rng: &mut R` is modelled as a stream
  `rng : Nat → Nat`; the k-th call of `random_range(0..n)` in program
  order returns `rng k % n`.
-/

namespace Mazo

/-- Rust `usize` wraps at 2^64 (release mode). -/
def U64 : Nat := 2 ^ 64

/-- Model of `Vec::swap` (`self.items.swap(i, j)`): exchange slots `i` and
`j`.  The source only calls it with both indices in bounds. -/
def listSwap [Inhabited α] (xs : List α) (i j : Nat) : List α :=
  (xs.set i (xs.getD j default)).set j (xs.getD i default)

/-- Model of `Vec::swap_remove(i)`: overwrite slot `i` with the last
element and pop the last slot. -/
def swapRemove [Inhabited α] (xs : List α) (i : Nat) : List α :=
  (xs.set i (xs.getLastD default)).dropLast

/-! ### Indexed binary heap (`src/binary_heap.rs`) -/

/-- Model of `BinaryHashHeap`: a backing array of items plus a
key-to-index map (the `HashMap<T::Key, usize>`). -/
structure BinaryHashHeap (T : Type) (κ : Type) where
  items : List T
  map : κ → Option Nat

/-- Model of `PushAction`. -/
inductive PushAction where
  | Keep
  | DecreaseKey
  | IncreaseKey

/-- Model of `BinaryHashHeap::new` / `Default::default()`. -/
def BinaryHashHeap.new (T κ : Type) : BinaryHashHeap T κ :=
  ⟨[], fun _ => none⟩

variable {T κ ν : Type} [DecidableEq κ] [LinearOrder ν] [Inhabited T]

/-- One `sift_up`/`sift_down` swap step: swap array slots `i` and `p` and
update the map entries of both affected keys in the same step (the
source does this through `mem::swap` on the two live map entries). -/
def BinaryHashHeap.swapStep (key : T → κ) (h : BinaryHashHeap T κ)
    (i p : Nat) : BinaryHashHeap T κ :=
  { items := listSwap h.items i p,
    map := fun k =>
      if k = key (h.items.getD p default) then some i
      else if k = key (h.items.getD i default) then some p
      else h.map k }

/-- Model of `BinaryHashHeap::sift_up`.  The `&mut usize` argument is
modelled by returning the final index together with the heap. -/
def BinaryHashHeap.sift_up (key : T → κ) (value : T → ν)
    (h : BinaryHashHeap T κ) (i : Nat) : BinaryHashHeap T κ × Nat :=
  if i = 0 then (h, i)
  else
    let p := (i - 1) / 2
    if value (h.items.getD p default) < value (h.items.getD i default) then
      (h, i)
    else
      BinaryHashHeap.sift_up key value (BinaryHashHeap.swapStep key h i p) p
termination_by i
decreasing_by omega

/-- Model of `BinaryHashHeap::sift_down`.  The child choice mirrors the
source: missing left child picks the right child, two children pick the
strictly smaller-valued left child, ties pick the right child. -/
def BinaryHashHeap.sift_down (key : T → κ) (value : T → ν)
    (h : BinaryHashHeap T κ) (i : Nat) : BinaryHashHeap T κ × Nat :=
  let l := i * 2 + 1
  let r := i * 2 + 2
  match hl : h.items.get? l, hr : h.items.get? r with
  | none, none => (h, i)
  | none, some _ =>
    if value (h.items.getD i default) < value (h.items.getD r default) then
      (h, i)
    else
      BinaryHashHeap.sift_down key value (BinaryHashHeap.swapStep key h i r) r
  | some _, none =>
    if value (h.items.getD i default) < value (h.items.getD l default) then
      (h, i)
    else
      BinaryHashHeap.sift_down key value (BinaryHashHeap.swapStep key h i l) l
  | some ln, some rn =>
    let c := if value ln < value rn then l else r
    if value (h.items.getD i default) < value (h.items.getD c default) then
      (h, i)
    else
      BinaryHashHeap.sift_down key value (BinaryHashHeap.swapStep key h i c) c
termination_by h.items.length - i
decreasing_by
  all_goals simp only [BinaryHashHeap.swapStep, listSwap, List.length_set]
  · have hb := (List.get?_eq_some.mp hr).choose; omega
  · have hb := (List.get?_eq_some.mp hl).choose; omega
  · have hb1 := (List.get?_eq_some.mp hl).choose
    have hb2 := (List.get?_eq_some.mp hr).choose
    split <;> omega

/-- Model of `BinaryHashHeap::push`. -/
def BinaryHashHeap.push (key : T → κ) (value : T → ν)
    (h : BinaryHashHeap T κ) (action : PushAction) (item : T) :
    Bool × BinaryHashHeap T κ :=
  match h.map (key item) with
  | some index =>
    match action with
    | PushAction.Keep => (false, h)
    | PushAction.DecreaseKey =>
      if value (h.items.getD index default) ≤ value item then (false, h)
      else
        let h1 : BinaryHashHeap T κ := ⟨h.items.set index item, h.map⟩
        (true, (BinaryHashHeap.sift_up key value h1 index).1)
    | PushAction.IncreaseKey =>
      if value item ≤ value (h.items.getD index default) then (false, h)
      else
        let h1 : BinaryHashHeap T κ := ⟨h.items.set index item, h.map⟩
        (true, (BinaryHashHeap.sift_down key value h1 index).1)
  | none =>
    let index := h.items.length
    let h1 : BinaryHashHeap T κ :=
      ⟨h.items ++ [item], fun k => if k = key item then some index else h.map k⟩
    (true, (BinaryHashHeap.sift_up key value h1 index).1)

/-- Model of `BinaryHashHeap::pop`. -/
def BinaryHashHeap.pop (key : T → κ) (value : T → ν)
    (h : BinaryHashHeap T κ) : Option T × BinaryHashHeap T κ :=
  if h.items.isEmpty then (none, h)
  else
    let result := h.items.getD 0 default
    let items2 := swapRemove h.items 0
    let map2 : κ → Option Nat := fun k => if k = key result then none else h.map k
    match items2.head? with
    | none => (some result, ⟨items2, map2⟩)
    | some item =>
      let map3 : κ → Option Nat := fun k => if k = key item then some 0 else map2 k
      (some result,
        (BinaryHashHeap.sift_down key value (⟨items2, map3⟩ : BinaryHashHeap T κ) 0).1)

/-- Heap states reachable from the empty heap by any sequence of `push`
(with any `PushAction`) and `pop` operations. -/
inductive BinaryHashHeap.Reachable (key : T → κ) (value : T → ν) :
    BinaryHashHeap T κ → Prop where
  | empty : BinaryHashHeap.Reachable key value (BinaryHashHeap.new T κ)
  | push (h : BinaryHashHeap T κ) (a : PushAction) (t : T) :
      BinaryHashHeap.Reachable key value h →
      BinaryHashHeap.Reachable key value (BinaryHashHeap.push key value h a t).2
  | pop (h : BinaryHashHeap T κ) :
      BinaryHashHeap.Reachable key value h →
      BinaryHashHeap.Reachable key value (BinaryHashHeap.pop key value h).2

/-- The key-to-index map and the backing array agree: every array slot's
key is mapped to that slot, and every map entry points at an in-bounds
slot holding an item with that key. -/
def BinaryHashHeap.MapConsistent (key : T → κ) (h : BinaryHashHeap T κ) : Prop :=
  (∀ i, i < h.items.length → h.map (key (h.items.getD i default)) = some i) ∧
  (∀ k i, h.map k = some i →
    i < h.items.length ∧ key (h.items.getD i default) = k)

/-- The min-heap property of the backing array: no child slot's value is
less than its parent slot's value. -/
def HeapProp (value : T → ν) (ls : List T) : Prop :=
  ∀ j, 0 < j → j < ls.length →
    value (ls.getD ((j - 1) / 2) default) ≤ value (ls.getD j default)

/-- Loop invariant of `sift_up` at hole `i`: the heap property holds at
every parent/child pair whose child is not `i`, and the grandparent of
`i` already bounds the children of `i`. -/
def AlmostUp (value : T → ν) (ls : List T) (i : Nat) : Prop :=
  (∀ j, 0 < j → j < ls.length → j ≠ i →
    value (ls.getD ((j - 1) / 2) default) ≤ value (ls.getD j default)) ∧
  (∀ j, 0 < i → 0 < j → j < ls.length → (j - 1) / 2 = i →
    value (ls.getD ((i - 1) / 2) default) ≤ value (ls.getD j default))

/-- Loop invariant of `sift_down` at hole `i`: the heap property holds at
every parent/child pair whose parent is not `i`, and the parent of `i`
already bounds the children of `i`. -/
def AlmostDown (value : T → ν) (ls : List T) (i : Nat) : Prop :=
  (∀ j, 0 < j → j < ls.length → (j - 1) / 2 ≠ i →
    value (ls.getD ((j - 1) / 2) default) ≤ value (ls.getD j default)) ∧
  (∀ j, 0 < i → 0 < j → j < ls.length → (j - 1) / 2 = i →
    value (ls.getD ((i - 1) / 2) default) ≤ value (ls.getD j default))

/-- The full heap invariant: map/array agreement plus the min-heap
property. -/
def HeapInv (key : T → κ) (value : T → ν) (h : BinaryHashHeap T κ) : Prop :=
  BinaryHashHeap.MapConsistent key h ∧ HeapProp value h.items

/-- Repeatedly pop; the fuel is set to the number of stored items by
`popAll`, which is always enough. -/
def popAllAux (key : T → κ) (value : T → ν) :
    Nat → BinaryHashHeap T κ → List T
  | 0, _ => []
  | fuel + 1, h =>
    match BinaryHashHeap.pop key value h with
    | (none, _) => []
    | (some t, h') => t :: popAllAux key value fuel h'

/-- Pop every item of the heap in order. -/
def popAll (key : T → κ) (value : T → ν) (h : BinaryHashHeap T κ) : List T :=
  popAllAux key value h.items.length h

/-! ### Walls and cells (`src/main.rs`) -/

/-- Model of `Wall`: a canonical cell position plus an axis; the wall
separates that cell from its positive neighbour along the axis. -/
structure Wall where
  position : List Nat
  axis : Nat
deriving DecidableEq, Inhabited

/-- Model of `Wall::from_cell`: the `2 * D` walls touching a cell, in
source order (per axis: the positive wall at the cell, then the negative
wall at the cell with that axis decremented with wraparound). -/
def Wall.from_cell (shape : List Nat) (position : List Nat) : List Wall :=
  (List.range shape.length).flatMap fun axis =>
    [false, true].map fun sign =>
      let position :=
        if sign then
          if position.getD axis 0 ≠ 0 then
            position.set axis (position.getD axis 0 - 1)
          else
            position.set axis (shape.getD axis 0 - 1)
        else position
      Wall.mk position axis

/-- Model of `Wall::get_neighbour_cells`: the wall's own position and the
position incremented along the wall's axis with wraparound. -/
def Wall.get_neighbour_cells (w : Wall) (shape : List Nat) : List (List Nat) :=
  let position1 := w.position
  let position2 :=
    if w.position.getD w.axis 0 ≠ shape.getD w.axis 0 - 1 then
      w.position.set w.axis (w.position.getD w.axis 0 + 1)
    else
      w.position.set w.axis 0
  [position1, position2]

/-- Model of the `Maze` struct.  The Rust field `end` is called `endPos`
(`end` is a Lean keyword); `axes: [usize; 2]` is a pair. -/
structure Maze where
  dimensions : List Nat
  start : List Nat
  endPos : List Nat
  position : List Nat
  axes : Nat × Nat
  walls : List Bool
deriving DecidableEq

/-- Model of `Maze::new`. -/
def Maze.new (dimensions : List Nat) : Maze :=
  let start := List.replicate dimensions.length 0
  let endPos := List.replicate dimensions.length 0
  let position := List.replicate dimensions.length 0
  let axes := (0, 1)
  let wall_count := dimensions.prod * dimensions.length
  let walls := List.replicate wall_count true
  ⟨dimensions, start, endPos, position, axes, walls⟩

/-- Model of `Maze::compute_wall_index`: mixed-radix flattening of the
wall's position, plus `stride * axis` with the full stride. -/
def Maze.compute_wall_index (m : Maze) (wall : Wall) : Nat :=
  let p := (m.dimensions.zip wall.position).foldl
    (fun (acc : Nat × Nat) lv => (acc.1 + acc.2 * lv.2, acc.2 * lv.1)) (0, 1)
  p.1 + p.2 * wall.axis

/-- Model of `Maze::traverse` (and `traverse_inplace`): one step along
`axis` in the direction given by `sign`, wrapping around the torus. -/
def Maze.traverse (m : Maze) (position : List Nat) (axis : Nat) (sign : Bool) :
    List Nat :=
  if sign then
    if position.getD axis 0 ≠ m.dimensions.getD axis 0 - 1 then
      position.set axis (position.getD axis 0 + 1)
    else
      position.set axis 0
  else
    if position.getD axis 0 ≠ 0 then
      position.set axis (position.getD axis 0 - 1)
    else
      position.set axis (m.dimensions.getD axis 0 - 1)

/-- Model of `Maze::neighbours`: for every axis and sign, the separating
wall and the neighbouring cell. -/
def Maze.neighbours (m : Maze) (position : List Nat) :
    List (Wall × List Nat) :=
  (List.range m.dimensions.length).flatMap fun axis =>
    [false, true].map fun sign =>
      let neighbour_position := m.traverse position axis sign
      let wall_position := if sign then position else neighbour_position
      (Wall.mk wall_position axis, neighbour_position)

/-- Model of `Maze::reset_walls`: `walls.fill(true)` keeps the length. -/
def Maze.reset_walls (m : Maze) : Maze :=
  { m with walls := List.replicate m.walls.length true }

/-- Model of `Maze::get_wall`. -/
def Maze.get_wall (m : Maze) (wall : Wall) : Bool :=
  m.walls.getD (m.compute_wall_index wall) false

/-- Model of `Maze::set_wall`. -/
def Maze.set_wall (m : Maze) (wall : Wall) (value : Bool) : Maze :=
  { m with walls := m.walls.set (m.compute_wall_index wall) value }

/-- Model of `Maze::distance`.  The source computes, per axis,
`(a[i] as isize - b[i] as isize).div_euclid(dim as isize) as usize` and
accumulates with `+=`; the `as usize` cast and the accumulation wrap at
`2 ^ 64`. -/
def Maze.distance (m : Maze) (position1 position2 : List Nat) : Nat :=
  m.dimensions.enum.foldl
    (fun result x =>
      (result +
        ((((position1.getD x.1 0 : Int) - (position2.getD x.1 0 : Int)).ediv
            (x.2 : Int)) % (U64 : Int)).toNat) % U64)
    0

/-- The toroidal taxicab distance the spec describes: per axis the
minimal wraparound offset, summed.  (Spec-side definition, used to state
the divergence of `Maze.distance` from the spec.) -/
def specToroidalTaxicab (dims a b : List Nat) : Nat :=
  (List.range dims.length).foldl
    (fun acc i =>
      acc + min ((a.getD i 0 + (dims.getD i 0 - b.getD i 0)) % dims.getD i 0)
              ((b.getD i 0 + (dims.getD i 0 - a.getD i 0)) % dims.getD i 0))
    0

/-- Mixed-radix flattening of a position (the wall-index computation
restricted to the position part); recursion follows the axis order of
`compute_wall_index`. -/
def flattenPos : List Nat → List Nat → Nat
  | d :: ds, p :: ps => p + d * flattenPos ds ps
  | _, _ => 0

/-- Inverse of `flattenPos`: digits of `n` in the mixed radix given by
the dimension vector. -/
def unflattenPos : List Nat → Nat → List Nat
  | [], _ => []
  | d :: ds, n => n % d :: unflattenPos ds (n / d)

/-- Decode a wall index back into a `(position, axis)` pair. -/
def decodeWallIndex (dims : List Nat) (n : Nat) : Wall :=
  Wall.mk (unflattenPos dims (n % dims.prod)) (n / dims.prod)

/-- A valid cell position for a dimension vector. -/
def ValidPos (dims : List Nat) (p : List Nat) : Prop :=
  p.length = dims.length ∧ ∀ i, i < dims.length → p.getD i 0 < dims.getD i 0

/-- A valid wall: valid canonical position and in-range axis. -/
def ValidWall (dims : List Nat) (w : Wall) : Prop :=
  ValidPos dims w.position ∧ w.axis < dims.length

instance : DecidablePred (ValidPos dims) := fun _ => by
  unfold ValidPos; infer_instance

instance : DecidablePred (ValidWall dims) := fun _ => by
  unfold ValidWall; infer_instance

/-! ### The A* solver (`Maze::solve`) -/

/-- Model of the solver-local `Node` struct. -/
structure Node where
  g_score : Nat
  f_score : Nat
  position : List Nat
deriving DecidableEq, Inhabited

/-- The `BinaryHashHeapItem::key` of a solver node. -/
def nodeKey (n : Node) : List Nat := n.position

/-- The `BinaryHashHeapItem::value` of a solver node. -/
def nodeValue (n : Node) : Nat := n.f_score

/-- Association-list model of `HashMap` lookup. -/
def assocLookup [DecidableEq α] : List (α × β) → α → Option β
  | [], _ => none
  | (k, v) :: rest, a => if k = a then some v else assocLookup rest a

/-- Association-list model of `HashMap::insert` (replaces an existing
entry for the key). -/
def assocInsert [DecidableEq α] : List (α × β) → α → β → List (α × β)
  | [], a, b => [(a, b)]
  | (k, v) :: rest, a, b =>
    if k = a then (a, b) :: rest else (k, v) :: assocInsert rest a b

/-- Association-list model of `HashMap::remove`: the removed value and
the remaining entries, or `none` when the key is absent. -/
def assocRemove [DecidableEq α] : List (α × β) → α → Option (β × List (α × β))
  | [], _ => none
  | (k, v) :: rest, a =>
    if k = a then some (v, rest)
    else
      match assocRemove rest a with
      | none => none
      | some (b, rest2) => some (b, (k, v) :: rest2)

/-- Outcome of `Maze::solve`.  `found` is the returned path;
`panicNoPath` models `panic!("No path found")`; `panicUnwrap` models the
`links.remove(..).unwrap()` panic during path reconstruction; `fuelOut`
is the artefact of the fuelled loop model and is unreachable with the
fuel `solve` supplies. -/
inductive SolveOutcome where
  | found (paths : List (List Nat))
  | panicNoPath
  | panicUnwrap
  | fuelOut
deriving DecidableEq

/-- The path-reconstruction loop of `Maze::solve`: follow `links`
backwards from `end` to `start`, removing each entry as the source does.
The fuel is initialised to `links.length`, which the removal performed
at every step keeps sufficient: the `(0, some _)` case is unreachable. -/
def reconstructGo (start : List Nat) :
    Nat → List (List Nat × List Nat) → List Nat → List (List Nat) →
    Option (List (List Nat))
  | fuel, links, current, paths =>
    if current = start then some (paths ++ [current]).reverse
    else
      match fuel, assocRemove links current with
      | _, none => none
      | 0, some _ => none
      | fuel + 1, some (next, links') =>
        reconstructGo start fuel links' next (paths ++ [current])

/-- Path reconstruction from the `links` map. -/
def reconstruct (start : List Nat) (links : List (List Nat × List Nat))
    (current : List Nat) : Option (List (List Nat)) :=
  reconstructGo start links.length links current []

/-- The state threaded through the `while let Some(node) = open.pop()`
loop of `Maze::solve`.  `solve` takes `&mut self` but never writes any
field of the maze; the maze is carried through the state unchanged. -/
structure SolveState where
  maze : Maze
  openHeap : BinaryHashHeap Node (List Nat)
  visited : List (List Nat)
  links : List (List Nat × List Nat)

/-- One full model of the solver loop.  Each iteration pops the
minimum-`f` node, returns on reaching `end`, and otherwise pushes every
unvisited neighbour behind an open wall with the `DecreaseKey` policy,
recording a `links` entry whenever the push reports an improvement. -/
def solveLoop : Nat → SolveState → SolveOutcome × SolveState
  | 0, st => (SolveOutcome.fuelOut, st)
  | fuel + 1, st =>
    match BinaryHashHeap.pop nodeKey nodeValue st.openHeap with
    | (none, heap') => (SolveOutcome.panicNoPath, { st with openHeap := heap' })
    | (some node, heap') =>
      if node.position = st.maze.endPos then
        match reconstruct st.maze.start st.links st.maze.endPos with
        | some paths => (SolveOutcome.found paths, { st with openHeap := heap' })
        | none => (SolveOutcome.panicUnwrap, { st with openHeap := heap' })
      else
        let step := (st.maze.neighbours node.position).foldl
          (fun (acc : BinaryHashHeap Node (List Nat) × List (List Nat × List Nat))
               wn =>
            if wn.2 ∈ st.visited then acc
            else if st.maze.get_wall wn.1 then acc
            else
              let g_score := node.g_score + 1
              let f_score := g_score + st.maze.distance wn.2 st.maze.endPos
              let pr := BinaryHashHeap.push nodeKey nodeValue acc.1
                PushAction.DecreaseKey (Node.mk g_score f_score wn.2)
              if pr.1 then (pr.2, assocInsert acc.2 wn.2 node.position)
              else (pr.2, acc.2))
          (heap', st.links)
        solveLoop fuel
          { st with
            openHeap := step.1
            links := step.2
            visited := node.position :: st.visited }

/-- Model of `Maze::solve`.  The fuel `2 * cellCount + 2` bounds the
number of loop iterations (each cell is popped at most twice, plus the
final empty pop); the maze is returned unchanged alongside the outcome
since the source never writes to `self`. -/
def Maze.solve (m : Maze) : SolveOutcome × Maze :=
  let startNode := Node.mk 0 (m.distance m.start m.endPos) m.start
  let heap0 := (BinaryHashHeap.push nodeKey nodeValue
    (BinaryHashHeap.new Node (List Nat)) PushAction.Keep startNode).2
  let r := solveLoop (2 * m.dimensions.prod + 2) ⟨m, heap0, [], []⟩
  (r.1, r.2.maze)

/-- Cells reachable from `start` through open walls, stepping only
through the neighbour relation the solver itself uses. -/
inductive Maze.OpenReachable (m : Maze) : List Nat → Prop where
  | refl : Maze.OpenReachable m m.start
  | step (p : List Nat) (wn : Wall × List Nat) :
      Maze.OpenReachable m p → wn ∈ m.neighbours p →
      m.get_wall wn.1 = false → Maze.OpenReachable m wn.2

/-! ### Explorer movement (`Maze::walk`) -/

/-- Model of `self.axes[view_axis]` for the two view-axis slots. -/
def Maze.axisAt (m : Maze) (view_axis : Nat) : Nat :=
  if view_axis = 0 then m.axes.1 else m.axes.2

/-- Model of `Maze::walk`: in the positive direction, check the wall at
the current position first and move only if it is absent; in the
negative direction, move first, check the wall at the new position, and
restore the old coordinate if that wall is present. -/
def Maze.walk (m : Maze) (view_axis : Nat) (sign : Bool) : Maze :=
  let ax := m.axisAt view_axis
  if sign then
    if m.get_wall (Wall.mk m.position ax) then m
    else if m.position.getD ax 0 ≠ m.dimensions.getD ax 0 - 1 then
      { m with position := m.position.set ax (m.position.getD ax 0 + 1) }
    else
      { m with position := m.position.set ax 0 }
  else
    let old_value := m.position.getD ax 0
    let pos2 :=
      if m.position.getD ax 0 ≠ 0 then
        m.position.set ax (m.position.getD ax 0 - 1)
      else
        m.position.set ax (m.dimensions.getD ax 0 - 1)
    if m.get_wall (Wall.mk pos2 ax) then
      { m with position := pos2.set ax old_value }
    else
      { m with position := pos2 }

/-! ### The generator (`Maze::generate`) -/

/-- Model of the two `zip(dimensions, xs.iter_mut())` randomisation
loops of `generate`: overwrite each coordinate paired with a dimension
by `rng idx % limit` and return the next unconsumed stream index. -/
def randFill (rng : Nat → Nat) : Nat → List Nat → List Nat → List Nat × Nat
  | idx, d :: ds, _ :: xs =>
    let rest := randFill rng (idx + 1) ds xs
    ((rng idx % d) :: rest.1, rest.2)
  | idx, _, xs => (xs, idx)

/-- The state of the frontier-growth loop of `generate`: the maze whose
walls are being opened, the visited set, and the frontier wall list
(named `walls` in the source). -/
structure GenState where
  maze : Maze
  visited : List (List Nat)
  walls : List Wall

/-- One iteration of `generate`'s frontier loop with the drawn random
value `r`: pick the frontier wall at `r % len` by swap-remove, visit its
unvisited neighbour cells (pushing their still-present walls), and open
the wall if any neighbour was newly visited. -/
def genStep (st : GenState) (r : Nat) : GenState :=
  let j := r % st.walls.length
  let wall := st.walls.getD j default
  let walls' := swapRemove st.walls j
  let res := (wall.get_neighbour_cells st.maze.dimensions).foldl
    (fun acc cell =>
      if cell ∈ acc.1 then acc
      else
        (cell :: acc.1,
         acc.2.1 ++ (Wall.from_cell st.maze.dimensions cell).filter
           (fun w => st.maze.get_wall w),
         true))
    (st.visited, walls', false)
  let maze' := if res.2.2 then st.maze.set_wall wall false else st.maze
  ⟨maze', res.1, res.2.1⟩

/-- One full model of `generate`'s frontier loop: run `genStep` until
the frontier is empty. -/
def generateLoop (rng : Nat → Nat) : Nat → Nat → GenState → Option GenState
  | 0, _, _ => none
  | fuel + 1, idx, st =>
    if st.walls.isEmpty then some st
    else generateLoop rng fuel (idx + 1) (genStep st (rng idx))

/-- Model of `Maze::generate`: randomise `start` and `end`, reset every
wall to present, seed the frontier with the walls of `start`, and run
the loop.  The fuel `2 * D * cellCount + 1` dominates the loop measure
`frontier.length + 2 * D * unvisited`, so the loop always completes;
`none` is the unreachable fuel artefact. -/
def Maze.generate (m : Maze) (rng : Nat → Nat) : Option Maze :=
  let s := randFill rng 0 m.dimensions m.start
  let e := randFill rng s.2 m.dimensions m.endPos
  let m1 := { m with start := s.1, endPos := e.1 }
  let visited := [m1.start]
  let walls0 := Wall.from_cell m1.dimensions m1.start
  let m2 := m1.reset_walls
  let fuel := 2 * m1.dimensions.length * m1.dimensions.prod + 1
  (generateLoop rng fuel e.2 ⟨m2, visited, walls0⟩).map (fun st => st.maze)

/-- Cells reachable from a cell by repeated positive-direction torus
steps (enough to reach every cell, since every axis wraps); the step is
taken at the source side. -/
inductive TorusReach (m : Maze) : List Nat → List Nat → Prop where
  | refl (p : List Nat) : TorusReach m p p
  | step (p q : List Nat) (axis : Nat) : axis < m.dimensions.length →
      TorusReach m (m.traverse p axis true) q → TorusReach m p q

/-- The number of open (false) walls of a maze. -/
def countOpen (m : Maze) : Nat := m.walls.count false

/-- One toroidal step down along an axis (the decrement-with-wraparound
formula of `Wall::from_cell` and `traverse`). -/
def decWrap (shape p : List Nat) (axis : Nat) : List Nat :=
  if p.getD axis 0 ≠ 0 then p.set axis (p.getD axis 0 - 1)
  else p.set axis (shape.getD axis 0 - 1)

/-- One toroidal step up along an axis (the increment-with-wraparound
formula of `Wall::get_neighbour_cells` and `traverse`). -/
def incWrap (shape p : List Nat) (axis : Nat) : List Nat :=
  if p.getD axis 0 ≠ shape.getD axis 0 - 1 then p.set axis (p.getD axis 0 + 1)
  else p.set axis 0

/-- The wall `w` is the boundary between cells `a` and `b` (its two
neighbour cells are `a, b` in either order). -/
def WallConnects (shape : List Nat) (w : Wall) (a b : List Nat) : Prop :=
  w.get_neighbour_cells shape = [a, b] ∨ w.get_neighbour_cells shape = [b, a]

/-- A walk from `a` to `b` through open, valid walls.  (Validity mirrors
the Rust code, whose wall reads panic on out-of-range walls, so the
open-wall graph only has valid walls as edges.) -/
inductive OpenWalk (m : Maze) : List Nat → List Nat → List Wall → Prop where
  | nil (a : List Nat) : OpenWalk m a a []
  | cons (a b c : List Nat) (w : Wall) (ws : List Wall) :
      ValidWall m.dimensions w → m.get_wall w = false →
      WallConnects m.dimensions w a b → OpenWalk m b c ws →
      OpenWalk m a c (w :: ws)

/-- The open-wall graph has no cycle: there is no closed walk through at
least one open wall that repeats no wall. -/
def NoOpenCycle (m : Maze) : Prop :=
  ∀ (a : List Nat) (ws : List Wall), ws ≠ [] → ws.Nodup →
    ¬ OpenWalk m a a ws

/-- Every valid position for a dimension vector, by mixed-radix
enumeration. -/
def allPositions : List Nat → List (List Nat)
  | [] => [[]]
  | d :: ds => (List.range d).flatMap fun v => (allPositions ds).map (v :: ·)

/-- The spanning-tree structure maintained by the generator loop: a
parent assignment on the visited cells (other than the start), one open
wall per non-start visited cell, linking it to an earlier-visited
neighbour one depth step up. -/
def GenTree (st : GenState) : Prop :=
  ∃ (par : List Nat → Option (Wall × List Nat)) (dep : List Nat → Nat),
    (∀ c ∈ st.visited, c ≠ st.maze.start →
      ∃ w p, par c = some (w, p) ∧ p ∈ st.visited ∧
        st.maze.get_wall w = false ∧
        WallConnects st.maze.dimensions w p c ∧ dep c = dep p + 1) ∧
    (∀ w, ValidWall st.maze.dimensions w → st.maze.get_wall w = false →
      ∃ c ∈ st.visited, c ≠ st.maze.start ∧ ∃ p, par c = some (w, p)) ∧
    (∀ c1 ∈ st.visited, ∀ c2 ∈ st.visited, c1 ≠ st.maze.start →
      c2 ≠ st.maze.start → ∀ w p1 p2, par c1 = some (w, p1) →
      par c2 = some (w, p2) → c1 = c2)

/-- The generator loop invariant. -/
def GenInv (st : GenState) : Prop :=
  (∀ d ∈ st.maze.dimensions, 0 < d) ∧
  st.maze.walls.length =
    st.maze.dimensions.prod * st.maze.dimensions.length ∧
  st.visited.Nodup ∧
  (∀ c ∈ st.visited, ValidPos st.maze.dimensions c) ∧
  st.maze.start ∈ st.visited ∧
  (∀ w ∈ st.walls, ValidWall st.maze.dimensions w ∧
    ∃ c ∈ st.visited, c ∈ w.get_neighbour_cells st.maze.dimensions) ∧
  (∀ w, ValidWall st.maze.dimensions w → st.maze.get_wall w = true →
    (∃ a ∈ w.get_neighbour_cells st.maze.dimensions, a ∈ st.visited) →
    (∃ b ∈ w.get_neighbour_cells st.maze.dimensions, b ∉ st.visited) →
    w ∈ st.walls) ∧
  st.maze.walls.count false = st.visited.length - 1 ∧
  GenTree st

/-- The total number of positive-direction torus steps needed to walk
from `q` to `c` axis by axis: the distance measure that drives the
`TorusReach` totality argument. -/
def torusGap (ds c q : List Nat) : Nat :=
  ∑ i ∈ Finset.range ds.length,
    (c.getD i 0 + (ds.getD i 0 - q.getD i 0)) % ds.getD i 0

/-- The termination measure of the generator loop. -/
def genMeasure (st : GenState) : Nat :=
  st.walls.length + 2 * st.maze.dimensions.length *
    (st.maze.dimensions.prod - st.visited.length)

/-! ## Theorems

First a toolbox of list lemmas phrased through `List.getD`, which is how
every definition above reads its arrays. -/

theorem getD_eq_getElem (l : List α) (n : Nat) (d : α) (h : n < l.length) :
    l.getD n d = l[n] := by
  rw [List.getD_eq_getElem?_getD, List.getElem?_eq_getElem h]; rfl

theorem getD_set_self (l : List α) (i : Nat) (a d : α) (h : i < l.length) :
    (l.set i a).getD i d = a := by
  rw [List.getD_eq_getElem?_getD, List.getElem?_set_self h]
  rfl

theorem getD_set_ne (l : List α) (i j : Nat) (a d : α) (h : i ≠ j) :
    (l.set i a).getD j d = l.getD j d := by
  rw [List.getD_eq_getElem?_getD, List.getElem?_set_ne h,
    ← List.getD_eq_getElem?_getD]

theorem getD_set (l : List α) (i j : Nat) (a d : α) :
    (l.set i a).getD j d =
      if i = j ∧ i < l.length then a else l.getD j d := by
  split
  · rename_i hc
    rcases hc with ⟨rfl, hl⟩
    exact getD_set_self l i a d hl
  · rename_i hc
    by_cases hij : i = j
    · subst hij
      have hnl : l.length ≤ i := le_of_not_lt (fun hl => hc ⟨rfl, hl⟩)
      rw [List.getD_eq_getElem?_getD, List.getD_eq_getElem?_getD,
        List.getElem?_eq_none (by simpa using hnl),
        List.getElem?_eq_none hnl]
    · exact getD_set_ne l i j a d hij

theorem set_getD_self (l : List α) (i : Nat) (d : α) (h : i < l.length) :
    l.set i (l.getD i d) = l := by
  rw [getD_eq_getElem l i d h]
  apply List.ext_getElem
  · simp
  · intro j h1 h2
    rw [List.getElem_set]
    split
    · rename_i hh; subst hh; rfl
    · rfl

theorem listSwap_length [Inhabited α] (l : List α) (i j : Nat) :
    (listSwap l i j).length = l.length := by
  simp [listSwap]

theorem listSwap_getD [Inhabited α] (l : List α) (i j n : Nat)
    (hi : i < l.length) (hj : j < l.length) :
    (listSwap l i j).getD n default =
      if n = j then l.getD i default
      else if n = i then l.getD j default
      else l.getD n default := by
  unfold listSwap
  rw [getD_set, getD_set]
  simp only [List.length_set]
  by_cases hnj : n = j
  · subst hnj; simp [hj]
  · have h1 : ¬ (j = n ∧ j < l.length) := fun hh => hnj hh.1.symm
    rw [if_neg h1, if_neg hnj]
    by_cases hni : n = i
    · subst hni; simp [hi]
    · have h2 : ¬ (i = n ∧ i < l.length) := fun hh => hni hh.1.symm
      rw [if_neg h2, if_neg hni]

theorem set_perm_cons_eraseIdx (l : List α) (k : Nat) (x : α)
    (h : k < l.length) : (l.set k x).Perm (x :: l.eraseIdx k) := by
  induction l generalizing k with
  | nil => simp at h
  | cons y ys ih =>
    cases k with
    | zero => simp
    | succ k =>
      simp only [List.set_cons_succ, List.eraseIdx_cons_succ]
      exact (List.Perm.cons y (ih k (by simpa using h))).trans
        (List.Perm.swap x y _)

theorem perm_cons_getD_eraseIdx (l : List α) (k : Nat) (d : α)
    (h : k < l.length) : l.Perm (l.getD k d :: l.eraseIdx k) := by
  have := set_perm_cons_eraseIdx l k (l.getD k d) h
  rwa [set_getD_self l k d h] at this

theorem cons_getD_set_perm (l : List α) (k : Nat) (x d : α)
    (h : k < l.length) : (l.getD k d :: l.set k x).Perm (x :: l) := by
  refine ((set_perm_cons_eraseIdx l k x h).cons _).trans ?_
  exact (List.Perm.swap x _ _).trans
    ((perm_cons_getD_eraseIdx l k d h).symm.cons x)

theorem listSwap_self [Inhabited α] (l : List α) (i : Nat)
    (hi : i < l.length) : listSwap l i i = l := by
  unfold listSwap
  rw [set_getD_self _ _ _ (by simpa using hi), set_getD_self l i default hi]

theorem listSwap_comm [Inhabited α] (l : List α) (i j : Nat) (hij : i ≠ j) :
    listSwap l i j = listSwap l j i := by
  unfold listSwap
  exact List.set_comm _ _ l hij

theorem listSwap_perm [Inhabited α] (l : List α) (i j : Nat)
    (hi : i < l.length) (hj : j < l.length) : (listSwap l i j).Perm l := by
  induction l generalizing i j with
  | nil => simp at hi
  | cons x xs ih =>
    rcases eq_or_ne i j with hij | hij
    · subst hij
      rw [listSwap_self _ _ hi]
    · cases i with
      | zero =>
        cases j with
        | zero => exact absurd rfl hij
        | succ j =>
          unfold listSwap
          simp only [List.getD_cons_succ, List.getD_cons_zero,
            List.set_cons_succ, List.set_cons_zero]
          exact cons_getD_set_perm xs j x default (by simpa using hj)
      | succ i =>
        cases j with
        | zero =>
          rw [listSwap_comm _ _ _ hij]
          unfold listSwap
          simp only [List.getD_cons_succ, List.getD_cons_zero,
            List.set_cons_succ, List.set_cons_zero]
          exact cons_getD_set_perm xs i x default (by simpa using hi)
        | succ j =>
          unfold listSwap
          simp only [List.getD_cons_succ, List.set_cons_succ]
          exact List.Perm.cons x
            (ih i j (by simpa using hi) (by simpa using hj))

theorem swapRemove_length [Inhabited α] (l : List α) (i : Nat) :
    (swapRemove l i).length = l.length - 1 := by
  simp [swapRemove]

theorem getLastD_eq_getD [Inhabited α] (l : List α) :
    l.getLastD default = l.getD (l.length - 1) default := by
  cases l with
  | nil => rfl
  | cons x xs =>
    rw [List.getLastD_eq_getLast?, List.getLast?_eq_getElem?,
      List.getD_eq_getElem?_getD]

theorem dropLast_getD [Inhabited α] (l : List α) (n : Nat)
    (h : n < l.length - 1) :
    l.dropLast.getD n default = l.getD n default := by
  rw [List.dropLast_eq_take, List.getD_eq_getElem?_getD,
    List.getD_eq_getElem?_getD, List.getElem?_take]
  simp [h]

theorem swapRemove_getD [Inhabited α] (l : List α) (i n : Nat)
    (hn : n < l.length - 1) :
    (swapRemove l i).getD n default =
      if i = n then l.getD (l.length - 1) default
      else l.getD n default := by
  unfold swapRemove
  rw [dropLast_getD _ _ (by simpa using hn), getD_set, getLastD_eq_getD]
  split
  · rename_i hc
    rw [if_pos hc.1]
  · rename_i hc
    rw [if_neg]
    intro hin
    exact hc ⟨hin, lt_of_lt_of_le (hin ▸ hn) (Nat.sub_le _ _)⟩

theorem getLast_set [Inhabited α] (l : List α) (i : Nat) (hl : l ≠ []) :
    (l.set i (l.getD (l.length - 1) default)).getLastD default =
      l.getD (l.length - 1) default := by
  rw [getLastD_eq_getD, List.length_set, getD_set]
  split
  · rfl
  · rfl

theorem swapRemove_perm [Inhabited α] (l : List α) (i : Nat)
    (hi : i < l.length) : (swapRemove l i).Perm (l.eraseIdx i) := by
  have hne : l ≠ [] := by
    intro hl; subst hl; simp at hi
  set b := l.getD (l.length - 1) default with hb
  have hset_ne : l.set i (l.getLastD default) ≠ [] := by
    intro hh
    have := congrArg List.length hh
    simp at this
    exact hne this
  have hlen : (l.set i (l.getLastD default)).length - 1 <
      (l.set i (l.getLastD default)).length := by
    simp only [List.length_set]
    omega
  have hlast : (l.set i (l.getLastD default)).getLast hset_ne = b := by
    rw [List.getLast_eq_getElem, ← getD_eq_getElem _ _ default hlen,
      List.length_set, getD_set, getLastD_eq_getD]
    split
    · rfl
    · rfl
  have hsplit : (swapRemove l i) ++ [b] = l.set i (l.getLastD default) := by
    unfold swapRemove
    conv_rhs => rw [← List.dropLast_append_getLast hset_ne]
    rw [hlast]
  have p1 : (b :: swapRemove l i).Perm (l.set i (l.getLastD default)) := by
    rw [← hsplit]
    exact (List.perm_append_singleton _ _).symm
  have p2 := set_perm_cons_eraseIdx l i (l.getLastD default) hi
  rw [getLastD_eq_getD] at p1 p2
  exact (p1.trans p2).cons_inv

theorem perm_getD_cons_swapRemove [Inhabited α] (l : List α) (i : Nat)
    (hi : i < l.length) : l.Perm (l.getD i default :: swapRemove l i) :=
  (perm_cons_getD_eraseIdx l i default hi).trans
    ((swapRemove_perm l i hi).symm.cons _)

/-! ### C1: the heuristic is not the toroidal taxicab distance -/

/-- C1: the heuristic `Maze::distance` does not compute the toroidal
taxicab distance.  On the 1-axis maze of shape `[2]`, for `a = [0]` and
`b = [1]`, the spec's distance is `1`, but the code's
`div_euclid`-based computation yields the wrapped cast of `-1`,
i.e. `2 ^ 64 - 1`, which also vastly overestimates the one-step path
available through an open wall. -/
theorem distance_div_euclid_bug :
    (Maze.new [2]).distance [0] [1] = 2 ^ 64 - 1 ∧
    specToroidalTaxicab [2] [0] [1] = 1 ∧
    (Maze.new [2]).distance [0] [1] ≠ specToroidalTaxicab [2] [0] [1] := by
  refine ⟨by decide, by decide, by decide⟩

/-! ### C8: `Maze::new` does not validate its dimensions -/

/-- C8 counterexample: `Maze::new` accepts both a zero-sized and an
empty dimension vector; construction is not rejected, and a complete
maze value (with an empty wall array) is produced. -/
theorem new_zero_dims_constructs :
    Maze.new [0] = ⟨[0], [0], [0], [0], (0, 1), []⟩ ∧
    Maze.new [] = ⟨[], [], [], [], (0, 1), []⟩ := ⟨rfl, rfl⟩

/-- C8 amended: `Maze::new` performs no validation at all: for every
dimension vector (empty and zero entries included) it unconditionally
constructs the maze with all-zero start/end/position vectors, view axes
`[0, 1]`, and `prod(dims) * len(dims)` walls all present. -/
theorem new_constructs_unconditionally (dims : List Nat) :
    Maze.new dims =
      ⟨dims, List.replicate dims.length 0, List.replicate dims.length 0,
        List.replicate dims.length 0, (0, 1),
        List.replicate (dims.prod * dims.length) true⟩ := rfl

/-! ### C10: `solve` leaves the maze unchanged -/

theorem solveLoop_maze (fuel : Nat) (st : SolveState) :
    (solveLoop fuel st).2.maze = st.maze := by
  induction fuel generalizing st with
  | zero => rfl
  | succ n ih =>
    rw [solveLoop]
    rcases hp : BinaryHashHeap.pop nodeKey nodeValue st.openHeap with ⟨o, heap'⟩
    cases o with
    | none => rfl
    | some node =>
      dsimp only
      split
      · split <;> rfl
      · exact ih _

/-- C10: `solve()` never modifies the maze: whatever outcome it
produces, the maze value it hands back (dimension vector, start, end,
explorer position, view axes and the whole wall array) is the maze it
was called on. -/
theorem solve_preserves_maze (m : Maze) : (Maze.solve m).2 = m := by
  unfold Maze.solve
  exact solveLoop_maze _ _

/-! ### The heap invariant (C3) and the lemmas feeding it -/

theorem getD_append_left (l : List α) (t : α) (n : Nat) (d : α)
    (h : n < l.length) : (l ++ [t]).getD n d = l.getD n d := by
  rw [List.getD_eq_getElem?_getD, List.getD_eq_getElem?_getD,
    List.getElem?_append, if_pos h]

theorem getD_append_self (l : List α) (t : α) (d : α) :
    (l ++ [t]).getD l.length d = t := by
  rw [List.getD_eq_getElem?_getD, List.getElem?_append, if_neg (by omega)]
  simp

theorem mc_key_inj (key : T → κ) (h : BinaryHashHeap T κ)
    (hMC : BinaryHashHeap.MapConsistent key h) (i j : Nat)
    (hi : i < h.items.length) (hj : j < h.items.length)
    (hk : key (h.items.getD i default) = key (h.items.getD j default)) :
    i = j := by
  have h1 := hMC.1 i hi
  have h2 := hMC.1 j hj
  rw [hk] at h1
  rw [h1] at h2
  exact Option.some.inj h2

theorem swapStep_items (key : T → κ) (h : BinaryHashHeap T κ) (i p : Nat) :
    (BinaryHashHeap.swapStep key h i p).items = listSwap h.items i p := rfl

theorem swapStep_MC (key : T → κ) (h : BinaryHashHeap T κ) (i p : Nat)
    (hMC : BinaryHashHeap.MapConsistent key h)
    (hi : i < h.items.length) (hp : p < h.items.length) (hne : p ≠ i) :
    BinaryHashHeap.MapConsistent key (BinaryHashHeap.swapStep key h i p) := by
  have hlen : (BinaryHashHeap.swapStep key h i p).items.length = h.items.length := by
    rw [swapStep_items, listSwap_length]
  have hget : ∀ n, (BinaryHashHeap.swapStep key h i p).items.getD n default =
      if n = p then h.items.getD i default
      else if n = i then h.items.getD p default
      else h.items.getD n default := by
    intro n
    rw [swapStep_items]
    exact listSwap_getD h.items i p n hi hp
  have hmap : ∀ k, (BinaryHashHeap.swapStep key h i p).map k =
      if k = key (h.items.getD p default) then some i
      else if k = key (h.items.getD i default) then some p
      else h.map k := fun _ => rfl
  constructor
  · intro n hn
    rw [hlen] at hn
    rw [hget n]
    by_cases hnp : n = p
    · rw [if_pos hnp, hmap,
        if_neg (fun hk => hne (mc_key_inj key h hMC i p hi hp hk).symm),
        if_pos rfl, hnp]
    · rw [if_neg hnp]
      by_cases hni : n = i
      · rw [if_pos hni, hmap, if_pos rfl, hni]
      · rw [if_neg hni, hmap,
          if_neg (fun hk => hnp (mc_key_inj key h hMC n p hn hp hk)),
          if_neg (fun hk => hni (mc_key_inj key h hMC n i hn hi hk))]
        exact hMC.1 n hn
  · intro k n hkn
    rw [hlen]
    rw [hmap] at hkn
    by_cases hk1 : k = key (h.items.getD p default)
    · rw [if_pos hk1] at hkn
      cases hkn
      refine ⟨hi, ?_⟩
      rw [hget i, if_neg (fun hh => hne hh.symm), if_pos rfl, hk1]
    · rw [if_neg hk1] at hkn
      by_cases hk2 : k = key (h.items.getD i default)
      · rw [if_pos hk2] at hkn
        cases hkn
        refine ⟨hp, ?_⟩
        rw [hget p, if_pos rfl, hk2]
      · rw [if_neg hk2] at hkn
        obtain ⟨hn, hkey⟩ := hMC.2 k n hkn
        refine ⟨hn, ?_⟩
        rw [hget n,
          if_neg (fun hh : n = p => hk1 (by rw [← hkey, hh])),
          if_neg (fun hh : n = i => hk2 (by rw [← hkey, hh]))]
        exact hkey

theorem almostUp_swap (value : T → ν) (ls : List T) (i : Nat)
    (h0 : i ≠ 0) (hi : i < ls.length)
    (hAU : AlmostUp value ls i)
    (hswap : ¬ value (ls.getD ((i - 1) / 2) default) <
      value (ls.getD i default)) :
    AlmostUp value (listSwap ls i ((i - 1) / 2)) ((i - 1) / 2) := by
  set p := (i - 1) / 2 with hp
  have hpi : p < i := by omega
  have hple : p < ls.length := lt_trans hpi hi
  have hle : value (ls.getD i default) ≤ value (ls.getD p default) :=
    le_of_not_lt hswap
  have hv : ∀ n, (listSwap ls i p).getD n default =
      if n = p then ls.getD i default
      else if n = i then ls.getD p default
      else ls.getD n default := fun n => listSwap_getD ls i p n hi hple
  have hlen : (listSwap ls i p).length = ls.length := listSwap_length ls i p
  constructor
  · intro j hj0 hjl hjp
    rw [hlen] at hjl
    rw [hv ((j - 1) / 2), hv j]
    by_cases hji : j = i
    · subst hji
      rw [if_pos (by omega : (j - 1) / 2 = p), if_neg (by omega : ¬ j = p),
        if_pos rfl]
      exact hle
    · rw [if_neg hjp, if_neg hji]
      by_cases hqi : (j - 1) / 2 = i
      · rw [if_neg (by omega : ¬ (j - 1) / 2 = p), if_pos hqi]
        exact hAU.2 j (by omega) hj0 hjl hqi
      · by_cases hqp : (j - 1) / 2 = p
        · rw [if_pos hqp]
          refine le_trans hle ?_
          have := hAU.1 j hj0 hjl hji
          rwa [hqp] at this
        · rw [if_neg hqp, if_neg hqi]
          exact hAU.1 j hj0 hjl hji
  · intro j hp0 hj0 hjl hjq
    rw [hlen] at hjl
    rw [hv ((p - 1) / 2), hv j]
    have hAU1p := hAU.1 p hp0 hple (by omega)
    rw [if_neg (by omega : ¬ (p - 1) / 2 = p),
      if_neg (by omega : ¬ (p - 1) / 2 = i)]
    by_cases hji : j = i
    · rw [if_neg (by omega : ¬ j = p), if_pos hji]
      exact hAU1p
    · rw [if_neg (by omega : ¬ j = p), if_neg hji]
      refine le_trans hAU1p ?_
      have := hAU.1 j hj0 hjl hji
      rwa [hjq] at this

theorem sift_up_spec (key : T → κ) (value : T → ν) :
    ∀ (i : Nat) (h : BinaryHashHeap T κ),
      BinaryHashHeap.MapConsistent key h → i < h.items.length →
      AlmostUp value h.items i →
      BinaryHashHeap.MapConsistent key (BinaryHashHeap.sift_up key value h i).1 ∧
      HeapProp value (BinaryHashHeap.sift_up key value h i).1.items ∧
      (BinaryHashHeap.sift_up key value h i).1.items.Perm h.items := by
  intro i
  induction i using Nat.strong_induction_on with
  | _ i ih =>
    intro h hMC hi hAU
    rw [BinaryHashHeap.sift_up]
    split
    · rename_i h0
      refine ⟨hMC, ?_, List.Perm.refl _⟩
      intro j hj0 hjl
      exact hAU.1 j hj0 hjl (by omega)
    · rename_i h0
      dsimp only
      split
      · rename_i hlt
        refine ⟨hMC, ?_, List.Perm.refl _⟩
        intro j hj0 hjl
        by_cases hji : j = i
        · subst hji; exact le_of_lt hlt
        · exact hAU.1 j hj0 hjl hji
      · rename_i hnlt
        have hpi : (i - 1) / 2 < i := by omega
        have hple : (i - 1) / 2 < h.items.length := lt_trans hpi hi
        have hMC' := swapStep_MC key h i ((i - 1) / 2) hMC hi hple (by omega)
        have hAU' := almostUp_swap value h.items i h0 hi hAU hnlt
        have hlen' : (BinaryHashHeap.swapStep key h i ((i - 1) / 2)).items.length
            = h.items.length := by
          rw [swapStep_items, listSwap_length]
        obtain ⟨m1, m2, m3⟩ := ih ((i - 1) / 2) hpi
          (BinaryHashHeap.swapStep key h i ((i - 1) / 2)) hMC'
          (by rw [hlen']; exact hple)
          (by rw [swapStep_items]; exact hAU')
        refine ⟨m1, m2, m3.trans ?_⟩
        rw [swapStep_items]
        exact listSwap_perm h.items i _ hi hple

theorem almostDown_swap (value : T → ν) (ls : List T) (i c : Nat)
    (hc1 : c = i * 2 + 1 ∨ c = i * 2 + 2) (hcl : c < ls.length)
    (hmin : ∀ s, (s = i * 2 + 1 ∨ s = i * 2 + 2) → s < ls.length →
      value (ls.getD c default) ≤ value (ls.getD s default))
    (hAD : AlmostDown value ls i)
    (hswap : ¬ value (ls.getD i default) < value (ls.getD c default)) :
    AlmostDown value (listSwap ls i c) c := by
  have hic : i < c := by omega
  have hil : i < ls.length := lt_trans hic hcl
  have hci : (c - 1) / 2 = i := by omega
  have hle : value (ls.getD c default) ≤ value (ls.getD i default) :=
    le_of_not_lt hswap
  have hv : ∀ n, (listSwap ls i c).getD n default =
      if n = c then ls.getD i default
      else if n = i then ls.getD c default
      else ls.getD n default := fun n => listSwap_getD ls i c n hil hcl
  have hlen := listSwap_length ls i c
  constructor
  · intro j hj0 hjl hjq
    rw [hlen] at hjl
    rw [hv ((j - 1) / 2), hv j]
    by_cases hjc : j = c
    · rw [hjc, if_neg (by omega : ¬ (c - 1) / 2 = c), if_pos hci, if_pos rfl]
      exact hle
    · by_cases hji : j = i
      · subst hji
        rw [if_neg (by omega : ¬ (j - 1) / 2 = c),
          if_neg (by omega : ¬ (j - 1) / 2 = j),
          if_neg (by omega : ¬ j = c), if_pos rfl]
        exact hAD.2 c hj0 (by omega) hcl hci
      · rw [if_neg hjq]
        by_cases hqi : (j - 1) / 2 = i
        · rw [if_pos hqi, if_neg hjc, if_neg hji]
          exact hmin j (by omega) hjl
        · rw [if_neg hqi, if_neg hjc, if_neg hji]
          exact hAD.1 j hj0 hjl hqi
  · intro j hc0 hj0 hjl hjq
    rw [hlen] at hjl
    rw [hv ((c - 1) / 2), hv j, hci]
    rw [if_neg (by omega : ¬ i = c), if_pos rfl,
      if_neg (by omega : ¬ j = c), if_neg (by omega : ¬ j = i)]
    have := hAD.1 j hj0 hjl (by omega)
    rwa [hjq] at this

theorem heapProp_of_almostDown (value : T → ν) (ls : List T) (i : Nat)
    (hAD : AlmostDown value ls i)
    (hchild : ∀ j, 0 < j → j < ls.length → (j - 1) / 2 = i →
      value (ls.getD i default) ≤ value (ls.getD j default)) :
    HeapProp value ls := by
  intro j hj0 hjl
  by_cases hqi : (j - 1) / 2 = i
  · rw [hqi]
    exact hchild j hj0 hjl hqi
  · exact hAD.1 j hj0 hjl hqi

theorem sift_down_recurse (key : T → κ) (value : T → ν) (n : Nat)
    (IH : ∀ (h : BinaryHashHeap T κ) (i : Nat), h.items.length - i ≤ n →
      BinaryHashHeap.MapConsistent key h → i < h.items.length →
      AlmostDown value h.items i →
      BinaryHashHeap.MapConsistent key (BinaryHashHeap.sift_down key value h i).1 ∧
      HeapProp value (BinaryHashHeap.sift_down key value h i).1.items ∧
      (BinaryHashHeap.sift_down key value h i).1.items.Perm h.items)
    (h : BinaryHashHeap T κ) (i c : Nat)
    (hf : h.items.length - i ≤ n + 1)
    (hMC : BinaryHashHeap.MapConsistent key h) (hi : i < h.items.length)
    (hAD : AlmostDown value h.items i)
    (hc1 : c = i * 2 + 1 ∨ c = i * 2 + 2) (hcl : c < h.items.length)
    (hmin : ∀ s, (s = i * 2 + 1 ∨ s = i * 2 + 2) → s < h.items.length →
      value (h.items.getD c default) ≤ value (h.items.getD s default))
    (hswap : ¬ value (h.items.getD i default) <
      value (h.items.getD c default)) :
    BinaryHashHeap.MapConsistent key
      (BinaryHashHeap.sift_down key value
        (BinaryHashHeap.swapStep key h i c) c).1 ∧
    HeapProp value (BinaryHashHeap.sift_down key value
      (BinaryHashHeap.swapStep key h i c) c).1.items ∧
    (BinaryHashHeap.sift_down key value
      (BinaryHashHeap.swapStep key h i c) c).1.items.Perm h.items := by
  have hlen' : (BinaryHashHeap.swapStep key h i c).items.length
      = h.items.length := by
    rw [swapStep_items, listSwap_length]
  obtain ⟨m1, m2, m3⟩ := IH (BinaryHashHeap.swapStep key h i c) c
    (by rw [hlen']; omega)
    (swapStep_MC key h i c hMC hi hcl (by omega))
    (by rw [hlen']; exact hcl)
    (by
      rw [swapStep_items]
      exact almostDown_swap value h.items i c hc1 hcl hmin hAD hswap)
  refine ⟨m1, m2, m3.trans ?_⟩
  rw [swapStep_items]
  exact listSwap_perm h.items i c hi hcl

theorem getD_of_get? [Inhabited α] (l : List α) (n : Nat) (a : α)
    (h : l.get? n = some a) : l.getD n default = a := by
  rw [List.getD_eq_getElem?_getD, ← List.get?_eq_getElem?, h]; rfl

theorem sift_down_spec (key : T → κ) (value : T → ν) :
    ∀ (fuel : Nat) (h : BinaryHashHeap T κ) (i : Nat),
      h.items.length - i ≤ fuel →
      BinaryHashHeap.MapConsistent key h → i < h.items.length →
      AlmostDown value h.items i →
      BinaryHashHeap.MapConsistent key
        (BinaryHashHeap.sift_down key value h i).1 ∧
      HeapProp value (BinaryHashHeap.sift_down key value h i).1.items ∧
      (BinaryHashHeap.sift_down key value h i).1.items.Perm h.items := by
  intro fuel
  induction fuel with
  | zero =>
    intro h i hf hMC hi hAD
    omega
  | succ n ihn =>
    intro h i hf hMC hi hAD
    rw [BinaryHashHeap.sift_down]
    dsimp only
    split
    · rename_i hl hr
      refine ⟨hMC, ?_, List.Perm.refl _⟩
      have hlb := List.get?_eq_none.mp hl
      refine heapProp_of_almostDown value h.items i hAD ?_
      intro j hj0 hjl hji
      omega
    · rename_i hl hr
      have hlb := List.get?_eq_none.mp hl
      have hrb := (List.get?_eq_some.mp hr).choose
      omega
    · rename_i ln hl hr
      have hlb := (List.get?_eq_some.mp hl).choose
      have hrb := List.get?_eq_none.mp hr
      split
      · rename_i hlt
        refine ⟨hMC, ?_, List.Perm.refl _⟩
        refine heapProp_of_almostDown value h.items i hAD ?_
        intro j hj0 hjl hji
        have hj : j = i * 2 + 1 := by omega
        rw [hj]
        exact le_of_lt hlt
      · rename_i hnlt
        exact sift_down_recurse key value n ihn h i (i * 2 + 1) hf hMC hi hAD
          (Or.inl rfl) hlb
          (by
            intro s hs hsl
            rcases hs with hs | hs
            · rw [hs]
            · omega)
          hnlt
    · rename_i ln rn hl hr
      have hlb := (List.get?_eq_some.mp hl).choose
      have hrb := (List.get?_eq_some.mp hr).choose
      have hgl : h.items.getD (i * 2 + 1) default = ln := getD_of_get? _ _ _ hl
      have hgr : h.items.getD (i * 2 + 2) default = rn := getD_of_get? _ _ _ hr
      by_cases hcv : value ln < value rn
      · simp only [if_pos hcv]
        have hmin : ∀ s, (s = i * 2 + 1 ∨ s = i * 2 + 2) →
            s < h.items.length →
            value (h.items.getD (i * 2 + 1) default) ≤
              value (h.items.getD s default) := by
          intro s hs hsl
          rcases hs with hs | hs
          · rw [hs]
          · rw [hs, hgl, hgr]
            exact le_of_lt hcv
        split
        · rename_i hlt
          refine ⟨hMC, ?_, List.Perm.refl _⟩
          refine heapProp_of_almostDown value h.items i hAD ?_
          intro j hj0 hjl hji
          have hj : j = i * 2 + 1 ∨ j = i * 2 + 2 := by omega
          exact le_trans (le_of_lt hlt) (hmin j hj hjl)
        · rename_i hnlt
          exact sift_down_recurse key value n ihn h i (i * 2 + 1) hf hMC hi
            hAD (Or.inl rfl) hlb hmin hnlt
      · simp only [if_neg hcv]
        have hmin : ∀ s, (s = i * 2 + 1 ∨ s = i * 2 + 2) →
            s < h.items.length →
            value (h.items.getD (i * 2 + 2) default) ≤
              value (h.items.getD s default) := by
          intro s hs hsl
          rcases hs with hs | hs
          · rw [hs, hgl, hgr]
            exact le_of_not_lt hcv
          · rw [hs]
        split
        · rename_i hlt
          refine ⟨hMC, ?_, List.Perm.refl _⟩
          refine heapProp_of_almostDown value h.items i hAD ?_
          intro j hj0 hjl hji
          have hj : j = i * 2 + 1 ∨ j = i * 2 + 2 := by omega
          exact le_trans (le_of_lt hlt) (hmin j hj hjl)
        · rename_i hnlt
          exact sift_down_recurse key value n ihn h i (i * 2 + 2) hf hMC hi
            hAD (Or.inr rfl) hrb hmin hnlt

/-! ### `push` preserves the invariant -/

theorem push_vacant_eq (key : T → κ) (value : T → ν) (h : BinaryHashHeap T κ)
    (a : PushAction) (t : T) (hnone : h.map (key t) = none) :
    BinaryHashHeap.push key value h a t =
      (true, (BinaryHashHeap.sift_up key value
        (⟨h.items ++ [t],
          fun k => if k = key t then some h.items.length else h.map k⟩ :
          BinaryHashHeap T κ)
        h.items.length).1) := by
  unfold BinaryHashHeap.push
  rw [hnone]

theorem MC_append (key : T → κ) (h : BinaryHashHeap T κ) (t : T)
    (hMC : BinaryHashHeap.MapConsistent key h)
    (hnone : h.map (key t) = none) :
    BinaryHashHeap.MapConsistent key
      (⟨h.items ++ [t],
        fun k => if k = key t then some h.items.length else h.map k⟩ :
        BinaryHashHeap T κ) := by
  have hfresh : ∀ n, n < h.items.length →
      key (h.items.getD n default) ≠ key t := by
    intro n hn hk
    have hx := hMC.1 n hn
    rw [hk, hnone] at hx
    cases hx
  have hm : ∀ k, (⟨h.items ++ [t],
      fun k => if k = key t then some h.items.length else h.map k⟩ :
      BinaryHashHeap T κ).map k =
      if k = key t then some h.items.length else h.map k := fun _ => rfl
  constructor
  · intro n hn
    have hlen : (h.items ++ [t]).length = h.items.length + 1 := by simp
    rw [hlen] at hn
    rw [hm]
    by_cases hnl : n = h.items.length
    · rw [hnl, getD_append_self, if_pos rfl]
    · have hn' : n < h.items.length := by omega
      rw [getD_append_left _ _ _ _ hn', if_neg (hfresh n hn')]
      exact hMC.1 n hn'
  · intro k n hkn
    rw [hm] at hkn
    by_cases hk : k = key t
    · rw [if_pos hk] at hkn
      cases hkn
      refine ⟨by simp, ?_⟩
      rw [getD_append_self, hk]
    · rw [if_neg hk] at hkn
      obtain ⟨hn, hkey⟩ := hMC.2 k n hkn
      refine ⟨by simp; omega, ?_⟩
      rw [getD_append_left _ _ _ _ hn]
      exact hkey

theorem almostUp_append (value : T → ν) (ls : List T) (t : T)
    (hHP : HeapProp value ls) : AlmostUp value (ls ++ [t]) ls.length := by
  constructor
  · intro j hj0 hjl hjne
    have hjl' : j < ls.length := by
      have : (ls ++ [t]).length = ls.length + 1 := by simp
      omega
    have hq : (j - 1) / 2 < ls.length := by omega
    rw [getD_append_left _ _ _ _ hjl', getD_append_left _ _ _ _ hq]
    exact hHP j hj0 hjl'
  · intro j h0 hj0 hjl hjq
    have : (ls ++ [t]).length = ls.length + 1 := by simp
    omega

theorem push_vacant_spec (key : T → κ) (value : T → ν)
    (h : BinaryHashHeap T κ) (a : PushAction) (t : T)
    (hInv : HeapInv key value h) (hnone : h.map (key t) = none) :
    (BinaryHashHeap.push key value h a t).1 = true ∧
    HeapInv key value (BinaryHashHeap.push key value h a t).2 ∧
    (BinaryHashHeap.push key value h a t).2.items.Perm (t :: h.items) := by
  rw [push_vacant_eq key value h a t hnone]
  have hlen : (h.items ++ [t]).length = h.items.length + 1 := by simp
  obtain ⟨m1, m2, m3⟩ := sift_up_spec key value h.items.length
    (⟨h.items ++ [t],
      fun k => if k = key t then some h.items.length else h.map k⟩ :
      BinaryHashHeap T κ)
    (MC_append key h t hInv.1 hnone)
    (by rw [hlen]; omega)
    (almostUp_append value h.items t hInv.2)
  exact ⟨rfl, ⟨m1, m2⟩, m3.trans (List.perm_append_singleton t h.items)⟩

theorem MC_set (key : T → κ) (h : BinaryHashHeap T κ) (idx : Nat) (t : T)
    (hMC : BinaryHashHeap.MapConsistent key h)
    (hsome : h.map (key t) = some idx) :
    BinaryHashHeap.MapConsistent key
      (⟨h.items.set idx t, h.map⟩ : BinaryHashHeap T κ) := by
  obtain ⟨hidx, hkey⟩ := hMC.2 _ _ hsome
  constructor
  · intro n hn
    rw [List.length_set] at hn
    rw [getD_set]
    by_cases hni : idx = n
    · rw [if_pos ⟨hni, hni ▸ hn⟩, ← hni]
      exact hsome
    · rw [if_neg (fun hh => hni hh.1)]
      exact hMC.1 n hn
  · intro k n hkn
    obtain ⟨hn, hk2⟩ := hMC.2 k n hkn
    rw [List.length_set]
    refine ⟨hn, ?_⟩
    rw [getD_set]
    by_cases hni : idx = n
    · rw [if_pos ⟨hni, hni ▸ hn⟩, ← hk2, ← hni, hkey]
    · rw [if_neg (fun hh => hni hh.1)]
      exact hk2

theorem almostUp_set (value : T → ν) (ls : List T) (idx : Nat) (t : T)
    (hHP : HeapProp value ls) (hidx : idx < ls.length)
    (hlt : value t < value (ls.getD idx default)) :
    AlmostUp value (ls.set idx t) idx := by
  have hlen : (ls.set idx t).length = ls.length := by simp
  constructor
  · intro j hj0 hjl hjne
    rw [hlen] at hjl
    rw [getD_set, getD_set]
    by_cases hq : idx = (j - 1) / 2
    · rw [if_pos ⟨hq, hidx⟩, if_neg (fun hh => hjne hh.1.symm)]
      have h2 := hHP j hj0 hjl
      rw [← hq] at h2
      exact le_trans (le_of_lt hlt) h2
    · rw [if_neg (fun hh => hq hh.1), if_neg (fun hh => hjne hh.1.symm)]
      exact hHP j hj0 hjl
  · intro j h0 hj0 hjl hjq
    rw [hlen] at hjl
    rw [getD_set, getD_set]
    rw [if_neg (fun hh : idx = (idx - 1) / 2 ∧ idx < ls.length => by omega),
      if_neg (fun hh : idx = j ∧ idx < ls.length => by omega)]
    have h1 := hHP idx h0 hidx
    have h2 := hHP j hj0 hjl
    rw [hjq] at h2
    exact le_trans h1 h2

theorem almostDown_set (value : T → ν) (ls : List T) (idx : Nat) (t : T)
    (hHP : HeapProp value ls) (hidx : idx < ls.length)
    (hlt : value (ls.getD idx default) < value t) :
    AlmostDown value (ls.set idx t) idx := by
  have hlen : (ls.set idx t).length = ls.length := by simp
  constructor
  · intro j hj0 hjl hjq
    rw [hlen] at hjl
    rw [getD_set, getD_set]
    rw [if_neg (fun hh : idx = (j - 1) / 2 ∧ idx < ls.length =>
      hjq hh.1.symm)]
    by_cases hji : idx = j
    · rw [if_pos ⟨hji, hidx⟩]
      have h2 := hHP j hj0 hjl
      refine le_trans h2 ?_
      rw [← hji]
      exact le_of_lt hlt
    · rw [if_neg (fun hh => hji hh.1)]
      exact hHP j hj0 hjl
  · intro j h0 hj0 hjl hjq
    rw [hlen] at hjl
    rw [getD_set, getD_set]
    rw [if_neg (fun hh : idx = (idx - 1) / 2 ∧ idx < ls.length => by omega),
      if_neg (fun hh : idx = j ∧ idx < ls.length => by omega)]
    have h1 := hHP idx h0 hidx
    have h2 := hHP j hj0 hjl
    rw [hjq] at h2
    exact le_trans h1 h2

theorem push_keep_eq (key : T → κ) (value : T → ν) (h : BinaryHashHeap T κ)
    (t : T) (idx : Nat) (hsome : h.map (key t) = some idx) :
    BinaryHashHeap.push key value h PushAction.Keep t = (false, h) := by
  unfold BinaryHashHeap.push
  rw [hsome]

theorem push_dec_stale_eq (key : T → κ) (value : T → ν)
    (h : BinaryHashHeap T κ) (t : T) (idx : Nat)
    (hsome : h.map (key t) = some idx)
    (hge : value (h.items.getD idx default) ≤ value t) :
    BinaryHashHeap.push key value h PushAction.DecreaseKey t = (false, h) := by
  unfold BinaryHashHeap.push
  rw [hsome]
  dsimp only
  rw [if_pos hge]

theorem push_inc_stale_eq (key : T → κ) (value : T → ν)
    (h : BinaryHashHeap T κ) (t : T) (idx : Nat)
    (hsome : h.map (key t) = some idx)
    (hge : value t ≤ value (h.items.getD idx default)) :
    BinaryHashHeap.push key value h PushAction.IncreaseKey t = (false, h) := by
  unfold BinaryHashHeap.push
  rw [hsome]
  dsimp only
  rw [if_pos hge]

theorem push_dec_improve_spec (key : T → κ) (value : T → ν)
    (h : BinaryHashHeap T κ) (t : T) (idx : Nat)
    (hInv : HeapInv key value h) (hsome : h.map (key t) = some idx)
    (hlt : value t < value (h.items.getD idx default)) :
    (BinaryHashHeap.push key value h PushAction.DecreaseKey t).1 = true ∧
    HeapInv key value
      (BinaryHashHeap.push key value h PushAction.DecreaseKey t).2 ∧
    (BinaryHashHeap.push key value h PushAction.DecreaseKey t).2.items.Perm
      (t :: h.items.eraseIdx idx) := by
  have hidx : idx < h.items.length := (hInv.1.2 _ _ hsome).1
  have heq : BinaryHashHeap.push key value h PushAction.DecreaseKey t =
      (true, (BinaryHashHeap.sift_up key value
        (⟨h.items.set idx t, h.map⟩ : BinaryHashHeap T κ) idx).1) := by
    unfold BinaryHashHeap.push
    rw [hsome]
    dsimp only
    rw [if_neg (not_le.mpr hlt)]
  rw [heq]
  obtain ⟨m1, m2, m3⟩ := sift_up_spec key value idx
    (⟨h.items.set idx t, h.map⟩ : BinaryHashHeap T κ)
    (MC_set key h idx t hInv.1 hsome)
    (by simp [hidx])
    (almostUp_set value h.items idx t hInv.2 hidx hlt)
  exact ⟨rfl, ⟨m1, m2⟩,
    m3.trans (set_perm_cons_eraseIdx h.items idx t hidx)⟩

theorem push_inc_improve_spec (key : T → κ) (value : T → ν)
    (h : BinaryHashHeap T κ) (t : T) (idx : Nat)
    (hInv : HeapInv key value h) (hsome : h.map (key t) = some idx)
    (hlt : value (h.items.getD idx default) < value t) :
    (BinaryHashHeap.push key value h PushAction.IncreaseKey t).1 = true ∧
    HeapInv key value
      (BinaryHashHeap.push key value h PushAction.IncreaseKey t).2 ∧
    (BinaryHashHeap.push key value h PushAction.IncreaseKey t).2.items.Perm
      (t :: h.items.eraseIdx idx) := by
  have hidx : idx < h.items.length := (hInv.1.2 _ _ hsome).1
  have heq : BinaryHashHeap.push key value h PushAction.IncreaseKey t =
      (true, (BinaryHashHeap.sift_down key value
        (⟨h.items.set idx t, h.map⟩ : BinaryHashHeap T κ) idx).1) := by
    unfold BinaryHashHeap.push
    rw [hsome]
    dsimp only
    rw [if_neg (not_le.mpr hlt)]
  rw [heq]
  obtain ⟨m1, m2, m3⟩ := sift_down_spec key value
    (⟨h.items.set idx t, h.map⟩ : BinaryHashHeap T κ).items.length
    (⟨h.items.set idx t, h.map⟩ : BinaryHashHeap T κ) idx
    (by omega)
    (MC_set key h idx t hInv.1 hsome)
    (by simp [hidx])
    (almostDown_set value h.items idx t hInv.2 hidx hlt)
  exact ⟨rfl, ⟨m1, m2⟩,
    m3.trans (set_perm_cons_eraseIdx h.items idx t hidx)⟩

theorem push_inv (key : T → κ) (value : T → ν) (h : BinaryHashHeap T κ)
    (a : PushAction) (t : T) (hInv : HeapInv key value h) :
    HeapInv key value (BinaryHashHeap.push key value h a t).2 := by
  rcases hm : h.map (key t) with _ | idx
  · exact (push_vacant_spec key value h a t hInv hm).2.1
  · cases a with
    | Keep =>
      rw [push_keep_eq key value h t idx hm]
      exact hInv
    | DecreaseKey =>
      rcases lt_or_le (value t) (value (h.items.getD idx default)) with hlt | hge
      · exact (push_dec_improve_spec key value h t idx hInv hm hlt).2.1
      · rw [push_dec_stale_eq key value h t idx hm hge]
        exact hInv
    | IncreaseKey =>
      rcases lt_or_le (value (h.items.getD idx default)) (value t) with hlt | hge
      · exact (push_inc_improve_spec key value h t idx hInv hm hlt).2.1
      · rw [push_inc_stale_eq key value h t idx hm hge]
        exact hInv

theorem push_items_mem (key : T → κ) (value : T → ν) (h : BinaryHashHeap T κ)
    (a : PushAction) (t : T) (hInv : HeapInv key value h) (x : T)
    (hx : x ∈ (BinaryHashHeap.push key value h a t).2.items) :
    x = t ∨ x ∈ h.items := by
  rcases hm : h.map (key t) with _ | idx
  · have hperm := (push_vacant_spec key value h a t hInv hm).2.2
    have := hperm.mem_iff.mp hx
    simpa using this
  · cases a with
    | Keep =>
      rw [push_keep_eq key value h t idx hm] at hx
      exact Or.inr hx
    | DecreaseKey =>
      rcases lt_or_le (value t) (value (h.items.getD idx default)) with hlt | hge
      · have hperm := (push_dec_improve_spec key value h t idx hInv hm hlt).2.2
        have hx2 := hperm.mem_iff.mp hx
        rcases List.mem_cons.mp hx2 with hx3 | hx3
        · exact Or.inl hx3
        · exact Or.inr (List.eraseIdx_subset _ _ hx3)
      · rw [push_dec_stale_eq key value h t idx hm hge] at hx
        exact Or.inr hx
    | IncreaseKey =>
      rcases lt_or_le (value (h.items.getD idx default)) (value t) with hlt | hge
      · have hperm := (push_inc_improve_spec key value h t idx hInv hm hlt).2.2
        have hx2 := hperm.mem_iff.mp hx
        rcases List.mem_cons.mp hx2 with hx3 | hx3
        · exact Or.inl hx3
        · exact Or.inr (List.eraseIdx_subset _ _ hx3)
      · rw [push_inc_stale_eq key value h t idx hm hge] at hx
        exact Or.inr hx

/-! ### `pop` preserves the invariant and returns the root -/

theorem head?_getD [Inhabited α] (l : List α) (a : α)
    (h : l.head? = some a) : l.getD 0 default = a := by
  cases l with
  | nil => cases h
  | cons x xs =>
    cases h
    rfl

theorem pop_empty_eq (key : T → κ) (value : T → ν) (h : BinaryHashHeap T κ)
    (he : h.items = []) : BinaryHashHeap.pop key value h = (none, h) := by
  unfold BinaryHashHeap.pop
  rw [he]
  rfl

theorem pop_nonempty_spec (key : T → κ) (value : T → ν)
    (h : BinaryHashHeap T κ) (hInv : HeapInv key value h)
    (hne : h.items ≠ []) :
    (BinaryHashHeap.pop key value h).1 = some (h.items.getD 0 default) ∧
    HeapInv key value (BinaryHashHeap.pop key value h).2 ∧
    h.items.Perm
      (h.items.getD 0 default :: (BinaryHashHeap.pop key value h).2.items) := by
  have hlen0 : 0 < h.items.length := List.length_pos.mpr hne
  have hie : ¬ h.items.isEmpty = true := by
    simp [List.isEmpty_iff]
    exact hne
  have hlen2 : (swapRemove h.items 0).length = h.items.length - 1 :=
    swapRemove_length h.items 0
  unfold BinaryHashHeap.pop
  rw [if_neg hie]
  dsimp only
  rcases hh : (swapRemove h.items 0).head? with _ | item
  · dsimp only
    have h2 : swapRemove h.items 0 = [] := List.head?_eq_none_iff.mp hh
    have hlen1 : h.items.length = 1 := by
      rw [h2] at hlen2
      simp at hlen2
      omega
    refine ⟨rfl, ⟨⟨?_, ?_⟩, ?_⟩, ?_⟩
    · intro n hn
      simp [h2] at hn
    · intro k n hkn
      have hm2 : (if k = key (h.items.getD 0 default) then none else h.map k)
          = some n := hkn
      by_cases hk : k = key (h.items.getD 0 default)
      · rw [if_pos hk] at hm2
        cases hm2
      · rw [if_neg hk] at hm2
        obtain ⟨hn, hkey⟩ := hInv.1.2 k n hm2
        have hn0 : n = 0 := by omega
        rw [hn0] at hkey
        exact (hk hkey.symm).elim
    · intro j hj0 hjl
      simp [h2] at hjl
    · obtain ⟨x, hx⟩ := List.length_eq_one.mp hlen1
      show h.items.Perm (h.items.getD 0 default :: swapRemove h.items 0)
      rw [h2, hx]
      exact List.Perm.refl _
  · dsimp only
    have hsr_ne : swapRemove h.items 0 ≠ [] := by
      intro hc
      rw [hc] at hh
      cases hh
    have hlen3 : 2 ≤ h.items.length := by
      have := List.length_pos.mpr hsr_ne
      omega
    have hitem : item = h.items.getD (h.items.length - 1) default := by
      have h1 := head?_getD _ _ hh
      have h2 := swapRemove_getD h.items 0 0 (by omega)
      rw [if_pos rfl] at h2
      rw [← h1, h2]
    set n := h.items.length with hn
    set ls2 := swapRemove h.items 0 with hls2
    set result := h.items.getD 0 default with hresult
    have hget2 : ∀ j, j ≠ 0 → j < n - 1 →
        ls2.getD j default = h.items.getD j default := by
      intro j hj0 hjl
      rw [hls2, swapRemove_getD h.items 0 j hjl,
        if_neg (fun hc => hj0 hc.symm)]
    have hget20 : ls2.getD 0 default = h.items.getD (n - 1) default := by
      rw [hls2, swapRemove_getD h.items 0 0 (by omega), if_pos rfl]
    have hkey_inj := mc_key_inj key h hInv.1
    have hMC3 : BinaryHashHeap.MapConsistent key
        (⟨ls2, fun k => if k = key item then some 0
          else if k = key result then none else h.map k⟩ :
          BinaryHashHeap T κ) := by
      have hm3 : ∀ k, (⟨ls2, fun k => if k = key item then some 0
          else if k = key result then none else h.map k⟩ :
          BinaryHashHeap T κ).map k =
          if k = key item then some 0
          else if k = key result then none else h.map k := fun _ => rfl
      constructor
      · intro j hj
        replace hj : j < ls2.length := hj
        rw [hlen2] at hj
        show (if key (ls2.getD j default) = key item then some 0
          else if key (ls2.getD j default) = key result then none
          else h.map (key (ls2.getD j default))) = some j
        by_cases hj0 : j = 0
        · rw [hj0, hget20, if_pos (by rw [hitem])]
        · rw [hget2 j hj0 (by omega)]
          rw [if_neg (fun hc => by
            have := hkey_inj j (n - 1) (by omega) (by omega)
              (by rw [← hitem]; exact hc)
            omega)]
          rw [if_neg (fun hc => by
            have := hkey_inj j 0 (by omega) (by omega) hc
            exact hj0 this)]
          exact hInv.1.1 j (by omega)
      · intro k j hkj
        replace hkj : (if k = key item then some 0
          else if k = key result then none else h.map k) = some j := hkj
        show j < ls2.length ∧ key (ls2.getD j default) = k
        rw [hlen2]
        by_cases hk1 : k = key item
        · rw [if_pos hk1] at hkj
          cases hkj
          refine ⟨by omega, ?_⟩
          rw [hget20, ← hitem, hk1]
        · rw [if_neg hk1] at hkj
          by_cases hk2 : k = key result
          · rw [if_pos hk2] at hkj
            cases hkj
          · rw [if_neg hk2] at hkj
            obtain ⟨hj, hkey⟩ := hInv.1.2 k j hkj
            have hj0 : j ≠ 0 := by
              intro hc
              rw [hc] at hkey
              exact hk2 hkey.symm
            have hjn : j ≠ n - 1 := by
              intro hc
              rw [hc] at hkey
              rw [← hkey, ← hitem] at hk1
              exact hk1 rfl
            refine ⟨by omega, ?_⟩
            rw [hget2 j hj0 (by omega)]
            exact hkey
    have hAD3 : AlmostDown value ls2 0 := by
      constructor
      · intro j hj0 hjl hjq
        rw [hlen2] at hjl
        rw [hget2 j (by omega) (by omega),
          hget2 ((j - 1) / 2) (by omega) (by omega)]
        exact hInv.2 j hj0 (by omega)
      · intro j h0
        omega
    obtain ⟨m1, m2, m3⟩ := sift_down_spec key value ls2.length
      (⟨ls2, fun k => if k = key item then some 0
        else if k = key result then none else h.map k⟩ :
        BinaryHashHeap T κ) 0
      (by show ls2.length - 0 ≤ ls2.length; omega)
      hMC3
      (by show 0 < ls2.length; omega)
      hAD3
    refine ⟨rfl, ⟨m1, m2⟩, ?_⟩
    refine (perm_getD_cons_swapRemove h.items 0 hlen0).trans ?_
    exact (m3.symm).cons result

theorem pop_inv (key : T → κ) (value : T → ν) (h : BinaryHashHeap T κ)
    (hInv : HeapInv key value h) :
    HeapInv key value (BinaryHashHeap.pop key value h).2 := by
  by_cases he : h.items = []
  · rw [pop_empty_eq key value h he]
    exact hInv
  · exact (pop_nonempty_spec key value h hInv he).2.1

theorem new_inv (key : T → κ) (value : T → ν) :
    HeapInv key value (BinaryHashHeap.new T κ) := by
  refine ⟨⟨?_, ?_⟩, ?_⟩
  · intro n hn
    simp [BinaryHashHeap.new] at hn
  · intro k n hkn
    simp [BinaryHashHeap.new] at hkn
  · intro j hj0 hjl
    simp [BinaryHashHeap.new] at hjl

theorem reachable_inv (key : T → κ) (value : T → ν) (h : BinaryHashHeap T κ)
    (hr : BinaryHashHeap.Reachable key value h) : HeapInv key value h := by
  induction hr with
  | empty => exact new_inv key value
  | push h a t _ ih => exact push_inv key value h a t ih
  | pop h _ ih => exact pop_inv key value h ih

/-- C3: starting from the empty heap, after any sequence of `push`
operations (with any of the `Keep`, `DecreaseKey`, `IncreaseKey`
policies) and `pop` operations, the key-to-index hash map and the
backing array agree (every stored slot's key maps to exactly that slot,
and every map entry points to an in-bounds slot holding an item with
that key), and the array satisfies the min-heap property (no child
slot's value is less than its parent slot's value). -/
theorem heap_invariant_reachable (key : T → κ) (value : T → ν)
    (h : BinaryHashHeap T κ) (hr : BinaryHashHeap.Reachable key value h) :
    BinaryHashHeap.MapConsistent key h ∧ HeapProp value h.items :=
  reachable_inv key value h hr

/-- Witness for C3: a concrete Keep-push, DecreaseKey-push, pop sequence
on `Nat × Nat` items keyed by the first and valued by the second
component. -/
theorem heap_invariant_reachable_witness :
    BinaryHashHeap.MapConsistent (Prod.fst : Nat × Nat → Nat)
      (BinaryHashHeap.pop Prod.fst Prod.snd
        (BinaryHashHeap.push Prod.fst Prod.snd
          (BinaryHashHeap.push Prod.fst Prod.snd
            (BinaryHashHeap.new (Nat × Nat) Nat)
            PushAction.Keep (5, 7)).2
          PushAction.DecreaseKey (5, 3)).2).2 ∧
    HeapProp (Prod.snd : Nat × Nat → Nat)
      (BinaryHashHeap.pop Prod.fst Prod.snd
        (BinaryHashHeap.push Prod.fst Prod.snd
          (BinaryHashHeap.push Prod.fst Prod.snd
            (BinaryHashHeap.new (Nat × Nat) Nat)
            PushAction.Keep (5, 7)).2
          PushAction.DecreaseKey (5, 3)).2).2.items :=
  heap_invariant_reachable Prod.fst Prod.snd _
    (BinaryHashHeap.Reachable.pop _
      (BinaryHashHeap.Reachable.push _ PushAction.DecreaseKey (5, 3)
        (BinaryHashHeap.Reachable.push _ PushAction.Keep (5, 7)
          BinaryHashHeap.Reachable.empty)))

/-! ### `pop` returns the minimum (C4) -/

theorem heapProp_root_min (value : T → ν) (ls : List T)
    (hHP : HeapProp value ls) :
    ∀ n, n < ls.length →
      value (ls.getD 0 default) ≤ value (ls.getD n default) := by
  intro n
  induction n using Nat.strong_induction_on with
  | _ n ih =>
    intro hn
    rcases Nat.eq_zero_or_pos n with h0 | h0
    · rw [h0]
    · exact le_trans (ih ((n - 1) / 2) (by omega) (by omega)) (hHP n h0 hn)

theorem root_min_mem (value : T → ν) (ls : List T) (hHP : HeapProp value ls) :
    ∀ u ∈ ls, value (ls.getD 0 default) ≤ value u := by
  intro u hu
  obtain ⟨i, hi, hig⟩ := List.mem_iff_getElem.mp hu
  have hm := heapProp_root_min value ls hHP i hi
  rwa [getD_eq_getElem _ _ _ hi, hig] at hm

theorem getD_zero_mem [Inhabited α] (l : List α) (h : l ≠ []) :
    l.getD 0 default ∈ l := by
  have hl : 0 < l.length := List.length_pos.mpr h
  rw [getD_eq_getElem _ _ _ hl]
  exact List.getElem_mem hl

theorem popAllAux_spec (key : T → κ) (value : T → ν) :
    ∀ (fuel : Nat) (h : BinaryHashHeap T κ), HeapInv key value h →
      h.items.length ≤ fuel →
      (popAllAux key value fuel h).Perm h.items ∧
      List.Sorted (· ≤ ·) ((popAllAux key value fuel h).map value) := by
  intro fuel
  induction fuel with
  | zero =>
    intro h hInv hf
    have he : h.items = [] := List.length_eq_zero.mp (by omega)
    refine ⟨?_, ?_⟩
    · rw [he]
      exact List.Perm.refl _
    · simp [popAllAux]
  | succ n ih =>
    intro h hInv hf
    by_cases he : h.items = []
    · simp only [popAllAux, pop_empty_eq key value h he]
      exact ⟨by rw [he], by simp⟩
    · obtain ⟨h1, hInv', hperm⟩ := pop_nonempty_spec key value h hInv he
      have hpe : BinaryHashHeap.pop key value h =
          (some (h.items.getD 0 default),
            (BinaryHashHeap.pop key value h).2) := by
        rw [← h1]
      have hlen : (BinaryHashHeap.pop key value h).2.items.length ≤ n := by
        have := hperm.length_eq
        simp at this
        omega
      obtain ⟨ihp, ihs⟩ := ih (BinaryHashHeap.pop key value h).2 hInv' hlen
      simp only [popAllAux]
      rw [hpe]
      refine ⟨?_, ?_⟩
      · exact (ihp.cons _).trans hperm.symm
      · rw [List.map_cons]
        refine List.sorted_cons.mpr ⟨?_, ihs⟩
        intro b hb
        obtain ⟨u, hu, hub⟩ := List.mem_map.mp hb
        have humem : u ∈ h.items := by
          have h2 : u ∈ (BinaryHashHeap.pop key value h).2.items :=
            ihp.mem_iff.mp hu
          exact hperm.symm.mem_iff.mp (List.mem_cons_of_mem _ h2)
        rw [← hub]
        exact root_min_mem value h.items hInv.2 u humem

/-- C4: for every heap state satisfying the heap invariant, `pop`
returns `none` exactly when the heap is empty; otherwise it removes and
returns an item whose value is minimal among all stored items; and
popping repeatedly yields all `n` stored items in non-decreasing order
of value. -/
theorem pop_min_spec (key : T → κ) (value : T → ν) (h : BinaryHashHeap T κ)
    (hInv : HeapInv key value h) :
    ((BinaryHashHeap.pop key value h).1 = none ↔ h.items = []) ∧
    (∀ t, (BinaryHashHeap.pop key value h).1 = some t →
      t ∈ h.items ∧ (∀ u ∈ h.items, value t ≤ value u) ∧
      h.items.Perm (t :: (BinaryHashHeap.pop key value h).2.items)) ∧
    (popAll key value h).Perm h.items ∧
    List.Sorted (· ≤ ·) ((popAll key value h).map value) := by
  obtain ⟨hp1, hp2⟩ := popAllAux_spec key value h.items.length h hInv (le_refl _)
  refine ⟨⟨?_, ?_⟩, ?_, hp1, hp2⟩
  · intro hn
    by_cases he : h.items = []
    · exact he
    · have := (pop_nonempty_spec key value h hInv he).1
      rw [hn] at this
      cases this
  · intro he
    rw [pop_empty_eq key value h he]
  · intro t ht
    by_cases he : h.items = []
    · rw [pop_empty_eq key value h he] at ht
      cases ht
    · obtain ⟨h1, _, hperm⟩ := pop_nonempty_spec key value h hInv he
      rw [h1] at ht
      cases ht
      exact ⟨getD_zero_mem h.items he,
        root_min_mem value h.items hInv.2, hperm⟩

/-- Witness for C4: the C4 specification instantiated at a concrete
two-item reachable heap. -/
theorem pop_min_spec_witness :
    ((BinaryHashHeap.pop Prod.fst Prod.snd
        (BinaryHashHeap.push Prod.fst Prod.snd
          (BinaryHashHeap.push Prod.fst Prod.snd
            (BinaryHashHeap.new (Nat × Nat) Nat)
            PushAction.Keep (1, 5)).2
          PushAction.Keep (2, 4)).2).1 = none ↔
      (BinaryHashHeap.push Prod.fst Prod.snd
        (BinaryHashHeap.push Prod.fst Prod.snd
          (BinaryHashHeap.new (Nat × Nat) Nat)
          PushAction.Keep (1, 5)).2
        PushAction.Keep (2, 4)).2.items = []) ∧
    (∀ t, (BinaryHashHeap.pop Prod.fst Prod.snd
        (BinaryHashHeap.push Prod.fst Prod.snd
          (BinaryHashHeap.push Prod.fst Prod.snd
            (BinaryHashHeap.new (Nat × Nat) Nat)
            PushAction.Keep (1, 5)).2
          PushAction.Keep (2, 4)).2).1 = some t →
      t ∈ (BinaryHashHeap.push Prod.fst Prod.snd
        (BinaryHashHeap.push Prod.fst Prod.snd
          (BinaryHashHeap.new (Nat × Nat) Nat)
          PushAction.Keep (1, 5)).2
        PushAction.Keep (2, 4)).2.items ∧
      (∀ u ∈ (BinaryHashHeap.push Prod.fst Prod.snd
        (BinaryHashHeap.push Prod.fst Prod.snd
          (BinaryHashHeap.new (Nat × Nat) Nat)
          PushAction.Keep (1, 5)).2
        PushAction.Keep (2, 4)).2.items, t.2 ≤ u.2) ∧
      (BinaryHashHeap.push Prod.fst Prod.snd
        (BinaryHashHeap.push Prod.fst Prod.snd
          (BinaryHashHeap.new (Nat × Nat) Nat)
          PushAction.Keep (1, 5)).2
        PushAction.Keep (2, 4)).2.items.Perm
        (t :: (BinaryHashHeap.pop Prod.fst Prod.snd
          (BinaryHashHeap.push Prod.fst Prod.snd
            (BinaryHashHeap.push Prod.fst Prod.snd
              (BinaryHashHeap.new (Nat × Nat) Nat)
              PushAction.Keep (1, 5)).2
            PushAction.Keep (2, 4)).2).2.items)) ∧
    (popAll Prod.fst Prod.snd
      (BinaryHashHeap.push Prod.fst Prod.snd
        (BinaryHashHeap.push Prod.fst Prod.snd
          (BinaryHashHeap.new (Nat × Nat) Nat)
          PushAction.Keep (1, 5)).2
        PushAction.Keep (2, 4)).2).Perm
      (BinaryHashHeap.push Prod.fst Prod.snd
        (BinaryHashHeap.push Prod.fst Prod.snd
          (BinaryHashHeap.new (Nat × Nat) Nat)
          PushAction.Keep (1, 5)).2
        PushAction.Keep (2, 4)).2.items ∧
    List.Sorted (· ≤ ·) ((popAll Prod.fst Prod.snd
      (BinaryHashHeap.push Prod.fst Prod.snd
        (BinaryHashHeap.push Prod.fst Prod.snd
          (BinaryHashHeap.new (Nat × Nat) Nat)
          PushAction.Keep (1, 5)).2
        PushAction.Keep (2, 4)).2).map Prod.snd) :=
  pop_min_spec Prod.fst Prod.snd _
    (reachable_inv Prod.fst Prod.snd _
      (BinaryHashHeap.Reachable.push _ PushAction.Keep (2, 4)
        (BinaryHashHeap.Reachable.push _ PushAction.Keep (1, 5)
          BinaryHashHeap.Reachable.empty)))

/-! ### `push` semantics (C5) -/

/-- C5: for every invariant-satisfying heap and every item: with a fresh
key, `push` inserts the item and returns `true` under every policy;
with a stored key under `DecreaseKey`, `push` replaces the stored item
and returns `true` exactly when the new value is strictly smaller, and
otherwise returns `false` leaving the heap (stored item and value
included) completely unchanged. -/
theorem push_decrease_key_spec (key : T → κ) (value : T → ν)
    (h : BinaryHashHeap T κ) (t : T) (hInv : HeapInv key value h) :
    (h.map (key t) = none →
      ∀ a, (BinaryHashHeap.push key value h a t).1 = true ∧
        (BinaryHashHeap.push key value h a t).2.items.Perm (t :: h.items)) ∧
    (∀ idx, h.map (key t) = some idx →
      (value t < value (h.items.getD idx default) →
        (BinaryHashHeap.push key value h PushAction.DecreaseKey t).1 = true ∧
        (BinaryHashHeap.push key value h
          PushAction.DecreaseKey t).2.items.Perm
          (t :: h.items.eraseIdx idx)) ∧
      (value (h.items.getD idx default) ≤ value t →
        BinaryHashHeap.push key value h PushAction.DecreaseKey t =
          (false, h))) := by
  constructor
  · intro hnone a
    obtain ⟨m1, _, m3⟩ := push_vacant_spec key value h a t hInv hnone
    exact ⟨m1, m3⟩
  · intro idx hsome
    constructor
    · intro hlt
      obtain ⟨m1, _, m3⟩ := push_dec_improve_spec key value h t idx hInv
        hsome hlt
      exact ⟨m1, m3⟩
    · intro hge
      exact push_dec_stale_eq key value h t idx hsome hge

/-- Witness for C5: the C5 specification instantiated at a concrete
one-item reachable heap and the item `(1, 7)`. -/
theorem push_decrease_key_spec_witness :
    ((BinaryHashHeap.push Prod.fst Prod.snd
        (BinaryHashHeap.new (Nat × Nat) Nat)
        PushAction.Keep (1, 5)).2.map 1 = none →
      ∀ a, (BinaryHashHeap.push Prod.fst Prod.snd
          (BinaryHashHeap.push Prod.fst Prod.snd
            (BinaryHashHeap.new (Nat × Nat) Nat)
            PushAction.Keep (1, 5)).2 a ((1, 7) : Nat × Nat)).1 = true ∧
        (BinaryHashHeap.push Prod.fst Prod.snd
          (BinaryHashHeap.push Prod.fst Prod.snd
            (BinaryHashHeap.new (Nat × Nat) Nat)
            PushAction.Keep (1, 5)).2 a ((1, 7) : Nat × Nat)).2.items.Perm
          (((1, 7) : Nat × Nat) :: (BinaryHashHeap.push Prod.fst Prod.snd
            (BinaryHashHeap.new (Nat × Nat) Nat)
            PushAction.Keep (1, 5)).2.items)) ∧
    (∀ idx, (BinaryHashHeap.push Prod.fst Prod.snd
        (BinaryHashHeap.new (Nat × Nat) Nat)
        PushAction.Keep (1, 5)).2.map 1 = some idx →
      ((7 : Nat) < ((BinaryHashHeap.push Prod.fst Prod.snd
          (BinaryHashHeap.new (Nat × Nat) Nat)
          PushAction.Keep (1, 5)).2.items.getD idx default).2 →
        (BinaryHashHeap.push Prod.fst Prod.snd
          (BinaryHashHeap.push Prod.fst Prod.snd
            (BinaryHashHeap.new (Nat × Nat) Nat)
            PushAction.Keep (1, 5)).2
          PushAction.DecreaseKey ((1, 7) : Nat × Nat)).1 = true ∧
        (BinaryHashHeap.push Prod.fst Prod.snd
          (BinaryHashHeap.push Prod.fst Prod.snd
            (BinaryHashHeap.new (Nat × Nat) Nat)
            PushAction.Keep (1, 5)).2
          PushAction.DecreaseKey ((1, 7) : Nat × Nat)).2.items.Perm
          (((1, 7) : Nat × Nat) :: (BinaryHashHeap.push Prod.fst Prod.snd
            (BinaryHashHeap.new (Nat × Nat) Nat)
            PushAction.Keep (1, 5)).2.items.eraseIdx idx)) ∧
      (((BinaryHashHeap.push Prod.fst Prod.snd
          (BinaryHashHeap.new (Nat × Nat) Nat)
          PushAction.Keep (1, 5)).2.items.getD idx default).2 ≤ (7 : Nat) →
        BinaryHashHeap.push Prod.fst Prod.snd
          (BinaryHashHeap.push Prod.fst Prod.snd
            (BinaryHashHeap.new (Nat × Nat) Nat)
            PushAction.Keep (1, 5)).2
          PushAction.DecreaseKey ((1, 7) : Nat × Nat) =
          (false, (BinaryHashHeap.push Prod.fst Prod.snd
            (BinaryHashHeap.new (Nat × Nat) Nat)
            PushAction.Keep (1, 5)).2))) :=
  push_decrease_key_spec Prod.fst Prod.snd _ ((1, 7) : Nat × Nat)
    (reachable_inv Prod.fst Prod.snd _
      (BinaryHashHeap.Reachable.push _ PushAction.Keep (1, 5)
        BinaryHashHeap.Reachable.empty))

/-! ### The wall-index bijection (C7) -/

theorem wall_foldl_eq (ds : List Nat) :
    ∀ (ps : List Nat) (acc stride : Nat), ps.length = ds.length →
    (ds.zip ps).foldl
      (fun (p : Nat × Nat) lv => (p.1 + p.2 * lv.2, p.2 * lv.1))
      (acc, stride) =
      (acc + stride * flattenPos ds ps, stride * ds.prod) := by
  induction ds with
  | nil =>
    intro ps acc stride hlen
    have : ps = [] := List.length_eq_zero.mp hlen
    subst this
    simp [flattenPos]
  | cons d ds ih =>
    intro ps acc stride hlen
    cases ps with
    | nil => simp at hlen
    | cons p ps' =>
      have hlen' : ps'.length = ds.length := by simpa using hlen
      show (ds.zip ps').foldl _ (acc + stride * p, stride * d) = _
      rw [ih ps' (acc + stride * p) (stride * d) hlen']
      show (acc + stride * p + stride * d * flattenPos ds ps',
          stride * d * ds.prod) = _
      have h1 : acc + stride * p + stride * d * flattenPos ds ps' =
          acc + stride * (p + d * flattenPos ds ps') := by ring
      have h2 : stride * d * ds.prod = stride * (d * ds.prod) := by ring
      rw [h1, h2]
      rfl

theorem compute_wall_index_eq (m : Maze) (w : Wall)
    (hlen : w.position.length = m.dimensions.length) :
    m.compute_wall_index w =
      flattenPos m.dimensions w.position + m.dimensions.prod * w.axis := by
  unfold Maze.compute_wall_index
  rw [wall_foldl_eq m.dimensions w.position 0 1 hlen]
  dsimp only
  ring

theorem flattenPos_lt (ds : List Nat) :
    ∀ ps : List Nat, ps.length = ds.length →
    (∀ i, i < ds.length → ps.getD i 0 < ds.getD i 0) →
    flattenPos ds ps < ds.prod := by
  induction ds with
  | nil =>
    intro ps hlen hlt
    have : ps = [] := List.length_eq_zero.mp hlen
    subst this
    simp [flattenPos]
  | cons d ds ih =>
    intro ps hlen hlt
    cases ps with
    | nil => simp at hlen
    | cons p ps' =>
      have hp : p < d := by simpa using hlt 0 (by simp)
      have hrec : flattenPos ds ps' < ds.prod := by
        refine ih ps' (by simpa using hlen) ?_
        intro i hi
        simpa using hlt (i + 1) (by simpa using hi)
      show p + d * flattenPos ds ps' < (d :: ds).prod
      rw [List.prod_cons]
      calc p + d * flattenPos ds ps' < d + d * flattenPos ds ps' := by omega
        _ = d * (flattenPos ds ps' + 1) := by ring
        _ ≤ d * ds.prod := Nat.mul_le_mul_left d hrec

theorem unflatten_flatten (ds : List Nat) :
    ∀ ps : List Nat, ps.length = ds.length →
    (∀ i, i < ds.length → ps.getD i 0 < ds.getD i 0) →
    unflattenPos ds (flattenPos ds ps) = ps := by
  induction ds with
  | nil =>
    intro ps hlen hlt
    have : ps = [] := List.length_eq_zero.mp hlen
    subst this
    rfl
  | cons d ds ih =>
    intro ps hlen hlt
    cases ps with
    | nil => simp at hlen
    | cons p ps' =>
      have hp : p < d := by simpa using hlt 0 (by simp)
      show (p + d * flattenPos ds ps') % d ::
        unflattenPos ds ((p + d * flattenPos ds ps') / d) = p :: ps'
      have hmod : (p + d * flattenPos ds ps') % d = p := by
        rw [Nat.add_mul_mod_self_left, Nat.mod_eq_of_lt hp]
      have hdiv : (p + d * flattenPos ds ps') / d = flattenPos ds ps' := by
        rw [Nat.add_mul_div_left _ _ (by omega : 0 < d),
          Nat.div_eq_of_lt hp]
        omega
      rw [hmod, hdiv, ih ps' (by simpa using hlen)
        (fun i hi => by simpa using hlt (i + 1) (by simpa using hi))]

theorem flatten_unflatten (ds : List Nat) :
    ∀ n : Nat, n < ds.prod → flattenPos ds (unflattenPos ds n) = n := by
  induction ds with
  | nil =>
    intro n hn
    simp at hn
    simp [hn, flattenPos, unflattenPos]
  | cons d ds ih =>
    intro n hn
    rw [List.prod_cons] at hn
    have hd : 0 < d := by
      rcases Nat.eq_zero_or_pos d with h0 | h0
      · rw [h0] at hn; simp at hn
      · exact h0
    have hdiv : n / d < ds.prod := by
      rw [Nat.div_lt_iff_lt_mul hd]
      calc n < d * ds.prod := hn
        _ = ds.prod * d := by ring
    show n % d + d * flattenPos ds (unflattenPos ds (n / d)) = n
    rw [ih (n / d) hdiv]
    exact Nat.mod_add_div n d

theorem unflatten_valid (ds : List Nat) :
    ∀ n : Nat, (∀ d ∈ ds, 0 < d) → n < ds.prod →
    (unflattenPos ds n).length = ds.length ∧
    (∀ i, i < ds.length → (unflattenPos ds n).getD i 0 < ds.getD i 0) := by
  induction ds with
  | nil =>
    intro n hd hn
    exact ⟨rfl, fun i hi => by simp at hi⟩
  | cons d ds ih =>
    intro n hd hn
    rw [List.prod_cons] at hn
    have hd0 : 0 < d := hd d (by simp)
    have hdiv : n / d < ds.prod := by
      rw [Nat.div_lt_iff_lt_mul hd0]
      calc n < d * ds.prod := hn
        _ = ds.prod * d := by ring
    obtain ⟨ih1, ih2⟩ := ih (n / d) (fun x hx => hd x (by simp [hx])) hdiv
    refine ⟨?_, ?_⟩
    · show (n % d :: unflattenPos ds (n / d)).length = ds.length + 1
      simp [ih1]
    intro i hi
    cases i with
    | zero =>
      show n % d < d
      exact Nat.mod_lt n hd0
    | succ i =>
      show (unflattenPos ds (n / d)).getD i 0 < ds.getD i 0
      exact ih2 i (by simpa using hi)

theorem compute_wall_index_lt (m : Maze) (w : Wall)
    (hw : ValidWall m.dimensions w) :
    m.compute_wall_index w < m.dimensions.prod * m.dimensions.length := by
  obtain ⟨⟨hlen, hlt⟩, haxis⟩ := hw
  have hflt : flattenPos m.dimensions w.position < m.dimensions.prod :=
    flattenPos_lt m.dimensions w.position hlen hlt
  rw [compute_wall_index_eq m w hlen]
  calc flattenPos m.dimensions w.position + m.dimensions.prod * w.axis
      < m.dimensions.prod + m.dimensions.prod * w.axis := by omega
    _ = m.dimensions.prod * (w.axis + 1) := by ring
    _ ≤ m.dimensions.prod * m.dimensions.length :=
      Nat.mul_le_mul_left _ (by omega)

/-- C7: for every maze whose dimensions are all positive, the wall-index
function is a bijection between valid `(position, axis)` pairs and the
integers in `[0, prod(dims) * D)`: every valid wall's index is in range
and decodes back to the same wall, distinct valid walls have distinct
indices, and every index in range is the index of a valid wall. -/
theorem wall_index_bijection (m : Maze) (hd : ∀ d ∈ m.dimensions, 0 < d) :
    (∀ w : Wall, ValidWall m.dimensions w →
      m.compute_wall_index w < m.dimensions.prod * m.dimensions.length ∧
      decodeWallIndex m.dimensions (m.compute_wall_index w) = w) ∧
    (∀ w1 w2 : Wall, ValidWall m.dimensions w1 → ValidWall m.dimensions w2 →
      m.compute_wall_index w1 = m.compute_wall_index w2 → w1 = w2) ∧
    (∀ n, n < m.dimensions.prod * m.dimensions.length →
      ValidWall m.dimensions (decodeWallIndex m.dimensions n) ∧
      m.compute_wall_index (decodeWallIndex m.dimensions n) = n) := by
  have hppos : 0 < m.dimensions.prod := List.prod_pos hd
  have hfwd : ∀ w : Wall, ValidWall m.dimensions w →
      m.compute_wall_index w < m.dimensions.prod * m.dimensions.length ∧
      decodeWallIndex m.dimensions (m.compute_wall_index w) = w := by
    intro w hw
    obtain ⟨⟨hlen, hlt⟩, haxis⟩ := hw
    have hflt : flattenPos m.dimensions w.position < m.dimensions.prod :=
      flattenPos_lt m.dimensions w.position hlen hlt
    have heq := compute_wall_index_eq m w hlen
    constructor
    · exact compute_wall_index_lt m w ⟨⟨hlen, hlt⟩, haxis⟩
    · rw [heq]
      unfold decodeWallIndex
      have hmod : (flattenPos m.dimensions w.position +
          m.dimensions.prod * w.axis) % m.dimensions.prod =
          flattenPos m.dimensions w.position := by
        rw [Nat.add_mul_mod_self_left, Nat.mod_eq_of_lt hflt]
      have hdiv : (flattenPos m.dimensions w.position +
          m.dimensions.prod * w.axis) / m.dimensions.prod = w.axis := by
        rw [Nat.add_mul_div_left _ _ hppos, Nat.div_eq_of_lt hflt]
        omega
      rw [hmod, hdiv, unflatten_flatten m.dimensions w.position hlen hlt]
  refine ⟨hfwd, ?_, ?_⟩
  · intro w1 w2 hw1 hw2 heq
    have h1 := (hfwd w1 hw1).2
    have h2 := (hfwd w2 hw2).2
    rw [← h1, ← h2, heq]
  · intro n hn
    have hmod : n % m.dimensions.prod < m.dimensions.prod :=
      Nat.mod_lt n hppos
    have hdiv : n / m.dimensions.prod < m.dimensions.length := by
      rw [Nat.div_lt_iff_lt_mul hppos]
      calc n < m.dimensions.prod * m.dimensions.length := hn
        _ = m.dimensions.length * m.dimensions.prod := by ring
    obtain ⟨hv1, hv2⟩ := unflatten_valid m.dimensions (n % m.dimensions.prod)
      hd hmod
    have hvw : ValidWall m.dimensions (decodeWallIndex m.dimensions n) :=
      ⟨⟨hv1, hv2⟩, hdiv⟩
    refine ⟨hvw, ?_⟩
    rw [compute_wall_index_eq m _ hv1]
    show flattenPos m.dimensions (unflattenPos m.dimensions
        (n % m.dimensions.prod)) + m.dimensions.prod *
        (n / m.dimensions.prod) = n
    rw [flatten_unflatten m.dimensions (n % m.dimensions.prod) hmod]
    exact Nat.mod_add_div n m.dimensions.prod

/-- Witness for C7: the bijection statement instantiated on the maze of
shape `[2, 3]`. -/
theorem wall_index_bijection_witness :
    (∀ d ∈ (Maze.new [2, 3]).dimensions, 0 < d) ∧
    ((∀ w : Wall, ValidWall (Maze.new [2, 3]).dimensions w →
      (Maze.new [2, 3]).compute_wall_index w <
        (Maze.new [2, 3]).dimensions.prod *
          (Maze.new [2, 3]).dimensions.length ∧
      decodeWallIndex (Maze.new [2, 3]).dimensions
        ((Maze.new [2, 3]).compute_wall_index w) = w) ∧
    (∀ w1 w2 : Wall, ValidWall (Maze.new [2, 3]).dimensions w1 →
      ValidWall (Maze.new [2, 3]).dimensions w2 →
      (Maze.new [2, 3]).compute_wall_index w1 =
        (Maze.new [2, 3]).compute_wall_index w2 → w1 = w2) ∧
    (∀ n, n < (Maze.new [2, 3]).dimensions.prod *
        (Maze.new [2, 3]).dimensions.length →
      ValidWall (Maze.new [2, 3]).dimensions
        (decodeWallIndex (Maze.new [2, 3]).dimensions n) ∧
      (Maze.new [2, 3]).compute_wall_index
        (decodeWallIndex (Maze.new [2, 3]).dimensions n) = n)) :=
  ⟨by decide, wall_index_bijection (Maze.new [2, 3]) (by decide)⟩

/-! ### Explorer movement (C9) -/

/-- C9: `walk(axisSlot, sign)` leaves the position unchanged exactly
when the wall between the current cell and the destination cell (one
toroidal step along the axis bound to the slot) is present, and
otherwise moves the position to that destination; no other maze
component changes.  The checked wall is the canonical wall between the
two cells: the positive-direction wall of the current cell when moving
positively, and of the destination cell when moving negatively. -/
theorem walk_spec (m : Maze) (view_axis : Nat) (sign : Bool)
    (hslot : view_axis < 2)
    (hax : m.axisAt view_axis < m.position.length) :
    Maze.walk m view_axis sign =
      if m.get_wall (Wall.mk
          (if sign then m.position
            else m.traverse m.position (m.axisAt view_axis) sign)
          (m.axisAt view_axis)) then m
      else { m with
        position := m.traverse m.position (m.axisAt view_axis) sign } := by
  cases sign with
  | true =>
    unfold Maze.walk Maze.traverse
    simp only [reduceIte]
    by_cases hw : m.get_wall (Wall.mk m.position (m.axisAt view_axis)) = true
    · rw [if_pos hw, if_pos hw]
    · rw [if_neg hw, if_neg hw]
      by_cases hp : m.position.getD (m.axisAt view_axis) 0 ≠
          m.dimensions.getD (m.axisAt view_axis) 0 - 1
      · rw [if_pos hp, if_pos hp]
      · rw [if_neg hp, if_neg hp]
  | false =>
    unfold Maze.walk Maze.traverse
    simp only [Bool.false_eq_true, reduceIte]
    by_cases hp : m.position.getD (m.axisAt view_axis) 0 ≠ 0
    · rw [if_pos hp]
      by_cases hw : m.get_wall (Wall.mk
          (m.position.set (m.axisAt view_axis)
            (m.position.getD (m.axisAt view_axis) 0 - 1))
          (m.axisAt view_axis)) = true
      · rw [if_pos hw, if_pos hw]
        have hres : (m.position.set (m.axisAt view_axis)
            (m.position.getD (m.axisAt view_axis) 0 - 1)).set
            (m.axisAt view_axis) (m.position.getD (m.axisAt view_axis) 0) =
            m.position := by
          rw [List.set_set]
          exact set_getD_self m.position (m.axisAt view_axis) 0 hax
        rw [hres]
      · rw [if_neg hw, if_neg hw]
    · rw [if_neg hp]
      by_cases hw : m.get_wall (Wall.mk
          (m.position.set (m.axisAt view_axis)
            (m.dimensions.getD (m.axisAt view_axis) 0 - 1))
          (m.axisAt view_axis)) = true
      · rw [if_pos hw, if_pos hw]
        have hres : (m.position.set (m.axisAt view_axis)
            (m.dimensions.getD (m.axisAt view_axis) 0 - 1)).set
            (m.axisAt view_axis) (m.position.getD (m.axisAt view_axis) 0) =
            m.position := by
          rw [List.set_set]
          exact set_getD_self m.position (m.axisAt view_axis) 0 hax
        rw [hres]
      · rw [if_neg hw, if_neg hw]

/-- Witness for C9: the walk specification instantiated on a concrete
2x2 maze (all walls present) at slot 0, negative direction. -/
theorem walk_spec_witness :
    (0 : Nat) < 2 ∧ (Maze.new [2, 2]).axisAt 0 <
      (Maze.new [2, 2]).position.length ∧
    Maze.walk (Maze.new [2, 2]) 0 false =
      (if (Maze.new [2, 2]).get_wall (Wall.mk
          (if false then (Maze.new [2, 2]).position
            else (Maze.new [2, 2]).traverse (Maze.new [2, 2]).position
              ((Maze.new [2, 2]).axisAt 0) false)
          ((Maze.new [2, 2]).axisAt 0)) then Maze.new [2, 2]
      else { Maze.new [2, 2] with
        position := (Maze.new [2, 2]).traverse (Maze.new [2, 2]).position
          ((Maze.new [2, 2]).axisAt 0) false }) :=
  ⟨by decide, by decide,
    walk_spec (Maze.new [2, 2]) 0 false (by decide) (by decide)⟩

/-! ### Geometry helpers shared by the solver and generator claims -/

theorem foldl_id {β γ : Type} (f : γ → β → γ) (l : List β) (init : γ)
    (hf : ∀ acc x, x ∈ l → f acc x = acc) : l.foldl f init = init := by
  induction l generalizing init with
  | nil => rfl
  | cons x xs ih =>
    rw [List.foldl_cons, hf init x (by simp)]
    exact ih init (fun acc y hy => hf acc y (by simp [hy]))

theorem getD_replicate (n idx : Nat) (b d : Bool) (h : idx < n) :
    (List.replicate n b).getD idx d = b := by
  rw [getD_eq_getElem _ _ _ (by simpa using h)]
  exact List.getElem_replicate _ _

theorem validPos_set (dims p : List Nat) (axis v : Nat)
    (hp : ValidPos dims p) (hax : axis < dims.length)
    (hv : v < dims.getD axis 0) : ValidPos dims (p.set axis v) := by
  obtain ⟨hlen, hlt⟩ := hp
  refine ⟨by simp [hlen], ?_⟩
  intro i hi
  rw [getD_set]
  split
  · rename_i hc
    rw [← hc.1]
    exact hv
  · exact hlt i hi

theorem traverse_valid (m : Maze) (p : List Nat) (axis : Nat) (sign : Bool)
    (hd : ∀ d ∈ m.dimensions, 0 < d)
    (hp : ValidPos m.dimensions p) (hax : axis < m.dimensions.length) :
    ValidPos m.dimensions (m.traverse p axis sign) := by
  have hdax : 0 < m.dimensions.getD axis 0 := by
    refine hd _ ?_
    rw [getD_eq_getElem _ _ _ hax]
    exact List.getElem_mem hax
  have hpax : p.getD axis 0 < m.dimensions.getD axis 0 := hp.2 axis hax
  unfold Maze.traverse
  cases sign with
  | true =>
    simp only [reduceIte]
    split
    · rename_i hne
      exact validPos_set _ _ _ _ hp hax (by omega)
    · exact validPos_set _ _ _ _ hp hax (by omega)
  | false =>
    simp only [Bool.false_eq_true, reduceIte]
    split
    · exact validPos_set _ _ _ _ hp hax (by omega)
    · exact validPos_set _ _ _ _ hp hax (by omega)

theorem neighbours_mem (m : Maze) (p : List Nat) (wn : Wall × List Nat)
    (h : wn ∈ m.neighbours p) :
    ∃ axis, axis < m.dimensions.length ∧ ∃ sign : Bool,
      wn.2 = m.traverse p axis sign ∧
      wn.1 = Wall.mk (if sign then p else wn.2) axis := by
  unfold Maze.neighbours at h
  rw [List.mem_flatMap] at h
  obtain ⟨axis, haxis, hmem⟩ := h
  rw [List.mem_range] at haxis
  rw [List.mem_map] at hmem
  obtain ⟨sign, _, heq⟩ := hmem
  refine ⟨axis, haxis, sign, ?_, ?_⟩
  · rw [← heq]
  · rw [← heq]

theorem neighbours_wall_valid (m : Maze) (p : List Nat)
    (hd : ∀ d ∈ m.dimensions, 0 < d) (hp : ValidPos m.dimensions p)
    (wn : Wall × List Nat) (h : wn ∈ m.neighbours p) :
    ValidWall m.dimensions wn.1 ∧ ValidPos m.dimensions wn.2 := by
  obtain ⟨axis, haxis, sign, h2, h1⟩ := neighbours_mem m p wn h
  have hv2 : ValidPos m.dimensions wn.2 := by
    rw [h2]
    exact traverse_valid m p axis sign hd hp haxis
  refine ⟨?_, hv2⟩
  rw [h1]
  cases sign with
  | true => exact ⟨hp, haxis⟩
  | false => exact ⟨by simpa using hv2, haxis⟩

theorem get_wall_replicate (m : Maze) (w : Wall)
    (hrep : m.walls =
      List.replicate (m.dimensions.prod * m.dimensions.length) true)
    (hw : ValidWall m.dimensions w) : m.get_wall w = true := by
  unfold Maze.get_wall
  rw [hrep]
  exact getD_replicate _ _ _ _ (compute_wall_index_lt m w hw)

theorem sift_up_zero (key : T → κ) (value : T → ν) (h : BinaryHashHeap T κ) :
    BinaryHashHeap.sift_up key value h 0 = (h, 0) := by
  rw [BinaryHashHeap.sift_up]
  simp

theorem heap0_eq (t : Node) :
    (BinaryHashHeap.push nodeKey nodeValue (BinaryHashHeap.new Node (List Nat))
      PushAction.Keep t).2 =
      (⟨[t], fun k => if k = nodeKey t then some 0 else none⟩ :
        BinaryHashHeap Node (List Nat)) := by
  unfold BinaryHashHeap.push BinaryHashHeap.new
  dsimp only
  simp only [List.length_nil, List.nil_append]
  rw [sift_up_zero]

theorem pop_singleton (key : T → κ) (value : T → ν) (t : T)
    (mp : κ → Option Nat) :
    BinaryHashHeap.pop key value (⟨[t], mp⟩ : BinaryHashHeap T κ) =
      (some t, ⟨[], fun k => if k = key t then none else mp k⟩) := rfl

/-! ### `solve` on an unreachable end (C2) -/

theorem foldl_preserve {β γ : Type} (f : γ → β → γ) (P : γ → Prop) :
    ∀ (l : List β), (∀ acc x, x ∈ l → P acc → P (f acc x)) →
    ∀ init, P init → P (l.foldl f init) := by
  intro l
  induction l with
  | nil => intro _ init h; exact h
  | cons x xs ih =>
    intro hstep init h
    rw [List.foldl_cons]
    exact ih (fun acc y hy hacc => hstep acc y (by simp [hy]) hacc)
      (f init x) (hstep init x (by simp) h)

theorem solveLoop_unreachable (m : Maze)
    (hunreach : ¬ Maze.OpenReachable m m.endPos) :
    ∀ (fuel : Nat) (st : SolveState), st.maze = m →
      HeapInv nodeKey nodeValue st.openHeap →
      (∀ t ∈ st.openHeap.items, Maze.OpenReachable m t.position) →
      ∀ p, (solveLoop fuel st).1 ≠ SolveOutcome.found p := by
  intro fuel
  induction fuel with
  | zero =>
    intro st _ _ _ p h
    exact SolveOutcome.noConfusion h
  | succ n ih =>
    intro st hmz hInv hreach p
    rw [solveLoop]
    by_cases he : st.openHeap.items = []
    · rw [pop_empty_eq _ _ _ he]
      intro h
      exact SolveOutcome.noConfusion h
    · obtain ⟨h1, hInv', hperm⟩ :=
        pop_nonempty_spec nodeKey nodeValue st.openHeap hInv he
      have hpe : BinaryHashHeap.pop nodeKey nodeValue st.openHeap =
          (some (st.openHeap.items.getD 0 default),
            (BinaryHashHeap.pop nodeKey nodeValue st.openHeap).2) := by
        rw [← h1]
      rw [hpe]
      dsimp only
      have hroot : Maze.OpenReachable m
          (st.openHeap.items.getD 0 default).position :=
        hreach _ (getD_zero_mem st.openHeap.items he)
      rw [hmz]
      by_cases hend : (st.openHeap.items.getD 0 default).position = m.endPos
      · rw [if_pos hend]
        rw [hend] at hroot
        exact absurd hroot hunreach
      · rw [if_neg hend]
        set node := st.openHeap.items.getD 0 default with hnode
        set heap' := (BinaryHashHeap.pop nodeKey nodeValue st.openHeap).2
          with hheap'
        have hP := foldl_preserve
          (fun (acc : BinaryHashHeap Node (List Nat) ×
              List (List Nat × List Nat)) wn =>
            if wn.2 ∈ st.visited then acc
            else if m.get_wall wn.1 then acc
            else
              let g_score := node.g_score + 1
              let f_score := g_score + m.distance wn.2 m.endPos
              let pr := BinaryHashHeap.push nodeKey nodeValue acc.1
                PushAction.DecreaseKey (Node.mk g_score f_score wn.2)
              if pr.1 then (pr.2, assocInsert acc.2 wn.2 node.position)
              else (pr.2, acc.2))
          (fun acc => HeapInv nodeKey nodeValue acc.1 ∧
            ∀ t ∈ acc.1.items, Maze.OpenReachable m t.position)
          (m.neighbours node.position)
          (by
            intro acc wn hwn hP
            obtain ⟨hI, hR⟩ := hP
            dsimp only
            by_cases h1 : wn.2 ∈ st.visited
            · rw [if_pos h1]
              exact ⟨hI, hR⟩
            · rw [if_neg h1]
              by_cases h2 : m.get_wall wn.1 = true
              · rw [if_pos h2]
                exact ⟨hI, hR⟩
              · rw [if_neg h2]
                have hopen : m.get_wall wn.1 = false := by
                  cases hgw : m.get_wall wn.1
                  · rfl
                  · exact absurd hgw h2
                have hstep : Maze.OpenReachable m wn.2 :=
                  Maze.OpenReachable.step node.position wn hroot hwn hopen
                split
                · refine ⟨push_inv nodeKey nodeValue acc.1 _ _ hI, ?_⟩
                  intro t ht
                  rcases push_items_mem nodeKey nodeValue acc.1 _ _ hI t ht
                    with hteq | hmem
                  · rw [hteq]
                    exact hstep
                  · exact hR t hmem
                · refine ⟨push_inv nodeKey nodeValue acc.1 _ _ hI, ?_⟩
                  intro t ht
                  rcases push_items_mem nodeKey nodeValue acc.1 _ _ hI t ht
                    with hteq | hmem
                  · rw [hteq]
                    exact hstep
                  · exact hR t hmem)
          (heap', st.links) ⟨hInv', by
            intro t ht
            refine hreach t ?_
            exact hperm.symm.mem_iff.mp (List.mem_cons_of_mem _ ht)⟩
        apply ih
        · rfl
        · exact hP.1
        · exact hP.2

theorem all_walls_only_start_reachable (m : Maze)
    (hd : ∀ d ∈ m.dimensions, 0 < d)
    (hstart : ValidPos m.dimensions m.start)
    (hrep : m.walls =
      List.replicate (m.dimensions.prod * m.dimensions.length) true) :
    ∀ q, Maze.OpenReachable m q → q = m.start := by
  intro q hq
  induction hq with
  | refl => rfl
  | step p wn hp hwn hopen ihp =>
    rw [ihp] at hwn
    have hvalid := (neighbours_wall_valid m m.start hd hstart wn hwn).1
    have := get_wall_replicate m wn.1 hrep hvalid
    rw [hopen] at this
    cases this

theorem solve_all_walls_panics (m : Maze)
    (hd : ∀ d ∈ m.dimensions, 0 < d)
    (hstart : ValidPos m.dimensions m.start)
    (hneq : m.start ≠ m.endPos)
    (hrep : m.walls =
      List.replicate (m.dimensions.prod * m.dimensions.length) true) :
    Maze.solve m = (SolveOutcome.panicNoPath, m) := by
  unfold Maze.solve
  dsimp only
  rw [heap0_eq]
  rw [show 2 * m.dimensions.prod + 2 = (2 * m.dimensions.prod + 1) + 1
    from rfl]
  rw [solveLoop]
  dsimp only
  rw [pop_singleton]
  dsimp only
  rw [if_neg hneq]
  try dsimp only
  rw [foldl_id _ _ _ (by
    intro acc wn hwn
    have hvalid := (neighbours_wall_valid m m.start hd hstart wn hwn).1
    have hgw := get_wall_replicate m wn.1 hrep hvalid
    try dsimp only
    rw [if_neg (by simp : ¬ wn.2 ∈ ([] : List (List Nat))), if_pos hgw])]
  rw [show 2 * m.dimensions.prod + 1 = (2 * m.dimensions.prod) + 1
    from rfl]
  rw [solveLoop]
  rw [pop_empty_eq nodeKey nodeValue _ rfl]

/-- C2 counterexample: on the concrete maze of shape `[2]` with all
walls present and `start = [0] ≠ end = [1]`, `solve()` does not return
a recoverable no-path value: it reaches `panic!("No path found")`
(the `panicNoPath` abort outcome of the model), refuting the claim that
the no-path case is surfaced as a recoverable result rather than a
crash. -/
theorem solve_no_path_panics_cex :
    Maze.solve (⟨[2], [0], [1], [0], (0, 1), [true, true]⟩ : Maze) =
      (SolveOutcome.panicNoPath,
        (⟨[2], [0], [1], [0], (0, 1), [true, true]⟩ : Maze)) :=
  solve_all_walls_panics _ (by decide) (by decide) (by decide) (by decide)

/-- C2 (amended): when no sequence of open walls connects `start` to
`end`, `solve()` never returns a path; in particular, on a well-formed
maze with generation skipped (every wall still present) and
`start ≠ end`, the call ends in the `panic!("No path found")` process
abort — not in a recoverable "no path" result. -/
theorem solve_unreachable_end_spec (m : Maze) :
    (¬ Maze.OpenReachable m m.endPos →
      ∀ p, (Maze.solve m).1 ≠ SolveOutcome.found p) ∧
    ((∀ d ∈ m.dimensions, 0 < d) → ValidPos m.dimensions m.start →
      m.start ≠ m.endPos →
      m.walls =
        List.replicate (m.dimensions.prod * m.dimensions.length) true →
      Maze.solve m = (SolveOutcome.panicNoPath, m)) := by
  constructor
  · intro hunreach p
    unfold Maze.solve
    dsimp only
    refine solveLoop_unreachable m hunreach _ _ rfl ?_ ?_ p
    · exact push_inv nodeKey nodeValue _ _ _ (new_inv nodeKey nodeValue)
    · intro t ht
      have ht2 : t ∈ ((BinaryHashHeap.push nodeKey nodeValue
          (BinaryHashHeap.new Node (List Nat)) PushAction.Keep
          (Node.mk 0 (m.distance m.start m.endPos) m.start)).2).items := ht
      rw [heap0_eq] at ht2
      simp only [List.mem_singleton] at ht2
      rw [ht2]
      exact Maze.OpenReachable.refl
  · intro hd hstart hneq hrep
    exact solve_all_walls_panics m hd hstart hneq hrep

/-- Witness for C2's amended claim: on the all-walls maze of shape `[3]`
with `start = [0]`, `end = [2]`, both conjuncts fire: the end is not
open-reachable, solve never returns a path, and solve ends in the
no-path panic. -/
theorem solve_unreachable_end_spec_witness :
    (¬ Maze.OpenReachable
      (⟨[3], [0], [2], [0], (0, 1), [true, true, true]⟩ : Maze) [2]) ∧
    (∀ p, (Maze.solve
      (⟨[3], [0], [2], [0], (0, 1), [true, true, true]⟩ : Maze)).1 ≠
        SolveOutcome.found p) ∧
    Maze.solve (⟨[3], [0], [2], [0], (0, 1), [true, true, true]⟩ : Maze) =
      (SolveOutcome.panicNoPath,
        (⟨[3], [0], [2], [0], (0, 1), [true, true, true]⟩ : Maze)) := by
  have hunreach : ¬ Maze.OpenReachable
      (⟨[3], [0], [2], [0], (0, 1), [true, true, true]⟩ : Maze) [2] := by
    intro hq
    have := all_walls_only_start_reachable
      (⟨[3], [0], [2], [0], (0, 1), [true, true, true]⟩ : Maze)
      (by decide) (by decide) (by decide) [2] hq
    simp at this
  exact ⟨hunreach,
    (solve_unreachable_end_spec _).1 hunreach,
    (solve_unreachable_end_spec _).2 (by decide) (by decide) (by decide)
      (by decide)⟩

/-! ### The generator (C6): wraparound-arithmetic toolbox -/

theorem get_neighbour_cells_eq (w : Wall) (shape : List Nat) :
    w.get_neighbour_cells shape =
      [w.position, incWrap shape w.position w.axis] := rfl

theorem from_cell_eq (shape c : List Nat) :
    Wall.from_cell shape c = (List.range shape.length).flatMap
      (fun axis => [Wall.mk c axis, Wall.mk (decWrap shape c axis) axis]) :=
  rfl

theorem traverse_true_eq (m : Maze) (p : List Nat) (axis : Nat) :
    m.traverse p axis true = incWrap m.dimensions p axis := rfl

theorem traverse_false_eq (m : Maze) (p : List Nat) (axis : Nat) :
    m.traverse p axis false = decWrap m.dimensions p axis := rfl

theorem set_wall_dimensions (m : Maze) (w : Wall) (b : Bool) :
    (m.set_wall w b).dimensions = m.dimensions := rfl

theorem set_wall_start (m : Maze) (w : Wall) (b : Bool) :
    (m.set_wall w b).start = m.start := rfl

theorem set_wall_walls (m : Maze) (w : Wall) (b : Bool) :
    (m.set_wall w b).walls = m.walls.set (m.compute_wall_index w) b := rfl

theorem getD_mem (l : List α) (i : Nat) (d : α) (h : i < l.length) :
    l.getD i d ∈ l := by
  rw [getD_eq_getElem l i d h]
  exact List.getElem_mem h

theorem incWrap_length (shape p : List Nat) (axis : Nat) :
    (incWrap shape p axis).length = p.length := by
  unfold incWrap; split <;> simp

theorem decWrap_length (shape p : List Nat) (axis : Nat) :
    (decWrap shape p axis).length = p.length := by
  unfold decWrap; split <;> simp

theorem incWrap_valid (shape p : List Nat) (axis : Nat)
    (hp : ValidPos shape p) (hd : 0 < shape.getD axis 0) :
    ValidPos shape (incWrap shape p axis) := by
  obtain ⟨hl, hbd⟩ := hp
  unfold incWrap
  split
  · refine ⟨by simpa using hl, ?_⟩
    intro i hi
    rw [getD_set]
    split
    · rename_i hne hc
      obtain ⟨hai, hap⟩ := hc
      subst hai
      have := hbd axis (by omega)
      omega
    · exact hbd i hi
  · refine ⟨by simpa using hl, ?_⟩
    intro i hi
    rw [getD_set]
    split
    · rename_i hc
      obtain ⟨hai, _⟩ := hc
      subst hai
      exact hd
    · exact hbd i hi

theorem decWrap_valid (shape p : List Nat) (axis : Nat)
    (hp : ValidPos shape p) (hd : 0 < shape.getD axis 0) :
    ValidPos shape (decWrap shape p axis) := by
  obtain ⟨hl, hbd⟩ := hp
  unfold decWrap
  split
  · refine ⟨by simpa using hl, ?_⟩
    intro i hi
    rw [getD_set]
    split
    · rename_i hne hc
      obtain ⟨hai, hap⟩ := hc
      subst hai
      have := hbd axis (by omega)
      omega
    · exact hbd i hi
  · refine ⟨by simpa using hl, ?_⟩
    intro i hi
    rw [getD_set]
    split
    · rename_i hc
      obtain ⟨hai, _⟩ := hc
      subst hai
      omega
    · exact hbd i hi

theorem decWrap_incWrap (shape p : List Nat) (axis : Nat)
    (hax : axis < p.length) (hlt : p.getD axis 0 < shape.getD axis 0) :
    decWrap shape (incWrap shape p axis) axis = p := by
  unfold incWrap decWrap
  by_cases hne : p.getD axis 0 ≠ shape.getD axis 0 - 1
  · have h1 : (p.set axis (p.getD axis 0 + 1)).getD axis 0 =
        p.getD axis 0 + 1 := getD_set_self p axis _ 0 hax
    rw [if_pos hne, h1, if_pos (by omega), List.set_set,
      Nat.add_sub_cancel, set_getD_self p axis 0 hax]
  · have hv : p.getD axis 0 = shape.getD axis 0 - 1 := by omega
    have h1 : (p.set axis 0).getD axis 0 = 0 := getD_set_self p axis _ 0 hax
    rw [if_neg hne, h1, if_neg (by omega), List.set_set, ← hv,
      set_getD_self p axis 0 hax]

theorem incWrap_decWrap (shape p : List Nat) (axis : Nat)
    (hax : axis < p.length) (hlt : p.getD axis 0 < shape.getD axis 0) :
    incWrap shape (decWrap shape p axis) axis = p := by
  unfold incWrap decWrap
  by_cases hne : p.getD axis 0 ≠ 0
  · have h1 : (p.set axis (p.getD axis 0 - 1)).getD axis 0 =
        p.getD axis 0 - 1 := getD_set_self p axis _ 0 hax
    rw [if_pos hne, h1, if_pos (by omega), List.set_set,
      Nat.sub_add_cancel (by omega), set_getD_self p axis 0 hax]
  · have hv : p.getD axis 0 = 0 := by omega
    have h1 : (p.set axis (shape.getD axis 0 - 1)).getD axis 0 =
        shape.getD axis 0 - 1 := getD_set_self p axis _ 0 hax
    rw [if_neg hne, h1, if_neg (by omega), List.set_set, ← hv,
      set_getD_self p axis 0 hax]

theorem from_cell_length (shape c : List Nat) :
    (Wall.from_cell shape c).length = 2 * shape.length := by
  rw [from_cell_eq, List.length_flatMap]
  have h : ∀ n : Nat, ((List.range n).map
      (List.length ∘ fun axis =>
        [Wall.mk c axis, Wall.mk (decWrap shape c axis) axis])).sum =
      2 * n := by
    intro n
    induction n with
    | zero => rfl
    | succ k ih =>
      rw [List.range_succ, List.map_append, List.sum_append, ih]
      simp only [List.map_cons, List.map_nil, List.sum_cons, List.sum_nil,
        Function.comp, List.length_cons, List.length_nil]
      omega
  exact h shape.length

theorem from_cell_mem_base (shape c : List Nat) (axis : Nat)
    (h : axis < shape.length) : Wall.mk c axis ∈ Wall.from_cell shape c := by
  rw [from_cell_eq]
  refine List.mem_flatMap.mpr ⟨axis, List.mem_range.mpr h, ?_⟩
  simp

theorem from_cell_mem_dec (shape c : List Nat) (axis : Nat)
    (h : axis < shape.length) :
    Wall.mk (decWrap shape c axis) axis ∈ Wall.from_cell shape c := by
  rw [from_cell_eq]
  refine List.mem_flatMap.mpr ⟨axis, List.mem_range.mpr h, ?_⟩
  simp

theorem from_cell_elim (shape c : List Nat) (w : Wall)
    (h : w ∈ Wall.from_cell shape c) :
    w.axis < shape.length ∧
      (w.position = c ∨ w.position = decWrap shape c w.axis) := by
  rw [from_cell_eq] at h
  obtain ⟨axis, hax, hmem⟩ := List.mem_flatMap.mp h
  have hax' := List.mem_range.mp hax
  rcases List.mem_cons.mp hmem with h1 | h1
  · subst h1; exact ⟨hax', Or.inl rfl⟩
  · rcases List.mem_cons.mp h1 with h2 | h2
    · subst h2; exact ⟨hax', Or.inr rfl⟩
    · simp at h2

theorem from_cell_touches (shape c : List Nat) (hd : ∀ d ∈ shape, 0 < d)
    (hc : ValidPos shape c) (w : Wall) (h : w ∈ Wall.from_cell shape c) :
    ValidWall shape w ∧ c ∈ w.get_neighbour_cells shape := by
  obtain ⟨hax, hpos⟩ := from_cell_elim shape c w h
  have hd0 : 0 < shape.getD w.axis 0 :=
    hd (shape.getD w.axis 0) (getD_mem shape w.axis 0 hax)
  rcases hpos with h1 | h1
  · refine ⟨⟨h1 ▸ hc, hax⟩, ?_⟩
    rw [get_neighbour_cells_eq, h1]
    exact List.mem_cons_self _ _
  · have hdv : ValidPos shape (decWrap shape c w.axis) :=
      decWrap_valid shape c w.axis hc hd0
    refine ⟨⟨h1 ▸ hdv, hax⟩, ?_⟩
    rw [get_neighbour_cells_eq, h1,
      incWrap_decWrap shape c w.axis (by rw [hc.1]; exact hax)
        (hc.2 w.axis hax)]
    simp

theorem mem_from_cell_of_neighbour (shape : List Nat) (w : Wall)
    (hw : ValidWall shape w) (c : List Nat)
    (hc : c ∈ w.get_neighbour_cells shape) : w ∈ Wall.from_cell shape c := by
  obtain ⟨⟨hlen, hbd⟩, hax⟩ := hw
  rw [get_neighbour_cells_eq] at hc
  rcases List.mem_cons.mp hc with h1 | h1
  · rw [h1]
    exact from_cell_mem_base shape w.position w.axis hax
  · rcases List.mem_cons.mp h1 with h2 | h2
    · have hdi : decWrap shape (incWrap shape w.position w.axis) w.axis
          = w.position :=
        decWrap_incWrap shape w.position w.axis (by omega) (hbd w.axis hax)
      have hm := from_cell_mem_dec shape (incWrap shape w.position w.axis)
        w.axis hax
      rw [hdi] at hm
      rw [h2]
      exact hm
    · simp at h2

theorem neighbour_cells_valid (shape : List Nat) (w : Wall)
    (hw : ValidWall shape w) (hd : ∀ d ∈ shape, 0 < d) :
    ∀ c ∈ w.get_neighbour_cells shape, ValidPos shape c := by
  obtain ⟨hp, hax⟩ := hw
  intro c hc
  rw [get_neighbour_cells_eq] at hc
  rcases List.mem_cons.mp hc with h1 | h1
  · rw [h1]; exact hp
  · rcases List.mem_cons.mp h1 with h2 | h2
    · rw [h2]
      exact incWrap_valid shape w.position w.axis hp
        (hd _ (getD_mem shape w.axis 0 hax))
    · simp at h2

theorem mem_swapRemove [Inhabited α] (l : List α) (j : Nat) (x : α)
    (hj : j < l.length) (hx : x ∈ l) (hne : x ≠ l.getD j default) :
    x ∈ swapRemove l j := by
  have hperm := perm_getD_cons_swapRemove l j hj
  rcases List.mem_cons.mp (hperm.mem_iff.mp hx) with h | h
  · exact absurd h hne
  · exact h

theorem count_false_set (l : List Bool) (i : Nat) (h : i < l.length)
    (ht : l.getD i false = true) :
    (l.set i false).count false = l.count false + 1 := by
  induction l generalizing i with
  | nil => simp at h
  | cons b t ih =>
    cases i with
    | zero =>
      simp at ht
      subst ht
      simp [List.count_cons]
    | succ n =>
      have h' : n < t.length := by simpa using h
      have ht' : t.getD n false = true := by simpa using ht
      show (b :: t.set n false).count false = (b :: t).count false + 1
      cases b <;> simp [List.count_cons, ih n h' ht'] <;> omega

theorem get_wall_set_self (m : Maze) (w : Wall)
    (h : m.compute_wall_index w < m.walls.length) (b : Bool) :
    (m.set_wall w b).get_wall w = b := by
  show (m.walls.set (m.compute_wall_index w) b).getD
    (m.compute_wall_index w) false = b
  exact getD_set_self _ _ _ _ h

theorem get_wall_set_ne (m : Maze) (w w' : Wall) (b : Bool)
    (h : m.compute_wall_index w ≠ m.compute_wall_index w') :
    (m.set_wall w b).get_wall w' = m.get_wall w' := by
  show (m.walls.set (m.compute_wall_index w) b).getD
    (m.compute_wall_index w') false = _
  exact getD_set_ne _ _ _ _ _ h

theorem get_wall_set_false_mono (m : Maze) (w w' : Wall)
    (h : m.get_wall w' = false) :
    (m.set_wall w false).get_wall w' = false := by
  show (m.walls.set (m.compute_wall_index w) false).getD
    (m.compute_wall_index w') false = false
  rw [getD_set]
  split
  · rfl
  · exact h

theorem get_wall_true_of_set_false (m : Maze) (w w' : Wall)
    (h : (m.set_wall w false).get_wall w' = true) : m.get_wall w' = true := by
  cases hgw : m.get_wall w'
  · rw [get_wall_set_false_mono m w w' hgw] at h
    simp at h
  · rfl

theorem wall_encode_decode (m : Maze) (hd : ∀ d ∈ m.dimensions, 0 < d)
    (w : Wall) (hw : ValidWall m.dimensions w) :
    decodeWallIndex m.dimensions (m.compute_wall_index w) = w := by
  obtain ⟨⟨hlen, hlt⟩, haxis⟩ := hw
  have hppos : 0 < m.dimensions.prod := List.prod_pos hd
  have hflt : flattenPos m.dimensions w.position < m.dimensions.prod :=
    flattenPos_lt m.dimensions w.position hlen hlt
  rw [compute_wall_index_eq m w hlen]
  unfold decodeWallIndex
  have hmod : (flattenPos m.dimensions w.position +
      m.dimensions.prod * w.axis) % m.dimensions.prod =
      flattenPos m.dimensions w.position := by
    rw [Nat.add_mul_mod_self_left, Nat.mod_eq_of_lt hflt]
  have hdiv : (flattenPos m.dimensions w.position +
      m.dimensions.prod * w.axis) / m.dimensions.prod = w.axis := by
    rw [Nat.add_mul_div_left _ _ hppos, Nat.div_eq_of_lt hflt]
    omega
  rw [hmod, hdiv, unflatten_flatten m.dimensions w.position hlen hlt]

theorem wall_index_inj (m : Maze) (hd : ∀ d ∈ m.dimensions, 0 < d)
    (w1 w2 : Wall) (h1 : ValidWall m.dimensions w1)
    (h2 : ValidWall m.dimensions w2)
    (heq : m.compute_wall_index w1 = m.compute_wall_index w2) : w1 = w2 := by
  have e1 := wall_encode_decode m hd w1 h1
  have e2 := wall_encode_decode m hd w2 h2
  rw [← e1, ← e2, heq]

theorem wallConnects_symm (shape : List Nat) (w : Wall) (a b : List Nat)
    (h : WallConnects shape w a b) : WallConnects shape w b a :=
  h.elim Or.inr Or.inl

theorem wallConnects_cases (shape : List Nat) (w : Wall) (a b p q : List Nat)
    (h1 : WallConnects shape w a b) (h2 : WallConnects shape w p q) :
    (a = p ∧ b = q) ∨ (a = q ∧ b = p) := by
  rcases h1 with h1 | h1 <;> rcases h2 with h2 | h2 <;> rw [h1] at h2 <;>
      simp only [List.cons.injEq, and_true] at h2
  · exact Or.inl h2
  · exact Or.inr h2
  · exact Or.inr ⟨h2.2, h2.1⟩
  · exact Or.inl ⟨h2.2, h2.1⟩

theorem wallConnects_mem_left (shape : List Nat) (w : Wall) (a b : List Nat)
    (h : WallConnects shape w a b) : a ∈ w.get_neighbour_cells shape := by
  rcases h with h | h <;> rw [h] <;> simp

theorem wallConnects_mem_right (shape : List Nat) (w : Wall) (a b : List Nat)
    (h : WallConnects shape w a b) : b ∈ w.get_neighbour_cells shape := by
  rcases h with h | h <;> rw [h] <;> simp

/-! ### The generator (C6): counting valid positions -/

theorem validPos_nil (p : List Nat) : ValidPos [] p ↔ p = [] := by
  unfold ValidPos
  constructor
  · intro h
    exact List.length_eq_zero.mp (by simpa using h.1)
  · intro h
    subst h
    exact ⟨rfl, by intro i hi; simp at hi⟩

theorem validPos_cons (d : Nat) (ds : List Nat) (x : Nat) (xs : List Nat) :
    ValidPos (d :: ds) (x :: xs) ↔ x < d ∧ ValidPos ds xs := by
  unfold ValidPos
  constructor
  · intro h
    obtain ⟨hl, hb⟩ := h
    refine ⟨by simpa using hb 0 (by simp), by simpa using hl, ?_⟩
    intro i hi
    simpa using hb (i + 1) (by simpa using Nat.succ_lt_succ hi)
  · intro h
    obtain ⟨hx, hl, hb⟩ := h
    refine ⟨by simpa using hl, ?_⟩
    intro i hi
    cases i with
    | zero => simpa using hx
    | succ n => simpa using hb n (by simpa using hi)

theorem validPos_cons_elim (d : Nat) (ds : List Nat) (p : List Nat)
    (h : ValidPos (d :: ds) p) :
    ∃ x xs, p = x :: xs ∧ x < d ∧ ValidPos ds xs := by
  cases p with
  | nil => exact absurd h.1 (by simp)
  | cons x xs => exact ⟨x, xs, rfl, (validPos_cons d ds x xs).mp h⟩

theorem mem_allPositions (ds : List Nat) :
    ∀ p, p ∈ allPositions ds ↔ ValidPos ds p := by
  induction ds with
  | nil =>
    intro p
    show p ∈ [[]] ↔ _
    rw [validPos_nil]
    simp
  | cons d t ih =>
    intro p
    show p ∈ (List.range d).flatMap _ ↔ _
    rw [List.mem_flatMap]
    constructor
    · intro h
      obtain ⟨v, hv, hp⟩ := h
      obtain ⟨q, hq, hpq⟩ := List.mem_map.mp hp
      rw [← hpq, validPos_cons]
      exact ⟨List.mem_range.mp hv, (ih q).mp hq⟩
    · intro hp
      obtain ⟨x, xs, hpx, hxd, hv⟩ := validPos_cons_elim d t p hp
      subst hpx
      exact ⟨x, List.mem_range.mpr hxd,
        List.mem_map.mpr ⟨xs, (ih xs).mpr hv, rfl⟩⟩

theorem sum_map_const_length (l : List α) (k : Nat) (f : α → Nat)
    (hf : ∀ i ∈ l, f i = k) : (l.map f).sum = l.length * k := by
  induction l with
  | nil => simp
  | cons x xs ih =>
    rw [List.map_cons, List.sum_cons,
      ih (fun i hi => hf i (List.mem_cons_of_mem x hi)),
      hf x (List.mem_cons_self x xs), List.length_cons, Nat.succ_mul]
    exact Nat.add_comm _ _

theorem allPositions_length (ds : List Nat) :
    (allPositions ds).length = ds.prod := by
  induction ds with
  | nil => rfl
  | cons d t ih =>
    show ((List.range d).flatMap _).length = _
    rw [List.length_flatMap, List.prod_cons,
      sum_map_const_length (List.range d) t.prod _ ?_, List.length_range]
    intro i _
    show ((allPositions t).map (i :: ·)).length = t.prod
    rw [List.length_map, ih]

theorem nodup_flatMap_of (l : List α) (f : α → List β)
    (hl : l.Nodup) (h1 : ∀ a ∈ l, (f a).Nodup)
    (h2 : ∀ a1 ∈ l, ∀ a2 ∈ l, a1 ≠ a2 → ∀ b, b ∈ f a1 → b ∉ f a2) :
    (l.flatMap f).Nodup := by
  induction l with
  | nil => simp
  | cons x xs ih =>
    rw [List.flatMap_cons]
    apply List.Nodup.append
    · exact h1 x (List.mem_cons_self x xs)
    · apply ih (List.nodup_cons.mp hl).2
      · intro a ha
        exact h1 a (List.mem_cons_of_mem x ha)
      · intro a1 ha1 a2 ha2 hne b hb1
        exact h2 a1 (List.mem_cons_of_mem x ha1) a2
          (List.mem_cons_of_mem x ha2) hne b hb1
    · intro b hbx hbxs
      obtain ⟨a, ha, hba⟩ := List.mem_flatMap.mp hbxs
      have hxa : x ≠ a := by
        rintro rfl
        exact (List.nodup_cons.mp hl).1 ha
      exact h2 x (List.mem_cons_self x xs) a (List.mem_cons_of_mem x ha)
        hxa b hbx hba

theorem allPositions_nodup (ds : List Nat) : (allPositions ds).Nodup := by
  induction ds with
  | nil => simp [allPositions]
  | cons d t ih =>
    show ((List.range d).flatMap _).Nodup
    apply nodup_flatMap_of _ _ (List.nodup_range d)
    · intro a _
      refine List.Nodup.map ?_ ih
      intro x y hxy
      injection hxy with h1 h2
    · intro a1 _ a2 _ hne b hb1 hb2
      obtain ⟨q1, hq1, hb1e⟩ := List.mem_map.mp hb1
      obtain ⟨q2, hq2, hb2e⟩ := List.mem_map.mp hb2
      rw [← hb1e] at hb2e
      injection hb2e with h1 _
      exact hne h1.symm

theorem nodup_valid_length_le (ds : List Nat) (l : List (List Nat))
    (hn : l.Nodup) (hv : ∀ c ∈ l, ValidPos ds c) : l.length ≤ ds.prod := by
  have hsub : l ⊆ allPositions ds := fun c hc =>
    (mem_allPositions ds c).mpr (hv c hc)
  have := (List.subperm_of_subset hn hsub).length_le
  rwa [allPositions_length] at this

theorem nodup_valid_length_eq (ds : List Nat) (l : List (List Nat))
    (hn : l.Nodup) (hv : ∀ c ∈ l, ValidPos ds c)
    (hall : ∀ c, ValidPos ds c → c ∈ l) : l.length = ds.prod := by
  have h1 := nodup_valid_length_le ds l hn hv
  have hsub2 : allPositions ds ⊆ l := fun c hc =>
    hall c ((mem_allPositions ds c).mp hc)
  have h2 := (List.subperm_of_subset (allPositions_nodup ds) hsub2).length_le
  rw [allPositions_length] at h2
  omega

/-! ### The generator (C6): one loop iteration -/

theorem swapRemove_subset [Inhabited α] (l : List α) (j : Nat)
    (hj : j < l.length) : swapRemove l j ⊆ l := by
  intro x hx
  exact (perm_getD_cons_swapRemove l j hj).mem_iff.mpr
    (List.mem_cons_of_mem _ hx)

theorem genStep_both_visited (st : GenState) (r : Nat)
    (h1 : (st.walls.getD (r % st.walls.length) default).position ∈
      st.visited)
    (h2 : incWrap st.maze.dimensions
      (st.walls.getD (r % st.walls.length) default).position
      (st.walls.getD (r % st.walls.length) default).axis ∈ st.visited) :
    genStep st r =
      ⟨st.maze, st.visited, swapRemove st.walls (r % st.walls.length)⟩ := by
  unfold genStep
  dsimp only
  rw [get_neighbour_cells_eq]
  dsimp only [List.foldl]
  rw [if_pos h1]
  dsimp only [List.foldl]
  rw [if_pos h2]
  rfl

theorem genStep_new_second (st : GenState) (r : Nat)
    (h1 : (st.walls.getD (r % st.walls.length) default).position ∈
      st.visited)
    (h2 : incWrap st.maze.dimensions
      (st.walls.getD (r % st.walls.length) default).position
      (st.walls.getD (r % st.walls.length) default).axis ∉ st.visited) :
    genStep st r =
      ⟨st.maze.set_wall (st.walls.getD (r % st.walls.length) default) false,
        incWrap st.maze.dimensions
          (st.walls.getD (r % st.walls.length) default).position
          (st.walls.getD (r % st.walls.length) default).axis :: st.visited,
        swapRemove st.walls (r % st.walls.length) ++
          (Wall.from_cell st.maze.dimensions
            (incWrap st.maze.dimensions
              (st.walls.getD (r % st.walls.length) default).position
              (st.walls.getD (r % st.walls.length) default).axis)).filter
            (fun w => st.maze.get_wall w)⟩ := by
  unfold genStep
  dsimp only
  rw [get_neighbour_cells_eq]
  dsimp only [List.foldl]
  rw [if_pos h1]
  dsimp only [List.foldl]
  rw [if_neg h2]
  rfl

theorem genStep_new_first (st : GenState) (r : Nat)
    (h1 : (st.walls.getD (r % st.walls.length) default).position ∉
      st.visited)
    (h2 : incWrap st.maze.dimensions
      (st.walls.getD (r % st.walls.length) default).position
      (st.walls.getD (r % st.walls.length) default).axis ∈ st.visited) :
    genStep st r =
      ⟨st.maze.set_wall (st.walls.getD (r % st.walls.length) default) false,
        (st.walls.getD (r % st.walls.length) default).position :: st.visited,
        swapRemove st.walls (r % st.walls.length) ++
          (Wall.from_cell st.maze.dimensions
            (st.walls.getD (r % st.walls.length) default).position).filter
            (fun w => st.maze.get_wall w)⟩ := by
  unfold genStep
  dsimp only
  rw [get_neighbour_cells_eq]
  dsimp only [List.foldl]
  rw [if_neg h1]
  dsimp only [List.foldl]
  rw [if_pos (List.mem_cons_of_mem _ h2)]
  rfl

theorem genInv_step_A (st : GenState) (j : Nat) (hj : j < st.walls.length)
    (hinv : GenInv st)
    (h1 : (st.walls.getD j default).position ∈ st.visited)
    (h2 : incWrap st.maze.dimensions (st.walls.getD j default).position
      (st.walls.getD j default).axis ∈ st.visited) :
    GenInv ⟨st.maze, st.visited, swapRemove st.walls j⟩ := by
  obtain ⟨hd, hwl, hnd, hvalid, hstart, hfrontier, hbound, hcount, htree⟩ :=
    hinv
  refine ⟨hd, hwl, hnd, hvalid, hstart, ?_, ?_, hcount, htree⟩
  · intro w hw
    exact hfrontier w (swapRemove_subset st.walls j hj hw)
  · intro w hwv hwt hex1 hex2
    have hwmem := hbound w hwv hwt hex1 hex2
    have hwne : w ≠ st.walls.getD j default := by
      intro he
      obtain ⟨b, hbmem, hbnv⟩ := hex2
      rw [he, get_neighbour_cells_eq] at hbmem
      rcases List.mem_cons.mp hbmem with hb1 | hb1
      · exact hbnv (by rw [hb1]; exact h1)
      · rcases List.mem_cons.mp hb1 with hb2 | hb2
        · exact hbnv (by rw [hb2]; exact h2)
        · simp at hb2
    exact mem_swapRemove st.walls j w hj hwmem hwne

theorem genInv_step_B (st : GenState) (j : Nat) (hj : j < st.walls.length)
    (hinv : GenInv st) (u v : List Nat)
    (hu : u ∉ st.visited) (hv : v ∈ st.visited)
    (hconn : WallConnects st.maze.dimensions (st.walls.getD j default) v u) :
    GenInv ⟨st.maze.set_wall (st.walls.getD j default) false,
      u :: st.visited,
      swapRemove st.walls j ++
        (Wall.from_cell st.maze.dimensions u).filter
          (fun w => st.maze.get_wall w)⟩ := by
  obtain ⟨hd, hwl, hnd, hvalid, hstart, hfrontier, hbound, hcount, htree⟩ :=
    hinv
  have hwall_mem : st.walls.getD j default ∈ st.walls := getD_mem _ _ _ hj
  have hwall_valid : ValidWall st.maze.dimensions (st.walls.getD j default) :=
    (hfrontier _ hwall_mem).1
  have hidx_lt : st.maze.compute_wall_index (st.walls.getD j default) <
      st.maze.walls.length := by
    rw [hwl]
    exact compute_wall_index_lt st.maze _ hwall_valid
  have hu_valid : ValidPos st.maze.dimensions u :=
    neighbour_cells_valid st.maze.dimensions _ hwall_valid hd u
      (wallConnects_mem_right _ _ _ _ hconn)
  have hvu : v ≠ u := fun h => hu (h ▸ hv)
  have hus : u ≠ st.maze.start := fun h => hu (h ▸ hstart)
  have hpresent : st.maze.get_wall (st.walls.getD j default) = true := by
    cases hgw : st.maze.get_wall (st.walls.getD j default)
    · exfalso
      obtain ⟨par, dep, hA, hB, hC⟩ := htree
      obtain ⟨c, hcvis, hcne, p, hpar⟩ := hB _ hwall_valid hgw
      obtain ⟨w2, p2, hpar2, hp2vis, hopen2, hconn2, _⟩ := hA c hcvis hcne
      rw [hpar] at hpar2
      injection hpar2 with hpr
      injection hpr with hw2 hp2
      subst hw2
      subst hp2
      rcases wallConnects_cases _ _ _ _ _ _ hconn hconn2 with h | h
      · exact hu (by rw [h.2]; exact hcvis)
      · exact hu (by rw [h.2]; exact hp2vis)
    · rfl
  refine ⟨hd, ?_, ?_, ?_, ?_, ?_, ?_, ?_, ?_⟩
  · show (st.maze.walls.set (st.maze.compute_wall_index
      (st.walls.getD j default)) false).length = _
    rw [List.length_set]
    exact hwl
  · exact List.nodup_cons.mpr ⟨hu, hnd⟩
  · intro c hc
    rcases List.mem_cons.mp hc with h | h
    · rw [h]; exact hu_valid
    · exact hvalid c h
  · exact List.mem_cons_of_mem _ hstart
  · intro w hw
    rcases List.mem_append.mp hw with h | h
    · obtain ⟨hwv, c, hcvis, hcmem⟩ :=
        hfrontier w (swapRemove_subset st.walls j hj h)
      exact ⟨hwv, c, List.mem_cons_of_mem _ hcvis, hcmem⟩
    · have hmem := List.mem_filter.mp h
      obtain ⟨hwv, htouch⟩ := from_cell_touches st.maze.dimensions u hd
        hu_valid w hmem.1
      exact ⟨hwv, u, List.mem_cons_self _ _, htouch⟩
  · intro w hwv hwt hex1 hex2
    have hwt_old : st.maze.get_wall w = true :=
      get_wall_true_of_set_false st.maze _ w hwt
    have hwne : w ≠ st.walls.getD j default := by
      intro he
      rw [he, get_wall_set_self st.maze _ hidx_lt false] at hwt
      simp at hwt
    obtain ⟨b, hbmem, hbnv⟩ := hex2
    have hbnv2 : b ∉ st.visited := fun hh => hbnv (List.mem_cons_of_mem _ hh)
    obtain ⟨a, hamem, havis⟩ := hex1
    rcases List.mem_cons.mp havis with ha | ha
    · apply List.mem_append.mpr
      right
      apply List.mem_filter.mpr
      refine ⟨?_, hwt_old⟩
      apply mem_from_cell_of_neighbour st.maze.dimensions w hwv
      rw [← ha]
      exact hamem
    · apply List.mem_append.mpr
      left
      have hwmem := hbound w hwv hwt_old ⟨a, hamem, ha⟩ ⟨b, hbmem, hbnv2⟩
      exact mem_swapRemove st.walls j w hj hwmem hwne
  · show (st.maze.walls.set (st.maze.compute_wall_index
      (st.walls.getD j default)) false).count false = _
    rw [count_false_set st.maze.walls _ hidx_lt hpresent, hcount,
      List.length_cons]
    have hvpos : 0 < st.visited.length := List.length_pos_of_mem hstart
    omega
  · obtain ⟨par, dep, hA, hB, hC⟩ := htree
    refine ⟨fun c =>
        if c = u then some (st.walls.getD j default, v) else par c,
      fun c => if c = u then dep v + 1 else dep c, ?_, ?_, ?_⟩
    · intro c hc hcne
      rcases List.mem_cons.mp hc with h | h
      · subst h
        refine ⟨st.walls.getD j default, v, by dsimp only; rw [if_pos rfl],
          List.mem_cons_of_mem _ hv,
          get_wall_set_self st.maze _ hidx_lt false, hconn, ?_⟩
        dsimp only
        rw [if_pos rfl, if_neg hvu]
      · have hcu : c ≠ u := fun he => hu (he ▸ h)
        obtain ⟨w, p, hpar, hpvis, hopen, hcn, hdep⟩ := hA c h hcne
        have hpu : p ≠ u := fun he => hu (he ▸ hpvis)
        refine ⟨w, p, ?_, List.mem_cons_of_mem _ hpvis,
          get_wall_set_false_mono st.maze _ w hopen, hcn, ?_⟩
        · dsimp only
          rw [if_neg hcu]
          exact hpar
        · dsimp only
          rw [if_neg hcu, if_neg hpu]
          exact hdep
    · intro w hwv hwf
      by_cases hidx : st.maze.compute_wall_index w =
          st.maze.compute_wall_index (st.walls.getD j default)
      · have hweq : w = st.walls.getD j default :=
          wall_index_inj st.maze hd w _ hwv hwall_valid hidx
        refine ⟨u, List.mem_cons_self _ _, hus, v, ?_⟩
        dsimp only
        rw [if_pos rfl, hweq]
      · have hwf_old : st.maze.get_wall w = false := by
          rw [← get_wall_set_ne st.maze _ w false (fun he => hidx he.symm)]
          exact hwf
        obtain ⟨c, hcvis, hcne, p, hpar⟩ := hB w hwv hwf_old
        have hcu : c ≠ u := fun he => hu (he ▸ hcvis)
        refine ⟨c, List.mem_cons_of_mem _ hcvis, hcne, p, ?_⟩
        dsimp only
        rw [if_neg hcu]
        exact hpar
    · intro c1 hc1 c2 hc2 hne1 hne2 w p1 p2 hp1 hp2
      dsimp only at hp1 hp2
      by_cases h1u : c1 = u
      · by_cases h2u : c2 = u
        · rw [h1u, h2u]
        · exfalso
          rw [h1u, if_pos rfl] at hp1
          rw [if_neg h2u] at hp2
          injection hp1 with hpr
          injection hpr with hw1 hv1
          have hc2vis : c2 ∈ st.visited := by
            rcases List.mem_cons.mp hc2 with h | h
            · exact absurd h h2u
            · exact h
          obtain ⟨w2, q2, hpar2, _, hopen2, _, _⟩ := hA c2 hc2vis hne2
          rw [hp2] at hpar2
          injection hpar2 with hpr2
          injection hpr2 with hw2 hq2
          rw [← hw2, ← hw1] at hopen2
          rw [hopen2] at hpresent
          simp at hpresent
      · by_cases h2u : c2 = u
        · exfalso
          rw [h2u, if_pos rfl] at hp2
          rw [if_neg h1u] at hp1
          injection hp2 with hpr
          injection hpr with hw2 hv2
          have hc1vis : c1 ∈ st.visited := by
            rcases List.mem_cons.mp hc1 with h | h
            · exact absurd h h1u
            · exact h
          obtain ⟨w1, q1, hpar1, _, hopen1, _, _⟩ := hA c1 hc1vis hne1
          rw [hp1] at hpar1
          injection hpar1 with hpr1
          injection hpr1 with hw1 hq1
          rw [← hw1, ← hw2] at hopen1
          rw [hopen1] at hpresent
          simp at hpresent
        · have hc1vis : c1 ∈ st.visited := by
            rcases List.mem_cons.mp hc1 with h | h
            · exact absurd h h1u
            · exact h
          have hc2vis : c2 ∈ st.visited := by
            rcases List.mem_cons.mp hc2 with h | h
            · exact absurd h h2u
            · exact h
          rw [if_neg h1u] at hp1
          rw [if_neg h2u] at hp2
          exact hC c1 hc1vis c2 hc2vis hne1 hne2 w p1 p2 hp1 hp2

theorem genMeasure_B_lt (st : GenState) (j : Nat) (hj : j < st.walls.length)
    (w : Wall) (u : List Nat) (hu_valid : ValidPos st.maze.dimensions u)
    (hu : u ∉ st.visited) (hnd : st.visited.Nodup)
    (hvalid : ∀ c ∈ st.visited, ValidPos st.maze.dimensions c) :
    genMeasure ⟨st.maze.set_wall w false, u :: st.visited,
      swapRemove st.walls j ++
        (Wall.from_cell st.maze.dimensions u).filter
          (fun x => st.maze.get_wall x)⟩ < genMeasure st := by
  have hvis_le : st.visited.length + 1 ≤ st.maze.dimensions.prod := by
    have hle := nodup_valid_length_le st.maze.dimensions (u :: st.visited)
      (List.nodup_cons.mpr ⟨hu, hnd⟩) ?_
    · simpa using hle
    · intro c hc
      rcases List.mem_cons.mp hc with h | h
      · rw [h]; exact hu_valid
      · exact hvalid c h
  have hfl : ((Wall.from_cell st.maze.dimensions u).filter
      (fun x => st.maze.get_wall x)).length ≤
      2 * st.maze.dimensions.length := by
    calc ((Wall.from_cell st.maze.dimensions u).filter
        (fun x => st.maze.get_wall x)).length
        ≤ (Wall.from_cell st.maze.dimensions u).length :=
          List.length_filter_le _ _
      _ = 2 * st.maze.dimensions.length := from_cell_length _ _
  show (swapRemove st.walls j ++
      (Wall.from_cell st.maze.dimensions u).filter
        (fun x => st.maze.get_wall x)).length +
      2 * st.maze.dimensions.length *
        (st.maze.dimensions.prod - (u :: st.visited).length) <
    st.walls.length + 2 * st.maze.dimensions.length *
      (st.maze.dimensions.prod - st.visited.length)
  rw [List.length_append, swapRemove_length, List.length_cons]
  have hsplit : st.maze.dimensions.prod - st.visited.length =
      (st.maze.dimensions.prod - (st.visited.length + 1)) + 1 := by omega
  rw [hsplit, Nat.mul_add, Nat.mul_one]
  have hlen : 0 < st.walls.length := Nat.lt_of_le_of_lt (Nat.zero_le j) hj
  have hgen : ∀ X F L E : Nat, 0 < L → F ≤ E →
      L - 1 + F + X < L + (X + E) := fun X F L E hL hF => by omega
  exact hgen _ _ _ _ hlen hfl

theorem genStep_spec (st : GenState) (r : Nat) (hne : st.walls ≠ [])
    (hinv : GenInv st) :
    GenInv (genStep st r) ∧ genMeasure (genStep st r) < genMeasure st ∧
    (genStep st r).maze.dimensions = st.maze.dimensions ∧
    (genStep st r).maze.start = st.maze.start := by
  have hlen : 0 < st.walls.length := List.length_pos.mpr hne
  have hj : r % st.walls.length < st.walls.length := Nat.mod_lt r hlen
  have hinv2 := hinv
  obtain ⟨hd, hwl, hnd, hvalid, hstart, hfrontier, hbound, hcount, htree⟩ :=
    hinv2
  have hwall_mem : st.walls.getD (r % st.walls.length) default ∈ st.walls :=
    getD_mem _ _ _ hj
  obtain ⟨hwall_valid, c0, hc0vis, hc0mem⟩ := hfrontier _ hwall_mem
  rw [get_neighbour_cells_eq] at hc0mem
  by_cases h1 : (st.walls.getD (r % st.walls.length) default).position ∈
      st.visited
  · by_cases h2 : incWrap st.maze.dimensions
        (st.walls.getD (r % st.walls.length) default).position
        (st.walls.getD (r % st.walls.length) default).axis ∈ st.visited
    · rw [genStep_both_visited st r h1 h2]
      refine ⟨genInv_step_A st (r % st.walls.length) hj hinv h1 h2, ?_, rfl,
        rfl⟩
      show (swapRemove st.walls (r % st.walls.length)).length +
          2 * st.maze.dimensions.length *
            (st.maze.dimensions.prod - st.visited.length) <
        st.walls.length + 2 * st.maze.dimensions.length *
          (st.maze.dimensions.prod - st.visited.length)
      rw [swapRemove_length]
      have hgen : ∀ X : Nat, st.walls.length - 1 + X < st.walls.length + X :=
        fun X => by omega
      exact hgen _
    · have hconn : WallConnects st.maze.dimensions
          (st.walls.getD (r % st.walls.length) default)
          (st.walls.getD (r % st.walls.length) default).position
          (incWrap st.maze.dimensions
            (st.walls.getD (r % st.walls.length) default).position
            (st.walls.getD (r % st.walls.length) default).axis) :=
        Or.inl (get_neighbour_cells_eq _ _)
      have hu_valid : ValidPos st.maze.dimensions
          (incWrap st.maze.dimensions
            (st.walls.getD (r % st.walls.length) default).position
            (st.walls.getD (r % st.walls.length) default).axis) :=
        incWrap_valid st.maze.dimensions _ _ hwall_valid.1
          (hd _ (getD_mem _ _ _ hwall_valid.2))
      rw [genStep_new_second st r h1 h2]
      exact ⟨genInv_step_B st (r % st.walls.length) hj hinv _ _ h2 h1 hconn,
        genMeasure_B_lt st (r % st.walls.length) hj _ _ hu_valid h2 hnd
          hvalid, rfl, rfl⟩
  · have h2 : incWrap st.maze.dimensions
        (st.walls.getD (r % st.walls.length) default).position
        (st.walls.getD (r % st.walls.length) default).axis ∈ st.visited := by
      rcases List.mem_cons.mp hc0mem with h | h
      · exact absurd (by rw [← h]; exact hc0vis) h1
      · rcases List.mem_cons.mp h with h' | h'
        · rw [← h']; exact hc0vis
        · simp at h'
    have hconn : WallConnects st.maze.dimensions
        (st.walls.getD (r % st.walls.length) default)
        (incWrap st.maze.dimensions
          (st.walls.getD (r % st.walls.length) default).position
          (st.walls.getD (r % st.walls.length) default).axis)
        (st.walls.getD (r % st.walls.length) default).position :=
      Or.inr (get_neighbour_cells_eq _ _)
    rw [genStep_new_first st r h1 h2]
    exact ⟨genInv_step_B st (r % st.walls.length) hj hinv _ _ h1 h2 hconn,
      genMeasure_B_lt st (r % st.walls.length) hj _ _ hwall_valid.1 h1 hnd
        hvalid, rfl, rfl⟩

theorem generateLoop_spec (rng : Nat → Nat) :
    ∀ (fuel idx : Nat) (st : GenState), GenInv st → genMeasure st < fuel →
    ∃ stf, generateLoop rng fuel idx st = some stf ∧ GenInv stf ∧
      stf.walls = [] ∧ stf.maze.dimensions = st.maze.dimensions ∧
      stf.maze.start = st.maze.start := by
  intro fuel
  induction fuel with
  | zero =>
    intro idx st _ hm
    exact absurd hm (Nat.not_lt_zero _)
  | succ n ih =>
    intro idx st hinv hm
    rw [generateLoop]
    by_cases hw : st.walls.isEmpty
    · rw [if_pos hw]
      exact ⟨st, rfl, hinv, List.isEmpty_iff.mp hw, rfl, rfl⟩
    · rw [if_neg hw]
      have hne : st.walls ≠ [] := fun h => hw (by rw [h]; rfl)
      obtain ⟨hinv', hlt, hdim, hstart⟩ := genStep_spec st (rng idx) hne hinv
      obtain ⟨stf, heq, hinvf, hwf, hdimf, hstartf⟩ :=
        ih (idx + 1) (genStep st (rng idx)) hinv' (by omega)
      exact ⟨stf, heq, hinvf, hwf, by rw [hdimf, hdim],
        by rw [hstartf, hstart]⟩

theorem randFill_length (rng : Nat → Nat) :
    ∀ (idx : Nat) (ds xs : List Nat), xs.length = ds.length →
    (randFill rng idx ds xs).1.length = ds.length := by
  intro idx ds
  induction ds generalizing idx with
  | nil =>
    intro xs h
    cases xs with
    | nil => rfl
    | cons a b => simp at h
  | cons d t ih =>
    intro xs h
    cases xs with
    | nil => simp at h
    | cons x xs2 =>
      show ((rng idx % d) :: (randFill rng (idx + 1) t xs2).1).length = _
      rw [List.length_cons, ih (idx + 1) xs2 (by simpa using h)]
      rfl

theorem randFill_valid (rng : Nat → Nat) :
    ∀ (idx : Nat) (ds xs : List Nat), xs.length = ds.length →
    (∀ d ∈ ds, 0 < d) → ValidPos ds (randFill rng idx ds xs).1 := by
  intro idx ds
  induction ds generalizing idx with
  | nil =>
    intro xs h _
    cases xs with
    | nil => exact (validPos_nil _).mpr rfl
    | cons a b => simp at h
  | cons d t ih =>
    intro xs h hd
    cases xs with
    | nil => simp at h
    | cons x xs2 =>
      show ValidPos (d :: t) ((rng idx % d) :: (randFill rng (idx + 1) t xs2).1)
      rw [validPos_cons]
      refine ⟨Nat.mod_lt _ (hd d (List.mem_cons_self d t)), ?_⟩
      exact ih (idx + 1) xs2 (by simpa using h)
        (fun e he => hd e (List.mem_cons_of_mem d he))

theorem genInv_init (m : Maze) (hd : ∀ d ∈ m.dimensions, 0 < d)
    (hwl : m.walls.length = m.dimensions.prod * m.dimensions.length)
    (s : List Nat) (hs : ValidPos m.dimensions s) (e : List Nat) :
    GenInv ⟨({ m with start := s, endPos := e } : Maze).reset_walls, [s],
      Wall.from_cell m.dimensions s⟩ := by
  refine ⟨hd, ?_, ?_, ?_, ?_, ?_, ?_, ?_, ?_⟩
  · show (List.replicate m.walls.length true).length = _
    rw [List.length_replicate]
    exact hwl
  · simp
  · intro c hc
    rcases List.mem_cons.mp hc with h | h
    · rw [h]; exact hs
    · simp at h
  · exact List.mem_cons_self _ _
  · intro w hw
    obtain ⟨hwv, htouch⟩ := from_cell_touches m.dimensions s hd hs w hw
    exact ⟨hwv, s, List.mem_cons_self _ _, htouch⟩
  · intro w hwv _ hex1 _
    obtain ⟨a, hamem, havis⟩ := hex1
    apply mem_from_cell_of_neighbour m.dimensions w hwv
    rcases List.mem_cons.mp havis with h | h
    · rw [← h]; exact hamem
    · simp at h
  · show (List.replicate m.walls.length true).count false = _
    rw [List.count_replicate]
    simp
  · refine ⟨fun _ => none, fun _ => 0, ?_, ?_, ?_⟩
    · intro c hc hcne
      rcases List.mem_cons.mp hc with h | h
      · exact absurd h hcne
      · simp at h
    · intro w hwv hwf
      exfalso
      have hidx : m.compute_wall_index w < m.walls.length := by
        rw [hwl]
        exact compute_wall_index_lt m w hwv
      have hwf2 : (List.replicate m.walls.length true).getD
          (m.compute_wall_index w) false = false := hwf
      rw [getD_replicate _ _ _ _ hidx] at hwf2
      simp at hwf2
    · intro c1 _ c2 _ _ _ w p1 p2 hp1 hp2
      simp at hp1

theorem generate_some (m : Maze) (rng : Nat → Nat)
    (hd : ∀ d ∈ m.dimensions, 0 < d)
    (hsl : m.start.length = m.dimensions.length)
    (hwl : m.walls.length = m.dimensions.prod * m.dimensions.length) :
    ∃ stf : GenState, m.generate rng = some stf.maze ∧ GenInv stf ∧
      stf.walls = [] ∧ stf.maze.dimensions = m.dimensions ∧
      stf.maze.start = (randFill rng 0 m.dimensions m.start).1 := by
  have hppos : 0 < m.dimensions.prod := List.prod_pos hd
  have hsval : ValidPos m.dimensions (randFill rng 0 m.dimensions m.start).1 :=
    randFill_valid rng 0 m.dimensions m.start hsl hd
  have hinit := genInv_init m hd hwl (randFill rng 0 m.dimensions m.start).1
    hsval (randFill rng (randFill rng 0 m.dimensions m.start).2 m.dimensions
      m.endPos).1
  have hmeas : genMeasure ⟨({ m with
        start := (randFill rng 0 m.dimensions m.start).1,
        endPos := (randFill rng (randFill rng 0 m.dimensions m.start).2
          m.dimensions m.endPos).1 } : Maze).reset_walls,
      [(randFill rng 0 m.dimensions m.start).1],
      Wall.from_cell m.dimensions (randFill rng 0 m.dimensions m.start).1⟩ <
      2 * m.dimensions.length * m.dimensions.prod + 1 := by
    show (Wall.from_cell m.dimensions
        (randFill rng 0 m.dimensions m.start).1).length +
      2 * m.dimensions.length * (m.dimensions.prod - 1) <
      2 * m.dimensions.length * m.dimensions.prod + 1
    rw [from_cell_length]
    have hsplit : m.dimensions.prod = (m.dimensions.prod - 1) + 1 := by omega
    conv_rhs => rw [hsplit]
    rw [Nat.mul_add, Nat.mul_one]
    have hgen : ∀ X Y : Nat, Y + X < X + Y + 1 := fun X Y => by omega
    exact hgen _ _
  obtain ⟨stf, heq, hinvf, hwf, hdimf, hstartf⟩ := generateLoop_spec rng
    (2 * m.dimensions.length * m.dimensions.prod + 1)
    (randFill rng (randFill rng 0 m.dimensions m.start).2 m.dimensions
      m.endPos).2
    ⟨({ m with
        start := (randFill rng 0 m.dimensions m.start).1,
        endPos := (randFill rng (randFill rng 0 m.dimensions m.start).2
          m.dimensions m.endPos).1 } : Maze).reset_walls,
      [(randFill rng 0 m.dimensions m.start).1],
      Wall.from_cell m.dimensions (randFill rng 0 m.dimensions m.start).1⟩
    hinit hmeas
  refine ⟨stf, ?_, hinvf, hwf, ?_, ?_⟩
  · show (generateLoop rng (2 * m.dimensions.length * m.dimensions.prod + 1)
      (randFill rng (randFill rng 0 m.dimensions m.start).2 m.dimensions
        m.endPos).2
      ⟨({ m with
          start := (randFill rng 0 m.dimensions m.start).1,
          endPos := (randFill rng (randFill rng 0 m.dimensions m.start).2
            m.dimensions m.endPos).1 } : Maze).reset_walls,
        [(randFill rng 0 m.dimensions m.start).1],
        Wall.from_cell m.dimensions
          (randFill rng 0 m.dimensions m.start).1⟩).map
      (fun st => st.maze) = some stf.maze
    rw [heq]
    rfl
  · rw [hdimf]
    rfl
  · rw [hstartf]
    rfl

/-! ### The generator (C6): every cell is visited and open-reachable -/

theorem list_eq_of_getD (l1 l2 : List Nat) (hl : l1.length = l2.length)
    (h : ∀ i, i < l1.length → l1.getD i 0 = l2.getD i 0) : l1 = l2 := by
  apply List.ext_getElem hl
  intro i h1 h2
  have hx := h i h1
  rwa [getD_eq_getElem _ _ _ h1, getD_eq_getElem _ _ _ h2] at hx

theorem mod_eq_zero_bounds (x d : Nat) (h : x % d = 0) (h1 : 0 < x)
    (h2 : x < 2 * d) : x = d := by
  by_cases hx : x < d
  · rw [Nat.mod_eq_of_lt hx] at h
    omega
  · push_neg at hx
    rw [Nat.mod_eq_sub_mod hx, Nat.mod_eq_of_lt (by omega)] at h
    omega

theorem torusGap_eq_zero (ds c q : List Nat) (hd : ∀ d ∈ ds, 0 < d)
    (hc : ValidPos ds c) (hq : ValidPos ds q) (h : torusGap ds c q = 0) :
    q = c := by
  have hterm := Finset.sum_eq_zero_iff.mp h
  apply list_eq_of_getD q c (hq.1.trans hc.1.symm)
  intro i hi
  have hid : i < ds.length := by rw [← hq.1]; exact hi
  have ht := hterm i (Finset.mem_range.mpr hid)
  have hdi := hd _ (getD_mem ds i 0 hid)
  have hci := hc.2 i hid
  have hqi := hq.2 i hid
  have hx := mod_eq_zero_bounds _ _ ht (by omega) (by omega)
  omega

theorem incWrap_term_lt (d cv qv : Nat) (hdp : 0 < d) (hcv : cv < d)
    (hqv : qv < d) (hne : qv ≠ cv) :
    (cv + (d - (if qv ≠ d - 1 then qv + 1 else 0))) % d <
      (cv + (d - qv)) % d := by
  by_cases hcase : qv < cv
  · have hqd : qv ≠ d - 1 := by omega
    rw [if_pos hqd]
    have hx1 : cv + (d - (qv + 1)) = d + (cv - qv - 1) := by omega
    have hx2 : cv + (d - qv) = d + (cv - qv) := by omega
    have hm1 : (d + (cv - qv - 1)) % d = cv - qv - 1 := by
      rw [Nat.add_mod_left]
      exact Nat.mod_eq_of_lt (by omega)
    have hm2 : (d + (cv - qv)) % d = cv - qv := by
      rw [Nat.add_mod_left]
      exact Nat.mod_eq_of_lt (by omega)
    rw [hx1, hx2, hm1, hm2]
    omega
  · have hlt : cv < qv := by omega
    by_cases hqd : qv = d - 1
    · rw [if_neg (by omega)]
      have hx1 : cv + (d - 0) = d + cv := by omega
      have hm1 : (d + cv) % d = cv := by
        rw [Nat.add_mod_left]
        exact Nat.mod_eq_of_lt hcv
      have hm2 : (cv + (d - qv)) % d = cv + (d - qv) :=
        Nat.mod_eq_of_lt (by omega)
      rw [hx1, hm1, hm2]
      omega
    · rw [if_pos hqd]
      have hm1 : (cv + (d - (qv + 1))) % d = cv + (d - (qv + 1)) :=
        Nat.mod_eq_of_lt (by omega)
      have hm2 : (cv + (d - qv)) % d = cv + (d - qv) :=
        Nat.mod_eq_of_lt (by omega)
      rw [hm1, hm2]
      omega

theorem torusGap_step (ds c q : List Nat) (hd : ∀ d ∈ ds, 0 < d)
    (hc : ValidPos ds c) (hq : ValidPos ds q) (hne : q ≠ c) :
    ∃ ax, ax < ds.length ∧
      torusGap ds c (incWrap ds q ax) < torusGap ds c q := by
  have hex : ∃ ax, ax < ds.length ∧ q.getD ax 0 ≠ c.getD ax 0 := by
    by_contra hno
    push_neg at hno
    refine hne (list_eq_of_getD q c (hq.1.trans hc.1.symm) ?_)
    intro i hi
    exact hno i (by rw [← hq.1]; exact hi)
  obtain ⟨ax, hax, hne2⟩ := hex
  refine ⟨ax, hax, ?_⟩
  have hga : (incWrap ds q ax).getD ax 0 =
      if q.getD ax 0 ≠ ds.getD ax 0 - 1 then q.getD ax 0 + 1 else 0 := by
    unfold incWrap
    split <;> rw [getD_set_self _ _ _ _ (by rw [hq.1]; exact hax)]
  unfold torusGap
  apply Finset.sum_lt_sum
  · intro i hi
    by_cases hiax : i = ax
    · subst hiax
      apply le_of_lt
      rw [hga]
      exact incWrap_term_lt (ds.getD i 0) (c.getD i 0) (q.getD i 0)
        (hd _ (getD_mem ds i 0 hax)) (hc.2 i hax) (hq.2 i hax) hne2
    · have hgq : (incWrap ds q ax).getD i 0 = q.getD i 0 := by
        unfold incWrap
        split <;> exact getD_set_ne _ _ _ _ _ (fun h => hiax h.symm)
      rw [hgq]
  · refine ⟨ax, Finset.mem_range.mpr hax, ?_⟩
    rw [hga]
    exact incWrap_term_lt (ds.getD ax 0) (c.getD ax 0) (q.getD ax 0)
      (hd _ (getD_mem ds ax 0 hax)) (hc.2 ax hax) (hq.2 ax hax) hne2

theorem torusReach_all (m : Maze) (hd : ∀ d ∈ m.dimensions, 0 < d) :
    ∀ (n : Nat) (q c : List Nat), ValidPos m.dimensions q →
    ValidPos m.dimensions c → torusGap m.dimensions c q ≤ n →
    TorusReach m q c := by
  intro n
  induction n with
  | zero =>
    intro q c hq hc hgap
    have hqc : q = c :=
      torusGap_eq_zero m.dimensions c q hd hc hq (by omega)
    rw [hqc]
    exact TorusReach.refl c
  | succ k ih =>
    intro q c hq hc hgap
    by_cases hqc : q = c
    · rw [hqc]
      exact TorusReach.refl c
    · obtain ⟨ax, hax, hlt⟩ := torusGap_step m.dimensions c q hd hc hq hqc
      refine TorusReach.step q c ax hax ?_
      have hq2 : ValidPos m.dimensions (m.traverse q ax true) := by
        rw [traverse_true_eq]
        exact incWrap_valid _ _ _ hq (hd _ (getD_mem _ _ _ hax))
      apply ih (m.traverse q ax true) c hq2 hc
      rw [traverse_true_eq]
      omega

theorem genFinal_visited_all (st : GenState) (hinv : GenInv st)
    (hempty : st.walls = []) :
    ∀ c, ValidPos st.maze.dimensions c → c ∈ st.visited := by
  obtain ⟨hd, hwl, hnd, hvalid, hstart, hfrontier, hbound, hcount, htree⟩ :=
    hinv
  have hstep : ∀ q, q ∈ st.visited → ∀ ax, ax < st.maze.dimensions.length →
      incWrap st.maze.dimensions q ax ∈ st.visited := by
    intro q hqvis ax hax
    have hqv : ValidPos st.maze.dimensions q := hvalid q hqvis
    have hwv : ValidWall st.maze.dimensions (Wall.mk q ax) := ⟨hqv, hax⟩
    have hneigh : (Wall.mk q ax).get_neighbour_cells st.maze.dimensions =
        [q, incWrap st.maze.dimensions q ax] := get_neighbour_cells_eq _ _
    by_cases hin : incWrap st.maze.dimensions q ax ∈ st.visited
    · exact hin
    · exfalso
      cases hgw : st.maze.get_wall (Wall.mk q ax)
      · obtain ⟨par, dep, hA, hB, hC⟩ := htree
        obtain ⟨cc, hcvis, hcne, p, hpar⟩ := hB _ hwv hgw
        obtain ⟨w2, p2, hpar2, hp2vis, _, hconn2, _⟩ := hA cc hcvis hcne
        rw [hpar] at hpar2
        injection hpar2 with hpr
        injection hpr with hw2 hp2
        subst hw2
        subst hp2
        have hconn1 : WallConnects st.maze.dimensions (Wall.mk q ax) q
            (incWrap st.maze.dimensions q ax) := Or.inl hneigh
        rcases wallConnects_cases _ _ _ _ _ _ hconn1 hconn2 with h | h
        · exact hin (by rw [h.2]; exact hcvis)
        · exact hin (by rw [h.2]; exact hp2vis)
      · have hmem := hbound _ hwv hgw ⟨q, by rw [hneigh]; simp, hqvis⟩
          ⟨incWrap st.maze.dimensions q ax, by rw [hneigh]; simp, hin⟩
        rw [hempty] at hmem
        simp at hmem
  intro c hcval
  have hreach := torusReach_all st.maze hd
    (torusGap st.maze.dimensions c st.maze.start) st.maze.start c
    (hvalid _ hstart) hcval (le_refl _)
  have hwalk : ∀ p q, TorusReach st.maze p q → p ∈ st.visited →
      q ∈ st.visited := by
    intro p q hr
    induction hr with
    | refl p => exact fun h => h
    | step p q ax hax hr ih =>
      intro hp
      apply ih
      rw [traverse_true_eq]
      exact hstep p hp ax hax
  exact hwalk st.maze.start c hreach hstart

theorem neighbours_mem_of_connects (m : Maze)
    (w : Wall) (p c : List Nat) (hp : ValidPos m.dimensions p)
    (hc : ValidPos m.dimensions c)
    (hconn : WallConnects m.dimensions w p c) (hne : p ≠ c) :
    (w, c) ∈ m.neighbours p := by
  obtain ⟨wp, wax⟩ := w
  rcases hconn with h | h
  · -- neighbour cells are [p, c] with c one step up from p
    rw [get_neighbour_cells_eq] at h
    injection h with h1 hrest
    injection hrest with h2 _
    dsimp only at h1 h2
    rw [h1] at h2
    rw [h1]
    have hax : wax < m.dimensions.length := by
      by_contra hge
      push_neg at hge
      have hlen : p.length = m.dimensions.length := hp.1
      have hid : incWrap m.dimensions p wax = p := by
        unfold incWrap
        split <;> exact List.set_eq_of_length_le (by omega)
      rw [hid] at h2
      exact hne h2
    apply List.mem_flatMap.mpr
    refine ⟨wax, List.mem_range.mpr hax, ?_⟩
    apply List.mem_cons.mpr
    right
    apply List.mem_cons.mpr
    left
    show ((Wall.mk p wax : Wall), c) =
      ((Wall.mk p wax : Wall), m.traverse p wax true)
    rw [traverse_true_eq, h2]
  · -- neighbour cells are [c, p] with p one step up from c
    rw [get_neighbour_cells_eq] at h
    injection h with h1 hrest
    injection hrest with h2 _
    dsimp only at h1 h2
    rw [h1] at h2
    rw [h1]
    have hax : wax < m.dimensions.length := by
      by_contra hge
      push_neg at hge
      have hlen : c.length = m.dimensions.length := hc.1
      have hid : incWrap m.dimensions c wax = c := by
        unfold incWrap
        split <;> exact List.set_eq_of_length_le (by omega)
      rw [hid] at h2
      exact hne h2.symm
    apply List.mem_flatMap.mpr
    refine ⟨wax, List.mem_range.mpr hax, ?_⟩
    apply List.mem_cons.mpr
    left
    show ((Wall.mk c wax : Wall), c) =
      ((Wall.mk (m.traverse p wax false) wax : Wall), m.traverse p wax false)
    rw [traverse_false_eq, ← h2,
      decWrap_incWrap m.dimensions c wax (by rw [hc.1]; exact hax)
        (hc.2 wax hax)]

theorem genFinal_open_reachable (st : GenState) (hinv : GenInv st) :
    ∀ c ∈ st.visited, Maze.OpenReachable st.maze c := by
  obtain ⟨hd, hwl, hnd, hvalid, hstart, hfrontier, hbound, hcount, htree⟩ :=
    hinv
  obtain ⟨par, dep, hA, hB, hC⟩ := htree
  have hmain : ∀ n, ∀ c ∈ st.visited, dep c ≤ n →
      Maze.OpenReachable st.maze c := by
    intro n
    induction n with
    | zero =>
      intro c hcvis hdep
      by_cases hcs : c = st.maze.start
      · rw [hcs]
        exact Maze.OpenReachable.refl
      · exfalso
        obtain ⟨w, p, _, _, _, _, hdeq⟩ := hA c hcvis hcs
        omega
    | succ k ih =>
      intro c hcvis hdep
      by_cases hcs : c = st.maze.start
      · rw [hcs]
        exact Maze.OpenReachable.refl
      · obtain ⟨w, p, hpar, hpvis, hopen, hconn, hdeq⟩ := hA c hcvis hcs
        have hp_reach : Maze.OpenReachable st.maze p := ih p hpvis (by omega)
        have hpc : p ≠ c := by
          intro he
          rw [he] at hdeq
          omega
        exact Maze.OpenReachable.step p (w, c) hp_reach
          (neighbours_mem_of_connects st.maze w p c (hvalid p hpvis)
            (hvalid c hcvis) hconn hpc) hopen
  intro c hcvis
  exact hmain (dep c) c hcvis (le_refl _)

/-! ### The generator (C6): the open walls carry no cycle -/

theorem nodup_getD_ne [Inhabited α] (l : List α) (hnd : l.Nodup) (i j : Nat)
    (hi : i < l.length) (hj : j < l.length) (hij : i ≠ j) :
    l.getD i default ≠ l.getD j default := by
  rw [getD_eq_getElem _ _ _ hi, getD_eq_getElem _ _ _ hj]
  intro he
  exact hij (hnd.getElem_inj_iff.mp he)

theorem exists_max_fun (f : Nat → Nat) (n : Nat) :
    ∃ i, i ≤ n ∧ ∀ j, j ≤ n → f j ≤ f i := by
  induction n with
  | zero =>
    refine ⟨0, le_refl 0, ?_⟩
    intro j hj
    rw [Nat.le_zero.mp hj]
  | succ k ih =>
    obtain ⟨i, hi, hmax⟩ := ih
    by_cases hc : f (k + 1) ≤ f i
    · refine ⟨i, by omega, ?_⟩
      intro j hj
      by_cases hj2 : j ≤ k
      · exact hmax j hj2
      · have hje : j = k + 1 := by omega
        rw [hje]
        exact hc
    · refine ⟨k + 1, le_refl _, ?_⟩
      intro j hj
      by_cases hj2 : j ≤ k
      · exact le_trans (hmax j hj2) (by omega)
      · have hje : j = k + 1 := by omega
        rw [hje]

theorem openWalk_cells (m : Maze) (a b : List Nat) (ws : List Wall)
    (h : OpenWalk m a b ws) :
    ∃ cs : List (List Nat), cs.length = ws.length + 1 ∧
      cs.getD 0 [] = a ∧ cs.getD ws.length [] = b ∧
      ∀ i, i < ws.length →
        ValidWall m.dimensions (ws.getD i default) ∧
        m.get_wall (ws.getD i default) = false ∧
        WallConnects m.dimensions (ws.getD i default)
          (cs.getD i []) (cs.getD (i + 1) []) := by
  induction h with
  | nil a =>
    exact ⟨[a], rfl, rfl, rfl, fun i hi => absurd hi (by simp)⟩
  | cons a b c w ws hv hop hcn hrest ih =>
    obtain ⟨cs, hlen, h0, hlast, hsteps⟩ := ih
    refine ⟨a :: cs, by simp [hlen], rfl, ?_, ?_⟩
    · show (a :: cs).getD (ws.length + 1) [] = c
      simp only [List.getD_cons_succ]
      exact hlast
    · intro i hi
      simp only [List.length_cons] at hi
      cases i with
      | zero =>
        simp only [List.getD_cons_zero, Nat.zero_add, List.getD_cons_succ]
        refine ⟨hv, hop, ?_⟩
        rw [h0]
        exact hcn
      | succ k =>
        have hk : k < ws.length := by omega
        obtain ⟨hv2, hop2, hcn2⟩ := hsteps k hk
        simp only [List.getD_cons_succ]
        exact ⟨hv2, hop2, hcn2⟩

theorem genFinal_no_cycle (st : GenState) (hinv : GenInv st) :
    NoOpenCycle st.maze := by
  obtain ⟨hd, hwl, hnd, hvalid, hstart, hfrontier, hbound, hcount, htree⟩ :=
    hinv
  obtain ⟨par, dep, hA, hB, hC⟩ := htree
  intro a ws hne hnodup hwalk
  obtain ⟨cs, hlen, h0, hlast, hsteps⟩ := openWalk_cells st.maze a a ws hwalk
  set n := ws.length with hn
  have hn1 : 1 ≤ n := by
    cases ws with
    | nil => exact absurd rfl hne
    | cons x xs => simp [hn]
  have hclass : ∀ i, i < n →
      (dep (cs.getD (i + 1) []) = dep (cs.getD i []) + 1 ∧
        ∃ pp, par (cs.getD (i + 1) []) = some (ws.getD i default, pp)) ∨
      (dep (cs.getD i []) = dep (cs.getD (i + 1) []) + 1 ∧
        ∃ pp, par (cs.getD i []) = some (ws.getD i default, pp)) := by
    intro i hi
    obtain ⟨hv, hop, hcn⟩ := hsteps i hi
    obtain ⟨z, hzvis, hzne, pp, hpar⟩ := hB _ hv hop
    obtain ⟨w2, p2, hpar2, hp2vis, _, hconn2, hdep2⟩ := hA z hzvis hzne
    rw [hpar] at hpar2
    injection hpar2 with hpr
    injection hpr with hw2 hp2
    subst hw2
    subst hp2
    rcases wallConnects_cases _ _ _ _ _ _ hcn hconn2 with h | h
    · left
      constructor
      · rw [h.1, h.2]
        exact hdep2
      · exact ⟨pp, by rw [h.2]; exact hpar⟩
    · right
      constructor
      · rw [h.1, h.2]
        exact hdep2
      · exact ⟨pp, by rw [h.1]; exact hpar⟩
  have hD0n : dep (cs.getD 0 []) = dep (cs.getD n []) := by rw [h0, hlast]
  obtain ⟨im, him, hmax0⟩ := exists_max_fun (fun i => dep (cs.getD i [])) n
  have hmax : ∀ j, j ≤ n → dep (cs.getD j []) ≤ dep (cs.getD im []) := hmax0
  have hnn : n - 1 + 1 = n := by omega
  by_cases him0 : im = 0 ∨ im = n
  · have hmaxz : ∀ j, j ≤ n → dep (cs.getD j []) ≤ dep (cs.getD 0 []) := by
      intro j hj
      rcases him0 with h | h
      · have hx := hmax j hj
        rw [h] at hx
        exact hx
      · have hx := hmax j hj
        rw [h] at hx
        rw [hD0n]
        exact hx
    rcases hclass 0 (by omega) with h1 | h1
    · simp only [Nat.zero_add] at h1
      obtain ⟨hdep0, _⟩ := h1
      have hx := hmaxz 1 (by omega)
      omega
    · simp only [Nat.zero_add] at h1
      obtain ⟨hdep0, pp1, hpar1⟩ := h1
      rcases hclass (n - 1) (by omega) with h2 | h2
      · rw [hnn] at h2
        obtain ⟨hdepn, pp2, hparn⟩ := h2
        have hcs0n : cs.getD n [] = cs.getD 0 [] := by rw [hlast, h0]
        by_cases hne1 : n = 1
        · rw [hcs0n] at hdepn
          rw [(by omega : n - 1 = 0)] at hdepn
          omega
        · rw [hcs0n] at hparn
          rw [hpar1] at hparn
          injection hparn with hpr
          injection hpr with hwe _
          exact nodup_getD_ne ws hnodup 0 (n - 1) (by omega) (by omega)
            (by omega) hwe
      · rw [hnn] at h2
        obtain ⟨hdepn, _⟩ := h2
        have hx := hmaxz (n - 1) (by omega)
        omega
  · push_neg at him0
    obtain ⟨him1, him2⟩ := him0
    rcases hclass (im - 1) (by omega) with h1 | h1
    · rw [(by omega : im - 1 + 1 = im)] at h1
      obtain ⟨hdep1, pp1, hpar1⟩ := h1
      rcases hclass im (by omega) with h2 | h2
      · obtain ⟨hdep2, _⟩ := h2
        have hx := hmax (im + 1) (by omega)
        omega
      · obtain ⟨hdep2, pp2, hpar2⟩ := h2
        rw [hpar1] at hpar2
        injection hpar2 with hpr
        injection hpr with hwe _
        exact nodup_getD_ne ws hnodup (im - 1) im (by omega) (by omega)
          (by omega) hwe
    · rw [(by omega : im - 1 + 1 = im)] at h1
      obtain ⟨hdep1, _⟩ := h1
      have hx := hmax (im - 1) (by omega)
      omega

/-- C6: for every maze whose dimension vector is nonempty with every
entry positive (and with the representation invariants every Rust
`Maze` value satisfies: `start` has one coordinate per axis and the
wall array has `prod(dims) * D` entries), and for every random source,
`generate` returns, and in the resulting maze exactly
`cellCount - 1` walls are open, every valid cell is reachable from the
start cell through open walls, and the open-wall graph contains no
cycle: the open walls form a spanning tree of the cell-adjacency
graph. -/
theorem generate_spanning_tree (m : Maze) (rng : Nat → Nat)
    (hD : 1 ≤ m.dimensions.length)
    (hd : ∀ d ∈ m.dimensions, 0 < d)
    (hsl : m.start.length = m.dimensions.length)
    (hwl : m.walls.length = m.dimensions.prod * m.dimensions.length) :
    ∃ m2 : Maze, m.generate rng = some m2 ∧
      m2.dimensions = m.dimensions ∧
      countOpen m2 = m.dimensions.prod - 1 ∧
      (∀ c, ValidPos m2.dimensions c → m2.OpenReachable c) ∧
      NoOpenCycle m2 := by
  obtain ⟨stf, heq, hinvf, hwf, hdimf, hstartf⟩ :=
    generate_some m rng hd hsl hwl
  refine ⟨stf.maze, heq, hdimf, ?_, ?_, genFinal_no_cycle stf hinvf⟩
  · have hall := genFinal_visited_all stf hinvf hwf
    have hinv2 := hinvf
    obtain ⟨hdf, hwlf, hndf, hvalidf, _, _, _, hcountf, _⟩ := hinv2
    have hvlen : stf.visited.length = stf.maze.dimensions.prod :=
      nodup_valid_length_eq stf.maze.dimensions stf.visited hndf hvalidf hall
    show stf.maze.walls.count false = _
    rw [hcountf, hvlen, hdimf]
  · intro c hcval
    exact genFinal_open_reachable stf hinvf c
      (genFinal_visited_all stf hinvf hwf c hcval)

/-- Witness for C6: the spanning-tree statement instantiated on the
one-dimensional maze of shape `[2]` with the all-zero random source. -/
theorem generate_spanning_tree_witness :
    ∃ m2 : Maze, (Maze.new [2]).generate (fun _ => 0) = some m2 ∧
      m2.dimensions = (Maze.new [2]).dimensions ∧
      countOpen m2 = (Maze.new [2]).dimensions.prod - 1 ∧
      (∀ c, ValidPos m2.dimensions c → m2.OpenReachable c) ∧
      NoOpenCycle m2 :=
  generate_spanning_tree (Maze.new [2]) (fun _ => 0) (by decide) (by decide)
    (by decide) (by decide)

end Mazo
